import Mathlib

/-!
Verification of the PACKR structure-first binary codec (C sources under
src/c).  Every definition below is a shallow embedding of the corresponding
C function, named after it.  Bytes are modelled as natural numbers
(values kept below 256 by construction), buffers as lists, machine
integers as Nat/Int with explicit reductions modulo 2^32 where the C code
overflows, and C doubles as exact rationals where only algebraic facts are
claimed (the fixed-point FLOAT32 paths).

The repository ships two headers that disagree; the header actually used by
src/c/src/packr.c (the one defining TOKEN_DOUBLE and friends and the real
encoder struct) is not present under src.  The byte values of the token
constants missing from the in-tree legacy header are modelled from the
specification, section 4.1, which the spec declares authoritative.
-/

set_option maxRecDepth 20000

namespace Packr

/-! ## Bytes, varints, zigzag -/

/-- List indexing with a zero default, standing for C pointer indexing. -/
def li (l : List Nat) (i : Nat) : Nat := l.getD i 0

/-- Little-endian 4-byte encoding of a 32-bit value (store_le32 and the
explicit shift/mask sequences in the C sources). -/
def le32 (v : Nat) : List Nat :=
  [v % 256, v / 256 % 256, v / 65536 % 256, v / 16777216 % 256]

/-- Little-endian 4-byte read, as in the decoder's explicit shift-or
sequences. -/
def rd32 (a b c d : Nat) : Nat := a + b * 256 + c * 65536 + d * 16777216

/-- LEB128 varint encoder, from packr_encode_varint in packr.c: emit seven
bits at a time, low first, high bit set on all but the last byte.  The C
loop runs on a uint32 and iterates at most five times; the structural
counter is that loop bound (never exhausted for 32-bit values). -/
def varintEncGo : Nat → Nat → List Nat
  | v, 0 => [v % 128]
  | v, fuel + 1 =>
    if v > 0x7F then (v % 128 + 128) :: varintEncGo (v / 128) fuel else [v % 128]

def varintEnc (v : Nat) : List Nat := varintEncGo v 5

/-- Zig-zag encoding of a 32-bit signed integer, the closed form of
`(uint32_t)((value << 1) ^ (value >> 31))` from packr.c, valid for all
int32 inputs. -/
def zigzag_encode (v : Int) : Nat :=
  if v ≥ 0 then (2 * v).toNat else (-2 * v - 1).toNat

/-- Zig-zag decoding, the closed form of
`(int32_t)((val >> 1) ^ -(int32_t)(val & 1))` from packr.c. -/
def zigzag_decode (u : Nat) : Int :=
  if u % 2 = 0 then (u / 2 : Nat) else -(((u + 1) / 2 : Nat) : Int)

theorem zigzag_roundtrip (v : Int) : zigzag_decode (zigzag_encode v) = v := by
  unfold zigzag_encode zigzag_decode
  by_cases h : v ≥ 0
  · simp only [h, if_true]
    have h2 : (2 * v).toNat = 2 * v.toNat := by omega
    have : (2 * v.toNat) % 2 = 0 := by omega
    rw [h2]
    simp only [this, if_true]
    omega
  · simp only [h, if_false]
    have h2 : (-2 * v - 1).toNat = 2 * (-v).toNat - 1 := by omega
    have hpos : 1 ≤ (-v).toNat := by omega
    rw [h2]
    have : (2 * (-v).toNat - 1) % 2 = 1 := by omega
    simp only [this, if_neg (by omega : ¬(2 * (-v).toNat - 1) % 2 = 0)]
    omega

/-! ## CRC-32 (make_crc_table / update_crc32 / calculate_crc32) -/

/-- One bit step of the CRC table construction: shift right, xor the
reversed polynomial 0xEDB88320 when the low bit was set. -/
def crcStep (c : Nat) : Nat :=
  if c % 2 = 1 then Nat.xor 0xEDB88320 (c / 2) else c / 2

/-- Eight `crcStep`s, one table entry of make_crc_table. -/
def crcEntry (n : Nat) : Nat :=
  crcStep (crcStep (crcStep (crcStep (crcStep (crcStep (crcStep (crcStep n)))))))

/-- update_crc32: per byte, index the table with the low byte of
crc xor data and shift. -/
def update_crc32 (crc : Nat) (data : List Nat) : Nat :=
  data.foldl (fun c b => Nat.xor (c / 256) (crcEntry ((Nat.xor c b) % 256))) crc

/-- calculate_crc32: initial value and final xor are 0xFFFFFFFF. -/
def calculate_crc32 (data : List Nat) : Nat :=
  Nat.xor (update_crc32 0xFFFFFFFF data) 0xFFFFFFFF

/-! ## LRU dictionary (dict_init / dict_get_or_add from packr.c) -/

/-- One dictionary slot: an owned byte string (none = empty slot) and its
last-used stamp. -/
structure DictEntry where
  value : Option (List Nat)
  lastUsed : Nat
deriving DecidableEq

/-- A 64-entry dictionary with its usage counter. -/
structure Dict where
  entries : List DictEntry
  usage : Nat
deriving DecidableEq

/-- dict_init: 64 empty slots, stamps 0, counter 0 (memset). -/
def dict_init : Dict := ⟨List.replicate 64 ⟨none, 0⟩, 0⟩

/-- The lookup scan of dict_get_or_add: first index whose slot holds
exactly this key (value set, length equal, bytes equal). -/
def dictFindGo (key : List Nat) : List DictEntry → Nat → Option Nat
  | [], _ => none
  | e :: rest, i =>
    if e.value = some key then some i else dictFindGo key rest (i + 1)

def dictFind (entries : List DictEntry) (key : List Nat) : Option Nat :=
  dictFindGo key entries 0

/-- The first-empty-slot scan of dict_get_or_add. -/
def dictEmptyGo : List DictEntry → Nat → Option Nat
  | [], _ => none
  | e :: rest, i =>
    if e.value = none then some i else dictEmptyGo rest (i + 1)

def dictFirstEmpty (entries : List DictEntry) : Option Nat :=
  dictEmptyGo entries 0

/-- The LRU scan of dict_get_or_add: running minimum over the stamps with
strict comparison, so the lowest index wins ties.  `i` is the index of the
next entry to examine. -/
def dictMinScan : List DictEntry → Nat → Nat → Nat → Nat
  | [], _, best, _ => best
  | e :: rest, i, best, bestStamp =>
    if e.lastUsed < bestStamp then dictMinScan rest (i + 1) i e.lastUsed
    else dictMinScan rest (i + 1) best bestStamp

/-- Index selected by the two claim passes of dict_get_or_add: first empty
slot, else the slot with the minimal stamp. -/
def dictClaimSlot (entries : List DictEntry) : Nat :=
  match dictFirstEmpty entries with
  | some i => i
  | none => dictMinScan entries 0 64 (2 ^ 64 - 1)

/-- dict_get_or_add: returns (index, is_new, updated dictionary).  A hit
bumps the stamp; a miss claims a slot (first empty, else LRU), installs the
key and stamps it with the incremented counter. -/
def dict_get_or_add (d : Dict) (key : List Nat) : Nat × Bool × Dict :=
  match dictFind d.entries key with
  | some i =>
    (i, false,
      ⟨d.entries.set i ⟨some key, d.usage + 1⟩, d.usage + 1⟩)
  | none =>
    let idx := dictClaimSlot d.entries
    (idx, true,
      ⟨d.entries.set idx ⟨some key, d.usage + 1⟩, d.usage + 1⟩)

/-! ## Token alphabet

Byte values from the in-tree header packr.h where present; the constants
that only the missing header defines (DOUBLE, BINARY, DELTA_MEDIUM,
RICE_COLUMN, MFV_COLUMN, ARRAY_STREAM and the chained batch token 0xF0)
are modelled from the spec, section 4.1, which the spec marks
authoritative over the legacy header. -/

def TOKEN_FIELD : Nat := 0x00
def TOKEN_STRING : Nat := 0x40
def TOKEN_MAC : Nat := 0x80
def TOKEN_INT : Nat := 0xC0
def TOKEN_FLOAT16 : Nat := 0xC1
def TOKEN_FLOAT32 : Nat := 0xC2
def TOKEN_DELTA_BASE : Nat := 0xC3
def TOKEN_DELTA_LARGE : Nat := 0xD3
def TOKEN_NEW_STRING : Nat := 0xD4
def TOKEN_NEW_FIELD : Nat := 0xD5
def TOKEN_NEW_MAC : Nat := 0xD6
def TOKEN_BOOL_TRUE : Nat := 0xD7
def TOKEN_BOOL_FALSE : Nat := 0xD8
def TOKEN_NULL : Nat := 0xD9
def TOKEN_ARRAY_START : Nat := 0xDA
def TOKEN_ARRAY_END : Nat := 0xDB
def TOKEN_OBJECT_START : Nat := 0xDC
def TOKEN_OBJECT_END : Nat := 0xDD
def TOKEN_DOUBLE : Nat := 0xDE
def TOKEN_BINARY : Nat := 0xDF
def TOKEN_RLE_REPEAT : Nat := 0xE5
def TOKEN_DELTA_ZERO : Nat := 0xE6
def TOKEN_DELTA_ONE : Nat := 0xE7
def TOKEN_DELTA_NEG_ONE : Nat := 0xE8
def TOKEN_ULTRA_BATCH : Nat := 0xE9
def TOKEN_BITPACK_COL : Nat := 0xEB
def TOKEN_DELTA_MEDIUM : Nat := 0xEC
def TOKEN_RICE_COLUMN : Nat := 0xED
def TOKEN_MFV_COLUMN : Nat := 0xEE
def TOKEN_ARRAY_STREAM : Nat := 0xEF
/-- The chained batch token (source name BATCH_PARTIAL), spec section 4.1. -/
def TOKEN_CHAINED_BATCH : Nat := 0xF0

/-! ## Encoder state (packr_encoder_t, legacy buffered mode)

The work buffer is modelled as an unbounded list: the fixed-buffer
overflow path (BufferFull) is outside every claim, which all presuppose a
sufficiently large work buffer.  The rolling CRC is only used by the
streaming mode; the buffered mode recomputes the CRC over the whole frame
at finish, which is what `packr_encoder_finish` below does. -/

structure Enc where
  out : List Nat
  symbolCount : Nat
  fields : Dict
  strings : Dict
  macs : Dict
deriving DecidableEq

/-- packr_encoder_init, buffered mode (no flush callback, no compression):
empty body, fresh dictionaries. -/
def packr_encoder_init : Enc :=
  ⟨[], 0, dict_init, dict_init, dict_init⟩

/-- buffer_append. -/
def bufApp (e : Enc) (bs : List Nat) : Enc := { e with out := e.out ++ bs }

/-- packr_encode_token: one byte, symbol count incremented. -/
def packr_encode_token (e : Enc) (t : Nat) : Enc :=
  { e with out := e.out ++ [t], symbolCount := e.symbolCount + 1 }

/-- packr_encode_varint (does not touch the symbol count). -/
def packr_encode_varint (e : Enc) (v : Nat) : Enc := bufApp e (varintEnc v)

def packr_encode_null (e : Enc) : Enc := packr_encode_token e TOKEN_NULL

def packr_encode_bool (e : Enc) (b : Bool) : Enc :=
  packr_encode_token e (if b then TOKEN_BOOL_TRUE else TOKEN_BOOL_FALSE)

def packr_encode_int (e : Enc) (v : Int) : Enc :=
  packr_encode_varint (packr_encode_token e TOKEN_INT) (zigzag_encode v)

/-- rint: round to nearest, ties to even, on the exact-rational model of
C doubles. -/
def rintQ (q : ℚ) : ℤ :=
  if q - ⌊q⌋ < 1 / 2 then ⌊q⌋
  else if q - ⌊q⌋ > 1 / 2 then ⌊q⌋ + 1
  else if ⌊q⌋ % 2 = 0 then ⌊q⌋ else ⌊q⌋ + 1

/-- The int32 clamp of packr_encode_float. -/
def i32clamp (z : ℤ) : ℤ :=
  if z > 2147483647 then 2147483647
  else if z < -2147483648 then -2147483648 else z

/-- Four little-endian bytes of an int32 value (two's complement). -/
def i32bytesLE (z : ℤ) : List Nat := le32 ((z % 2 ^ 32).toNat)

/-- packr_encode_float: FLOAT32 token, value scaled by 65536, rounded to
nearest even, clamped to int32, four bytes little-endian. -/
def packr_encode_float (e : Enc) (v : ℚ) : Enc :=
  bufApp (packr_encode_token e TOKEN_FLOAT32) (i32bytesLE (i32clamp (rintQ (v * 65536))))

/-- Eight little-endian bytes of a 64-bit pattern. -/
def le64 (v : Nat) : List Nat :=
  [v % 256, v / 2 ^ 8 % 256, v / 2 ^ 16 % 256, v / 2 ^ 24 % 256,
   v / 2 ^ 32 % 256, v / 2 ^ 40 % 256, v / 2 ^ 48 % 256, v / 2 ^ 56 % 256]

/-- packr_encode_double: the double is stored by its raw IEEE-754 bit
pattern (the C code memcpy's the 64 bits), so the model carries the bit
pattern itself. -/
def packr_encode_double (e : Enc) (bits : Nat) : Enc :=
  bufApp (packr_encode_token e TOKEN_DOUBLE) (le64 bits)

def packr_encode_binary (e : Enc) (data : List Nat) : Enc :=
  bufApp (packr_encode_varint (packr_encode_token e TOKEN_BINARY) data.length) data

def packr_encode_string (e : Enc) (s : List Nat) : Enc :=
  match dict_get_or_add e.strings s with
  | (idx, isNew, d) =>
    let e1 : Enc := { e with strings := d }
    if isNew then
      bufApp (packr_encode_varint (packr_encode_token e1 TOKEN_NEW_STRING) s.length) s
    else
      packr_encode_token e1 (TOKEN_STRING + idx)

def packr_encode_field (e : Enc) (s : List Nat) : Enc :=
  match dict_get_or_add e.fields s with
  | (idx, isNew, d) =>
    let e1 : Enc := { e with fields := d }
    if isNew then
      bufApp (packr_encode_varint (packr_encode_token e1 TOKEN_NEW_FIELD) s.length) s
    else
      packr_encode_token e1 (TOKEN_FIELD + idx)

/-- Hex digit value, as the three if-chains of packr_encode_mac (a
non-hex character contributes zero bits, like the C code). -/
def hexVal (c : Nat) : Nat :=
  if 48 ≤ c ∧ c ≤ 57 then c - 48
  else if 65 ≤ c ∧ c ≤ 70 then c - 65 + 10
  else if 97 ≤ c ∧ c ≤ 102 then c - 97 + 10
  else 0

/-- The MAC text parse loop of packr_encode_mac: skip separators, combine
pairs of hex digits, stop after six bytes or at end of string. -/
def macParseGo : List Nat → Nat → List Nat
  | [], _ => []
  | c :: rest, parsed =>
    if 6 ≤ parsed then []
    else if c = 58 ∨ c = 45 then macParseGo rest parsed
    else
      match rest with
      | [] => [hexVal c * 16 + hexVal 0]
      | lo :: rest2 => (hexVal c * 16 + hexVal lo) :: macParseGo rest2 (parsed + 1)

/-- The six bytes written by packr_encode_mac.  The C code always appends
six bytes of its stack array; entries that were never parsed hold
indeterminate stack memory, modelled as zero (unreachable for the 17-byte
MAC shapes the JSON layer routes here). -/
def macSixBytes (s : List Nat) : List Nat :=
  (macParseGo s 0 ++ List.replicate 6 0).take 6

def packr_encode_mac (e : Enc) (s : List Nat) : Enc :=
  match dict_get_or_add e.macs s with
  | (idx, isNew, d) =>
    let e1 : Enc := { e with macs := d }
    if isNew then
      bufApp (packr_encode_token e1 TOKEN_NEW_MAC) (macSixBytes s)
    else
      packr_encode_token e1 (TOKEN_MAC + idx)

/-- packr_encoder_finish, buffered mode without compression: real header
with the final symbol count, body, then the CRC-32 of header plus body in
little-endian. -/
def packr_encoder_finish (e : Enc) : List Nat :=
  let header := [0x50, 0x4B, 0x52, 0x31, 0x01, 0x00] ++ varintEnc e.symbolCount
  let frame := header ++ e.out
  frame ++ le32 (calculate_crc32 frame)

/-! ## Ultra batch column encoder (packr_ultra.c)

The missing header declares packr_encode_ultra_columns with a trailing
`partial` argument, but the definition in packr_ultra.c takes none and
always emits TOKEN_ULTRA_BATCH; the definition is the authority here. -/

/-- Column buffers (packr_column_t).  Per-row values live in the list
matching the column type; `nulls` is the validity array (1 = present).
`customs` carries the raw JSON blobs of a COL_TYPE_CUSTOM column (never
emitted: packr_encode_ultra_columns has no branch for it). -/
inductive ColType
  | int | float | str | bool | null | custom
deriving DecidableEq

structure Column where
  type : ColType
  ints : List Int
  floats : List ℚ
  strings : List (List Nat)
  bools : List Nat
  nulls : List Nat
  count : Nat

/-- MSB-first bits of the low `n` bits of `val` (bw_write). -/
def bitsOf (val : Nat) (n : Nat) : List Bool :=
  (List.range n).reverse.map (fun i => val / 2 ^ i % 2 = 1)

/-- Unary code of bw_write_unary: q zero bits then a one bit. -/
def unaryBits (q : Nat) : List Bool := List.replicate q false ++ [true]

/-- Pack an MSB-first bit stream into bytes, final byte right-padded with
zero bits (bw_flush). -/
def packBitsGo : List Bool → Nat → List Nat
  | _, 0 => []
  | bits, fuel + 1 =>
    if bits = [] then []
    else
      ((bits.take 8 ++ List.replicate 8 false).take 8).foldl
        (fun acc b => acc * 2 + if b then 1 else 0) 0 :: packBitsGo (bits.drop 8) fuel

def packBits (bits : List Bool) : List Nat := packBitsGo bits (bits.length + 1)

/-- C bit length loop: `while tmp > 0 do tmp >>= 1; bl++`. -/
def bitLenGo : Nat → Nat → Nat
  | _, 0 => 0
  | n, fuel + 1 => if n = 0 then 0 else bitLenGo (n / 2) fuel + 1

/-- C bit length loop, bounded by the 32-bit width of its input. -/
def bitLen (n : Nat) : Nat := bitLenGo n 64

/-- The Rice bit stream of encode_rice_column: per zig-zag delta, unary
quotient then k binary remainder bits. -/
def riceBits (k : Nat) (udeltas : List Nat) : List Bool :=
  udeltas.flatMap (fun u => unaryBits (u / 2 ^ k) ++ bitsOf (u % 2 ^ k) k)

/-- encode_rice_column: none models the C `return 0` (no bytes emitted,
fall back).  Guards in source order: fewer than MIN_RICE_ITEMS = 10
deltas, max |delta| ≥ 1024, and the benefit check `bw.pos < count * 1.5`
(1.5 is exact in binary, so the double comparison is `2*pos < 3*count`).
The capacity guard of the C code is satisfied by the unbounded buffer
model. -/
def encode_rice_column (e : Enc) (deltas : List Int) : Option Enc :=
  if deltas.length < 10 then none
  else
    let maxAbs := deltas.foldl (fun m d => max m d.natAbs) 0
    if 1024 ≤ maxAbs then none
    else
      let k := min (bitLen maxAbs - 2) 7
      let payload := packBits (riceBits k (deltas.map zigzag_encode))
      if 2 * payload.length < 3 * deltas.length then
        some (bufApp
          (packr_encode_varint (packr_encode_token e TOKEN_RICE_COLUMN) deltas.length)
          (k :: payload))
      else none

/-- The delta list of the float branch of encode_numeric_column: each
delta is rint of (value − prev)·65536 and prev advances by the
reconstructed amount delta/65536, exactly as the decoder will. -/
def floatDeltaScan (prev : ℚ) : List ℚ → List Int × ℚ
  | [] => ([], prev)
  | v :: vs =>
    let d := rintQ ((v - prev) * 65536)
    let r := floatDeltaScan (prev + (d : ℚ) / 65536) vs
    (d :: r.1, r.2)

/-- Signed 32-bit wrap-around, for the int32 arithmetic of the int
branch. -/
def wrap32 (z : Int) : Int := (z + 2 ^ 31) % 2 ^ 32 - 2 ^ 31

/-- The delta list of the int branch of encode_numeric_column. -/
def intDeltaScan (prev : Int) : List Int → List Int × Int
  | [] => ([], prev)
  | v :: vs =>
    let d := wrap32 (v - prev)
    let r := intDeltaScan (wrap32 (prev + d)) vs
    (d :: r.1, r.2)

/-- The rle_cost scan of the bitpack-vs-RLE heuristic in
encode_numeric_column (duplicated verbatim in the float and int
branches of the C source). -/
def rleCostScanGo : List Int → Nat → Nat
  | _, 0 => 0
  | [], _ => 0
  | d :: rest, fuel + 1 =>
    if d = 0 then
      let run := 1 + (rest.takeWhile (· = 0)).length
      if run > 3 then
        (2 + if run > 127 then 1 else 0) + rleCostScanGo (rest.drop (run - 1)) fuel
      else 1 + rleCostScanGo rest fuel
    else 1 + rleCostScanGo rest fuel

def rleCostScan (deltas : List Int) : Nat := rleCostScanGo deltas (deltas.length + 1)

/-- The heuristic `rle_cost < bitpack_cost * 0.8`.  The C comparison is
computed in doubles; because the double nearest to 0.8 is 4/5·(1+2⁻⁵⁴)
and both operands are small integers, the rounded product compares to the
integer rle_cost exactly as the rational 4/5 does, so the comparison is
`5·rle < 4·bitpack`. -/
def rleBeatsBitpack (rleCost bitpackCost : Nat) : Bool :=
  5 * rleCost < 4 * bitpackCost

/-- The packed nibble bytes of the bitpack emission loop: two deltas per
byte, each stored as delta+8, odd tail padded with delta 0 (nibble 8). -/
def bitpackBytes : List Int → List Nat
  | [] => []
  | [d] => [((d + 8).toNat % 16) * 16 + 8]
  | d1 :: d2 :: rest =>
    (((d1 + 8).toNat % 16) * 16 + (d2 + 8).toNat % 16) :: bitpackBytes rest

/-- The token-per-delta fallback ladder with its zero-run RLE escape
(runs of more than three zero deltas become RLE_REPEAT + varint run). -/
def deltaTokensGo (e : Enc) : List Int → Nat → Enc
  | _, 0 => e
  | [], _ => e
  | d :: rest, fuel + 1 =>
    if hz : d = 0 ∧ 1 + (rest.takeWhile (· = 0)).length > 3 then
      let run := 1 + (rest.takeWhile (· = 0)).length
      deltaTokensGo
        (packr_encode_varint (packr_encode_token e TOKEN_RLE_REPEAT) run)
        (rest.drop (run - 1)) fuel
    else
      let e1 :=
        if d = 0 then packr_encode_token e TOKEN_DELTA_ZERO
        else if d = 1 then packr_encode_token e TOKEN_DELTA_ONE
        else if d = -1 then packr_encode_token e TOKEN_DELTA_NEG_ONE
        else if -8 ≤ d ∧ d ≤ 7 then
          packr_encode_token e (0xC3 + (d + 8).toNat)
        else if -64 ≤ d ∧ d ≤ 63 then
          { e with out := e.out ++ [TOKEN_DELTA_MEDIUM, (d + 64).toNat % 128],
                   symbolCount := e.symbolCount + 1 }
        else
          packr_encode_varint (packr_encode_token e TOKEN_DELTA_LARGE) (zigzag_encode d)
      deltaTokensGo e1 rest fuel

def deltaTokens (e : Enc) (deltas : List Int) : Enc :=
  deltaTokensGo e deltas (deltas.length + 1)

/-- The delta-stream emission shared by both branches of
encode_numeric_column once the deltas are computed: bitpack when all
deltas are small and the RLE heuristic does not override, else Rice, else
the token ladder. -/
def numericDeltaEmit (e : Enc) (count : Nat) (deltas : List Int) : Enc :=
  let allSmallRaw := deltas.all (fun d => -8 ≤ d ∧ d ≤ 7)
  let allSmall :=
    allSmallRaw && !rleBeatsBitpack (rleCostScan deltas) (count / 2 + 5)
  if allSmall then
    bufApp
      (packr_encode_varint (packr_encode_token e TOKEN_BITPACK_COL) (count - 1))
      (bitpackBytes deltas)
  else
    match encode_rice_column e deltas with
    | some e2 => e2
    | none => deltaTokens e deltas

/-- encode_numeric_column: emit the base value, compute the deltas against
reconstructed values, then the delta stream. -/
def encode_numeric_column (e : Enc) (col : Column) : Enc :=
  if col.count = 0 then e
  else
    match col.type with
    | .float =>
      match col.floats with
      | [] => e
      | first :: restVals =>
        let e1 := packr_encode_float e first
        if col.count = 1 then e1
        else numericDeltaEmit e1 col.count (floatDeltaScan first restVals).1
    | _ =>
      match col.ints with
      | [] => e
      | first :: restVals =>
        let e1 := packr_encode_int e first
        if col.count = 1 then e1
        else numericDeltaEmit e1 col.count (intDeltaScan first restVals).1

/-- Per-row values of a column under its own type, used by the equality
scans of the MFV and constant checks. -/
inductive ColVal
  | i (v : Int) | f (v : ℚ) | s (v : List Nat) | b (v : Nat)
deriving DecidableEq

def colVals (col : Column) : List ColVal :=
  match col.type with
  | .int => (col.ints.take col.count).map ColVal.i
  | .float => (col.floats.take col.count).map ColVal.f
  | .str => (col.strings.take col.count).map ColVal.s
  | .bool => (col.bools.take col.count).map ColVal.b
  | _ => []

/-- The Boyer-Moore majority vote loop of encode_mfv_column. -/
def boyerMoore : Option ColVal → Nat → List ColVal → Option ColVal
  | cand, _, [] => cand
  | _, 0, x :: rest => boyerMoore (some x) 1 rest
  | some c, cnt + 1, x :: rest =>
    if x = c then boyerMoore (some c) (cnt + 2) rest
    else boyerMoore (some c) cnt rest
  | none, cnt + 1, _ :: rest => boyerMoore none cnt rest

/-- LSB-first bitmap bytes: bit j of each byte is set when the predicate
holds for the corresponding row (the `b |= (1 << j)` loops). -/
def bitmapBytesGo : List Bool → Nat → List Nat
  | _, 0 => []
  | flagsList, fuel + 1 =>
    if flagsList = [] then []
    else
      ((flagsList.take 8).enum.foldl
        (fun acc p => acc + if p.2 then 2 ^ p.1 else 0) 0) ::
        bitmapBytesGo (flagsList.drop 8) fuel

def bitmapBytes (flagsList : List Bool) : List Nat :=
  bitmapBytesGo flagsList (flagsList.length + 1)

/-- Emit one column value with the scalar codec matching the column type
(the typed if-chains of encode_mfv_column). -/
def emitColVal (e : Enc) (v : ColVal) : Enc :=
  match v with
  | .i n => packr_encode_int e n
  | .f q => packr_encode_float e q
  | .s s => packr_encode_string e s
  | .b b => packr_encode_bool e (b ≠ 0)

/-- encode_mfv_column: none models `return 0`.  Guards: fewer than 8 rows;
majority candidate must cover at least 60 percent of the rows.  On
success: MFV token, varint count, the mode value, the exception bitmap
(1 = exception), then the exception values in row order. -/
def encode_mfv_column (e : Enc) (col : Column) : Option Enc :=
  if col.count < 8 then none
  else
    let vals := colVals col
    match boyerMoore none 0 vals with
    | none => none
    | some cand =>
      let occurrences := (vals.filter (· = cand)).length
      if occurrences * 10 < col.count * 6 then none
      else
        let e1 := packr_encode_varint (packr_encode_token e TOKEN_MFV_COLUMN) col.count
        let e2 := emitColVal e1 cand
        let e3 := bufApp e2 (bitmapBytes (vals.map (· ≠ cand)))
        some ((vals.filter (· ≠ cand)).foldl emitColVal e3)

/-- The constant-column scan (all values equal the first). -/
def colIsConstant (col : Column) : Bool :=
  match colVals col with
  | [] => true
  | v :: rest => rest.all (· = v)

/-- The null scan (`col->nulls[j] == 0` for any row). -/
def colHasNulls (col : Column) : Bool :=
  (col.nulls.take col.count).any (· = 0)

/-- The flag byte of a column, from the analysis loop of
packr_encode_ultra_columns.  A custom or null typed column falls through
every typed constant scan, so is_constant stays 1 and it is flagged
CONSTANT. -/
def colFlags (col : Column) : Nat :=
  (if colHasNulls col then 0x08 else 0) +
  (if colIsConstant col then 0x01
   else if col.type = ColType.int ∨ col.type = ColType.float then 0x02
   else 0x04)

/-- True when `val == (double)(int32_t)val` for the exact-rational model:
the value is an integer in int32 range (the out-of-range double-to-int
cast is undefined in C and unreachable in the claims). -/
def qIsInt32 (q : ℚ) : Bool := q.den = 1 ∧ -(2 ^ 31) ≤ q.num ∧ q.num < 2 ^ 31

/-- The string RLE fallback of packr_encode_ultra_columns: each distinct
run emits its value once, runs longer than one add RLE_REPEAT and
varint(run−1). -/
def rleStringRunsGo (e : Enc) : List (List Nat) → Nat → Enc
  | _, 0 => e
  | [], _ => e
  | s :: rest, fuel + 1 =>
    let run := 1 + (rest.takeWhile (· = s)).length
    let e1 := packr_encode_string e s
    let e2 :=
      if run > 1 then
        packr_encode_varint (packr_encode_token e1 TOKEN_RLE_REPEAT) (run - 1)
      else e1
    rleStringRunsGo e2 (rest.drop (run - 1)) fuel

def rleStringRuns (e : Enc) (vals : List (List Nat)) : Enc :=
  rleStringRunsGo e vals (vals.length + 1)

/-- The bool RLE fallback. -/
def rleBoolRunsGo (e : Enc) : List Nat → Nat → Enc
  | _, 0 => e
  | [], _ => e
  | b :: rest, fuel + 1 =>
    let run := 1 + (rest.takeWhile (· = b)).length
    let e1 := packr_encode_bool e (b ≠ 0)
    let e2 :=
      if run > 1 then
        packr_encode_varint (packr_encode_token e1 TOKEN_RLE_REPEAT) (run - 1)
      else e1
    rleBoolRunsGo e2 (rest.drop (run - 1)) fuel

def rleBoolRuns (e : Enc) (vals : List Nat) : Enc :=
  rleBoolRunsGo e vals (vals.length + 1)

/-- The per-column body emission of packr_encode_ultra_columns (second
loop): optional validity bitmap, then the typed body.  Custom and null
typed columns have no emission branch in the C switch and contribute no
bytes. -/
def ultraColumnBody (e : Enc) (col : Column) : Enc :=
  let e0 :=
    if colHasNulls col then
      bufApp e (bitmapBytes ((col.nulls.take col.count).map (· ≠ 0)))
    else e
  match col.type with
  | .int =>
    if colIsConstant col then packr_encode_int e0 (col.ints.headD 0)
    else
      match encode_mfv_column e0 col with
      | some e2 => e2
      | none => encode_numeric_column e0 col
  | .float =>
    if colIsConstant col then
      let v := col.floats.headD 0
      if qIsInt32 v then packr_encode_int e0 v.num
      else packr_encode_float e0 v
    else
      match encode_mfv_column e0 col with
      | some e2 => e2
      | none => encode_numeric_column e0 col
  | .str =>
    if colIsConstant col then packr_encode_string e0 (col.strings.headD [])
    else
      match encode_mfv_column e0 col with
      | some e2 => e2
      | none => rleStringRuns e0 (col.strings.take col.count)
  | .bool =>
    if colIsConstant col then packr_encode_bool e0 (col.bools.headD 0 ≠ 0)
    else
      match encode_mfv_column e0 col with
      | some e2 => e2
      | none => rleBoolRuns e0 (col.bools.take col.count)
  | _ => e0

/-- packr_encode_ultra_columns: batch token, varint rows, varint cols,
then per column the field-name token and the flag byte, then per column
the body. -/
def packr_encode_ultra_columns (e : Enc) (rowCount : Nat)
    (fieldNames : List (List Nat)) (cols : List Column) : Enc :=
  if rowCount = 0 then e
  else
    let e1 := packr_encode_varint
      (packr_encode_varint (packr_encode_token e TOKEN_ULTRA_BATCH) rowCount)
      cols.length
    let e2 := (fieldNames.zip cols).foldl
      (fun acc p => packr_encode_token (packr_encode_field acc p.1) (colFlags p.2)) e1
    cols.foldl ultraColumnBody e2

/-! ## Documents

The JSON lexer is declared out of scope by the spec (section 1); the
encoder is embedded at the value-event level of spec section 6.  A
document value is:
  - `int`: the parsed 32-bit integer (packr_json.c casts strtol to
    int32 before encoding);
  - `dbl`: a JSON number with a decimal point or exponent, carried by the
    64 IEEE-754 bits strtod produced (the C code only ever copies these
    bits) — `dblBitsToQ` recovers the exact rational value where the
    column analyzer needs it;
  - `str`: the raw byte span of the JSON string (escapes are carried
    verbatim by the C tokenizer);
  - `bin`: a binary value arriving through the value-event interface
    (packr_encode_binary); the JSON text layer cannot produce one;
  - `num`: a plain numeric value as produced by the decoder for
    fixed-point FLOAT32 data, and consumed through the float value event
    (packr_encode_float); the JSON text layer routes floats to DOUBLE
    instead. -/
inductive Doc where
  | null
  | bool (b : Bool)
  | int (v : Int)
  | dbl (bits : Nat)
  | str (s : List Nat)
  | bin (b : List Nat)
  | num (q : ℚ)
  | arr (xs : List Doc)
  | obj (kvs : List (List Nat × Doc))

/-- Exact rational value of an IEEE-754 binary64 bit pattern.  Infinities
and NaNs (exponent 2047) carry no rational value and are mapped to zero;
they are outside every claim. -/
def dblBitsToQ (bits : Nat) : ℚ :=
  let s : Nat := bits / 2 ^ 63 % 2
  let ex : Nat := bits / 2 ^ 52 % 2 ^ 11
  let m : Nat := bits % 2 ^ 52
  let mag : ℚ :=
    if ex = 0 then (m : ℚ) * (2 : ℚ) ^ (-1074 : ℤ)
    else if ex = 2047 then 0
    else ((2 ^ 52 + m : Nat) : ℚ) * (2 : ℚ) ^ ((ex : ℤ) - 1075)
  if s = 1 then -mag else mag

/-- isxdigit. -/
def isHexDigit (c : Nat) : Bool :=
  (48 ≤ c ∧ c ≤ 57) ∨ (65 ≤ c ∧ c ≤ 70) ∨ (97 ≤ c ∧ c ≤ 102)

/-- is_mac_address from packr_json.c: exactly 17 bytes, separators at
positions 2, 5, 8, 11, 14, hex digits elsewhere. -/
def is_mac_address (s : List Nat) : Bool :=
  s.length = 17 &&
    s.enum.all (fun p =>
      if p.1 % 3 = 2 then p.2 = 58 ∨ p.2 = 45 else isHexDigit p.2)

/-! ## The columnar array path (try_encode_ultra_array, packr_json.c) -/

def asObj : Doc → Option (List (List Nat × Doc))
  | .obj kvs => some kvs
  | _ => none

/-- The schema scan walks the leading run of object elements, at most
MAX_BATCH_ROWS = 128 of them. -/
def leadingObjRows (xs : List Doc) : List (List (List Nat × Doc)) :=
  ((xs.takeWhile (fun d => (asObj d).isSome)).take 128).filterMap asObj

/-- Value classification of the schema scan.  Nested containers are
CUSTOM; a null does not create a column.  Binary cannot reach the JSON
scanner and is classified like null. -/
def scanColType : Doc → ColType
  | .obj _ => .custom
  | .arr _ => .custom
  | .int _ => .int
  | .dbl _ => .float
  | .num _ => .float
  | .str _ => .str
  | .bool _ => .bool
  | .null => .null
  | .bin _ => .null

/-- One key/value step of schema discovery: skip nulls, add unknown keys
while fewer than MAX_BATCH_COLS = 32 columns exist, widen INT to FLOAT on
conflict. -/
def schemaAddKV (cols : List (List Nat × ColType)) (kv : List Nat × Doc) :
    List (List Nat × ColType) :=
  let t := scanColType kv.2
  if t = ColType.null then cols
  else
    match cols.findIdx? (·.1 = kv.1) with
    | none => if cols.length < 32 then cols ++ [(kv.1, t)] else cols
    | some i =>
      if (cols.getD i ([], ColType.null)).2 = ColType.int ∧ t = ColType.float then
        cols.set i (kv.1, ColType.float)
      else cols

def schemaScan (rows : List (List (List Nat × Doc))) : List (List Nat × ColType) :=
  rows.foldl (fun cols row => row.foldl schemaAddKV cols) []

def freshCol (t : ColType) : Column := ⟨t, [], [], [], [], [], 0⟩

/-- Row start: every column gains one default slot and its count grows
(the C code pre-allocates zeroed arrays and bumps every count after a
row). -/
def colAppendDefault (c : Column) : Column :=
  { c with ints := c.ints ++ [0], floats := c.floats ++ [0],
           strings := c.strings ++ [[]], bools := c.bools ++ [0],
           nulls := c.nulls ++ [0], count := c.count + 1 }

/-- Byte span a value contributes to a string column (the C code stores
the raw token text; only strings occur there on well-typed rows). -/
def strTextOf : Doc → List Nat
  | .str s => s
  | _ => []

/-- Store one parsed value into the current (last) slot of its column and
return the string-byte count added to the batch size.  The C source adds
the raw JSON span length of a CUSTOM blob to the batch counter; blob
columns are outside every claim and contribute zero here. -/
def colStoreValue (c : Column) (v : Doc) : Column × Nat :=
  let i := c.count - 1
  let c1 := { c with nulls := c.nulls.set i 1 }
  match c.type with
  | .int =>
    match v with
    | .int n => ({ c1 with ints := c1.ints.set i n }, 0)
    | _ => (c1, 0)
  | .float =>
    match v with
    | .int n => ({ c1 with floats := c1.floats.set i (n : ℚ) }, 0)
    | .dbl bits => ({ c1 with floats := c1.floats.set i (dblBitsToQ bits) }, 0)
    | .num q => ({ c1 with floats := c1.floats.set i q }, 0)
    | _ => (c1, 0)
  | .str =>
    ({ c1 with strings := c1.strings.set i (strTextOf v) }, (strTextOf v).length)
  | .bool =>
    match v with
    | .bool b => ({ c1 with bools := c1.bools.set i (if b then 1 else 0) }, 0)
    | _ => (c1, 0)
  | _ => (c1, 0)

/-- Fill one row: for each key/value pair, locate the column by name and
store the value; unknown keys are skipped. -/
def fillRow (names : List (List Nat)) (colsBytes : List Column × Nat)
    (row : List (List Nat × Doc)) : List Column × Nat :=
  row.foldl
    (fun acc kv =>
      match names.findIdx? (· = kv.1) with
      | none => acc
      | some i =>
        let r := colStoreValue (acc.1.getD i (freshCol ColType.null)) kv.2
        (acc.1.set i r.1, acc.2 + r.2))
    colsBytes

/-- Outcome of try_encode_ultra_array: C return values 1 (soft failure,
fall back to the recursive array encoder), -1 (fatal: a non-object
element after streaming began cannot be rewound) and 0 (success). -/
inductive TryUltraRes
  | soft
  | fatal
  | ok (e : Enc)

/-- The row loop of try_encode_ultra_array: element must be an object;
fill the columns; flush a batch when the row count reaches
MAX_BATCH_ROWS = 128 or the accumulated string bytes reach
MAX_BATCH_BYTES = 4096, opening the stream with ARRAY_STREAM on the first
flush; at the end emit the final batch (if non-empty) and close the
stream.  The C call passes a partial flag that the definition of
packr_encode_ultra_columns does not declare; the definition is the
authority and always emits TOKEN_ULTRA_BATCH. -/
def ultraRowsLoop (names : List (List Nat)) (schemaCols : List Column) :
    List Doc → Enc → List Column → Nat → Nat → Bool → TryUltraRes
  | [], e, cols, rowCount, _, streaming =>
    let e1 := if 0 < rowCount then packr_encode_ultra_columns e rowCount names cols else e
    let e2 := if streaming then packr_encode_token e1 TOKEN_ARRAY_END else e1
    .ok e2
  | x :: rest, e, cols, rowCount, bytes, streaming =>
    match asObj x with
    | none => if streaming then .fatal else .soft
    | some row =>
      let fr := fillRow names (cols.map colAppendDefault, bytes) row
      let rc := rowCount + 1
      if 128 ≤ rc ∨ 4096 ≤ fr.2 then
        let e1 := if streaming then e else packr_encode_token e TOKEN_ARRAY_STREAM
        let e2 := packr_encode_ultra_columns e1 rc names fr.1
        ultraRowsLoop names schemaCols rest e2 schemaCols 0 0 true
      else
        ultraRowsLoop names schemaCols rest e fr.1 rc fr.2 streaming

/-- try_encode_ultra_array: soft-fail on an empty array, a non-object
first element, an empty schema or fewer than 4 scanned rows; otherwise
run the row loop over the whole array. -/
def try_encode_ultra_array (e : Enc) (xs : List Doc) : TryUltraRes :=
  match xs with
  | [] => .soft
  | x :: _ =>
    if (asObj x).isNone then .soft
    else
      let rows := leadingObjRows xs
      let schema := schemaScan rows
      if schema.length = 0 ∨ rows.length = 0 then .soft
      else if rows.length < 4 then .soft
      else
        ultraRowsLoop (schema.map (·.1)) (schema.map (fun p => freshCol p.2))
          xs e (schema.map (fun p => freshCol p.2)) 0 0 false

/-! ## Recursive encoder (encode_value / encode_object / encode_array) -/

/-- Key truncation of encode_object: keys of 256 bytes or more are cut to
255 bytes. -/
def truncKey (k : List Nat) : List Nat :=
  if 256 ≤ k.length then k.take 255 else k

mutual

/-- encode_value from packr_json.c at the value-event level.  Strings of
256 bytes or more are truncated to 255 bytes, then MAC-shaped strings are
routed to the MAC dictionary.  Numbers with a decimal point or exponent
(Doc.dbl) take the DOUBLE path, plain integers the INT path. -/
def encode_value (e : Enc) : Doc → Option Enc
  | .null => some (packr_encode_null e)
  | .bool b => some (packr_encode_bool e b)
  | .int v => some (packr_encode_int e v)
  | .dbl bits => some (packr_encode_double e bits)
  | .num q => some (packr_encode_float e q)
  | .bin b => some (packr_encode_binary e b)
  | .str s =>
    let s1 := if 256 ≤ s.length then s.take 255 else s
    if is_mac_address s1 then some (packr_encode_mac e s1)
    else some (packr_encode_string e s1)
  | .obj kvs =>
    (encode_object_fields (packr_encode_token e TOKEN_OBJECT_START) kvs).map
      (fun e2 => packr_encode_token e2 TOKEN_OBJECT_END)
  | .arr xs =>
    match try_encode_ultra_array e xs with
    | .ok e2 => some e2
    | .fatal => none
    | .soft =>
      (encode_array_elems
        (packr_encode_varint (packr_encode_token e TOKEN_ARRAY_START) xs.length) xs).map
        (fun e2 => packr_encode_token e2 TOKEN_ARRAY_END)

/-- The field loop of encode_object. -/
def encode_object_fields (e : Enc) : List (List Nat × Doc) → Option Enc
  | [] => some e
  | kv :: rest =>
    match encode_value (packr_encode_field e (truncKey kv.1)) kv.2 with
    | none => none
    | some e2 => encode_object_fields e2 rest

/-- The element loop of the recursive encode_array fallback. -/
def encode_array_elems (e : Enc) : List Doc → Option Enc
  | [] => some e
  | x :: rest =>
    match encode_value e x with
    | none => none
    | some e2 => encode_array_elems e2 rest

end

/-- json_encode_to_packr: encode one document into a fresh encoder. -/
def json_encode_to_packr (d : Doc) : Option Enc :=
  encode_value packr_encoder_init d

/-- Full single-shot frame: encode, then finish (header with symbol
count, body, CRC). -/
def encodeFrame (d : Doc) : Option (List Nat) :=
  (json_encode_to_packr d).map packr_encoder_finish

/-! ## LZ77 single-shot codec (packr_lz77.c) -/

/-- The extended-length reader of packr_lz77_decompress: add bytes while
they read 0xFF, the first other byte terminates.  Returns the accumulated
length and the new input position.  The loop consumes one input byte per
iteration, so the input length plus one bounds it. -/
def extReadGo (cin : List Nat) : Nat → Nat → Nat → Nat × Nat
  | _, acc, 0 => (acc, 0)
  | ip, acc, fuel + 1 =>
    if ip < cin.length then
      if li cin ip < 255 then (acc + li cin ip, ip + 1)
      else extReadGo cin (ip + 1) (acc + li cin ip) fuel
    else (acc, ip)

def extRead (cin : List Nat) (ip acc : Nat) : Nat × Nat :=
  extReadGo cin ip acc (cin.length + 1)

/-- The overlapping match copy: byte by byte, each new byte read back
`offset` positions from the current end of the output. -/
def matchCopy (out : List Nat) (offset : Nat) : Nat → List Nat
  | 0 => out
  | n + 1 => matchCopy (out ++ [li out (out.length - offset)]) offset n

/-- The main loop of packr_lz77_decompress with every bounds check and
early break of the C source.  Every iteration consumes at least the
control byte, so supplying the input length as fuel (as
packr_lz77_decompress does) makes the recursion identical to the C while
loop on every input. -/
def lz77DecompLoop (cin : List Nat) (origLen outCap : Nat) :
    Nat → Nat → List Nat → List Nat
  | 0, _, out => out
  | fuel + 1, ip, out =>
  if h : ip < cin.length ∧ out.length < origLen then
    let ctrl := li cin ip
    let ip1 := ip + 1
    let el :=
      if ctrl / 16 % 16 = 15 then extRead cin ip1 15 else (ctrl / 16 % 16, ip1)
    let litLen := el.1
    let ip2 := el.2
    if cin.length < ip2 + litLen then out
    else if outCap < out.length + litLen then out
    else
      let out1 := out ++ (cin.drop ip2).take litLen
      let ip3 := ip2 + litLen
      if origLen ≤ out1.length ∨ cin.length ≤ ip3 then out1
      else
        let em :=
          if ctrl % 16 = 15 then extRead cin ip3 (15 + 3) else (ctrl % 16 + 3, ip3)
        let matchLen := em.1
        let ip4 := em.2
        if cin.length < ip4 + 2 then out1
        else
          let offset := li cin ip4 + 256 * li cin (ip4 + 1)
          let ip5 := ip4 + 2
          if out1.length < offset then out1
          else if outCap < out1.length + matchLen then out1
          else lz77DecompLoop cin origLen outCap fuel ip5 (matchCopy out1 offset matchLen)
  else out

/-- packr_lz77_decompress: format byte 0x00 is the uncompressed wrapper,
0x02 the compressed stream; anything else (or input shorter than the
5-byte header, or a declared length exceeding the output capacity)
decodes to nothing. -/
def packr_lz77_decompress (cin : List Nat) (outCap : Nat) : List Nat :=
  if cin.length < 5 then []
  else
    let fmt := li cin 0
    let len := rd32 (li cin 1) (li cin 2) (li cin 3) (li cin 4)
    if fmt = 0 then
      if cin.length < 5 + len then []
      else (cin.drop 5).take (min len outCap)
    else if fmt ≠ 2 then []
    else if outCap < len then []
    else lz77DecompLoop cin len outCap cin.length 5 []

/-- Capacity-guarded single-byte write (`if (op < op_end) *op++ = b`). -/
def push (cap : Nat) (out : List Nat) (b : Nat) : List Nat :=
  if out.length < cap then out ++ [b] else out

/-- A sequence of guarded single-byte writes (the C extension-byte
loops). -/
def pushL (cap : Nat) (out : List Nat) (bs : List Nat) : List Nat :=
  bs.foldl (push cap) out

/-- out_bytes: bulk write if it fits, else the pointer jumps to the end
leaving the tail unwritten (modelled as zeros; unreachable under the
capacity hypotheses of the theorems). -/
def pushM (cap : Nat) (out : List Nat) (bs : List Nat) : List Nat :=
  if out.length + bs.length ≤ cap then out ++ bs
  else out ++ List.replicate (cap - out.length) 0

/-- The emitted extension bytes for an extended length (`while rem ≥ 255
emit 255; emit rem`). -/
def extBytesGo : Nat → Nat → List Nat
  | rem, 0 => [rem]
  | rem, fuel + 1 =>
    if 255 ≤ rem then 255 :: extBytesGo (rem - 255) fuel else [rem]

def extBytes (rem : Nat) : List Nat := extBytesGo rem rem

/-- The 4-byte rolling hash: multiply the little-endian word by
0x1E35A7BD in uint32, xor-fold the high half, mask to 4096 buckets. -/
def lz77_hash4 (b0 b1 b2 b3 : Nat) : Nat :=
  let hv := rd32 b0 b1 b2 b3 * 0x1E35A7BD % 2 ^ 32
  Nat.xor hv (hv / 2 ^ 16) % 4096

/-- The hash structure: 4096 heads holding pos+1 (0 = empty) and the
8192-entry chain ring holding the previous pos+1 truncated to
16 bits. -/
structure LzHash where
  head : Nat → Nat
  hprev : Nat → Nat

/-- The zero-initialized hash arrays (4096 and 8192 entries; every index
used is already reduced into range by the hash mask and the window
modulus, so total functions model the arrays exactly). -/
def lzHashInit : LzHash := ⟨fun _ => 0, fun _ => 0⟩

/-- lz77_hash_insert. -/
def lz77_hash_insert (ht : LzHash) (inp : List Nat) (pos : Nat) : LzHash :=
  if pos + 3 < inp.length then
    let hsh := lz77_hash4 (li inp pos) (li inp (pos + 1)) (li inp (pos + 2)) (li inp (pos + 3))
    ⟨fun i => if i = hsh then pos + 1 else ht.head i,
     fun i => if i = pos % 8192 then ht.head hsh % 65536 else ht.hprev i⟩
  else ht

/-- The byte-equality scan of the match finder: count equal bytes while
inside the input, capped at 258 (the cap check runs after the
increment). -/
def lzMatchScan (inp : List Nat) (n ip cm : Nat) : Nat → Nat → Nat
  | len, 0 => len
  | len, fuel + 1 =>
    if ip + len < n ∧ li inp (ip + len) = li inp (cm + len) then
      if 258 ≤ len + 1 then len + 1 else lzMatchScan inp n ip cm (len + 1) fuel
    else len

/-- The byte-equality scan caps itself at 258 iterations, so 258 is the
loop bound. -/
def lzMatchLenGo (inp : List Nat) (n ip cm len : Nat) : Nat :=
  lzMatchScan inp n ip cm len 258

/-- The chain walk of packr_lz77_compress: follow at most 32 links,
stopping at empty links, non-earlier positions or distances beyond the
8192-byte window; keep the longest verified match of length at least 3;
stop early once a match of length 32 or more is found. -/
def lzChain (inp : List Nat) (n ip : Nat) (ht : LzHash) :
    Nat → Nat → Nat × Nat → Nat × Nat
  | _, 0, best => best
  | chainVal, chainLen + 1, best =>
    if chainVal = 0 then best
    else
      let cm := chainVal - 1
      if ip ≤ cm then best
      else
        let dist := ip - cm
        if 8192 < dist then best
        else
          let len := lzMatchLenGo inp n ip cm 0
          if 3 ≤ len ∧ best.1 < len then
            if 32 ≤ len then (len, dist)
            else lzChain inp n ip ht (ht.hprev (cm % 8192)) chainLen (len, dist)
          else lzChain inp n ip ht (ht.hprev (cm % 8192)) chainLen best

/-- The hash-fill loop after a match: insert every interior position. -/
def lzHashFillGo (inp : List Nat) : LzHash → Nat → Nat → Nat → LzHash
  | ht, _, _, 0 => ht
  | ht, j, stop, fuel + 1 =>
    if j < stop then lzHashFillGo inp (lz77_hash_insert ht inp j) (j + 1) stop fuel
    else ht

def lzHashFill (inp : List Nat) (ht : LzHash) (j stop : Nat) : LzHash :=
  lzHashFillGo inp ht j stop (stop - j)

/-- The main loop of packr_lz77_compress.  At each position: probe and
update the hash, walk the chain for the best match; a match of at least
min_match (3 after pending literals, 4 at an anchor) emits
control byte, extended literal length, literals, extended match length
and the 2-byte offset, fills the hash over the match interior and jumps
over the match; otherwise the position becomes a pending literal.  After
the loop the pending literals are flushed with a control byte carrying
match nibble 0 and no offset. -/
def lzLoopGo (inp : List Nat) (n cap : Nat) :
    Nat → Nat → Nat → LzHash → List Nat → List Nat
  | 0, _, anchor, _, out =>
    let ip := n
    let litLen := ip - anchor
    if litLen = 0 then out
    else
      let lits := (inp.drop anchor).take litLen
      let litNib := if 15 ≤ litLen then 15 else litLen
      let o1 := push cap out (litNib * 16)
      let o2 := if litNib = 15 then pushL cap o1 (extBytes (litLen - 15)) else o1
      pushM cap o2 lits
  | fuel + 1, ip, anchor, ht, out =>
  if ip < n then
    let probe :=
      if ip + 3 < n then
        let hsh := lz77_hash4 (li inp ip) (li inp (ip + 1)) (li inp (ip + 2)) (li inp (ip + 3))
        let stored := ht.head hsh
        let ht1 := lz77_hash_insert ht inp ip
        let best := lzChain inp n ip ht1 stored 32 (0, 0)
        (best.1, best.2, ht1)
      else (0, 0, ht)
    let bestLen := probe.1
    let bestOff := probe.2.1
    let ht1 := probe.2.2
    let minMatch := if 0 < ip - anchor then 3 else 4
    if minMatch ≤ bestLen then
      let litLen := ip - anchor
      let lits := (inp.drop anchor).take litLen
      let litNib := if 15 ≤ litLen then 15 else litLen
      let matchNib := if 15 ≤ bestLen - 3 then 15 else bestLen - 3
      let o1 := push cap out (litNib * 16 + matchNib)
      let o2 := if litNib = 15 then pushL cap o1 (extBytes (litLen - 15)) else o1
      let o3 := pushM cap o2 lits
      let o4 := if matchNib = 15 then pushL cap o3 (extBytes (bestLen - 3 - 15)) else o3
      let o5 := push cap o4 (bestOff % 256)
      let o6 := push cap o5 (bestOff / 256 % 256)
      let ht2 := lzHashFill inp ht1 (ip + 1) (ip + bestLen)
      lzLoopGo inp n cap fuel (ip + bestLen) (ip + bestLen) ht2 o6
    else lzLoopGo inp n cap fuel (ip + 1) anchor ht1 out
  else
    let litLen := ip - anchor
    if litLen = 0 then out
    else
      let lits := (inp.drop anchor).take litLen
      let litNib := if 15 ≤ litLen then 15 else litLen
      let o1 := push cap out (litNib * 16)
      let o2 := if litNib = 15 then pushL cap o1 (extBytes (litLen - 15)) else o1
      pushM cap o2 lits

/-- The match loop advances at least one position per iteration, so the
input length bounds the iteration count; the fuel-exhausted case and the
loop-exit case both flush the pending literals exactly as the code after
the C while loop does. -/
def lzLoop (inp : List Nat) (n cap ip anchor : Nat) (ht : LzHash)
    (out : List Nat) : List Nat :=
  lzLoopGo inp n cap (n - ip) ip anchor ht out

/-- The entropy pre-check accumulator (the seen-array loop): list of
byte values met so far, most recent first. -/
def distinctSeen (bs : List Nat) : List Nat :=
  bs.foldl (fun acc b => if b ∈ acc then acc else b :: acc) []

/-- The entropy pre-check of packr_lz77_compress: sample the first 1024
bytes (all of them for shorter inputs) and compare
`unique * 100 / sample > 80` in integer arithmetic. -/
def entropyFires (inp : List Nat) : Bool :=
  let sample := min inp.length 1024
  (distinctSeen (inp.take sample)).length * 100 / sample > 80

/-- packr_lz77_compress: empty input yields no output; the 5-byte header
must fit; the entropy pre-check stores the input uncompressed; otherwise
run the match loop and fall back to the uncompressed wrapper when the
stream did not shrink the input (keeping the stream when the wrapper
would not fit). -/
def packr_lz77_compress (inp : List Nat) (cap : Nat) : List Nat :=
  if inp.length = 0 then []
  else if cap < 5 then []
  else if entropyFires inp then
    if inp.length + 5 ≤ cap then 0 :: le32 inp.length ++ inp else []
  else
    let body := lzLoop inp inp.length cap 0 0 lzHashInit (2 :: le32 inp.length)
    if inp.length ≤ body.length then
      if inp.length + 5 ≤ cap then 0 :: le32 inp.length ++ inp else body
    else body

/-! ## Decoder (packr_decoder_t / packr_decode_next, packr.c)

The C decoder renders JSON text into a cursor buffer; the model returns
the document value the rendered text denotes.  Fixed-point FLOAT32
numbers print with %.7g, modelled as their exact rational (`Doc.num`);
DOUBLE prints with %.17g, which reproduces the double exactly, modelled
as the bit pattern (`Doc.dbl`). -/

structure Dec where
  data : List Nat
  pos : Nat
  fields : Dict
  strings : Dict
  macs : Dict
  lastNums : List ℚ
  lastTypes : List Nat
  currentField : Int

/-- The decoder's decode_varint loop.  For shifts below 32 the C
`res |= (b & 0x7F) << shift` fills disjoint bit ranges, so it is
addition reduced modulo 2^32; varints long enough to push the shift to
35 make the C shift undefined and are outside every claim. -/
def decodeVarintLoop (data : List Nat) : Nat → Nat → Nat → Nat → Nat × Nat
  | _, res, _, 0 => (res, 0)
  | pos, res, shift, fuel + 1 =>
    if pos < data.length then
      let b := li data pos
      let res1 := (res + b % 128 * 2 ^ shift) % 2 ^ 32
      if b % 256 < 128 then (res1, pos + 1)
      else decodeVarintLoop data (pos + 1) res1 (shift + 7) fuel
    else (res, pos)

/-- decode_varint: the loop consumes one byte per iteration, so the
input length bounds it. -/
def decodeVarintGo (data : List Nat) (pos res shift : Nat) : Nat × Nat :=
  decodeVarintLoop data pos res shift (data.length + 1 - pos)

/-- Truncation of a C double toward zero (the (int32_t) cast on the
delta path), on the exact-rational model. -/
def qTrunc (q : ℚ) : Int := if 0 ≤ q then ⌊q⌋ else -⌊-q⌋

/-- Signed reinterpretation of a 32-bit little-endian read. -/
def i32ofNat (u : Nat) : Int := if u < 2 ^ 31 then (u : Int) else (u : Int) - 2 ^ 32

/-- packr_decoder_init: unwrap a 0xFE 0x03 LZ77 envelope (when the
declared length is under 10 MiB and decompression yields bytes), then
skip the header if the magic matches, consuming the symbol-count varint;
otherwise decoding starts at offset zero.  No version check and no CRC
check exist in the source. -/
def packr_decoder_init (data : List Nat) : Dec :=
  let data1 :=
    if 7 < data.length ∧ li data 0 = 0xFE ∧ li data 1 = 0x03 then
      let origLen := rd32 (li data 3) (li data 4) (li data 5) (li data 6)
      if origLen < 10485760 then
        let dec := packr_lz77_decompress (data.drop 2) (origLen + 4)
        if 0 < dec.length then dec else data
      else data
    else data
  let pos :=
    if 6 < data1.length ∧ data1.take 4 = [0x50, 0x4B, 0x52, 0x31] then
      (decodeVarintGo data1 6 0 0).2
    else 0
  ⟨data1, pos, dict_init, dict_init, dict_init,
    List.replicate 64 0, List.replicate 64 0, -1⟩

/-- Decimal digits of a number as ASCII bytes (snprintf %u / %d body). -/
def natDecBytes (n : Nat) : List Nat := (Nat.toDigits 10 n).map Char.toNat

/-- The placeholder string the decoder prints for a BINARY token:
`<binary data len=N>` (the C code discards the payload bytes). -/
def binPlaceholder (len : Nat) : List Nat :=
  [60, 98, 105, 110, 97, 114, 121, 32, 100, 97, 116, 97, 32, 108, 101, 110, 61] ++
    natDecBytes len ++ [62]

/-- Upper-case hex digit. -/
def hexDigitU (n : Nat) : Nat := if n < 10 then 48 + n else 55 + n

/-- The `%02X:%02X:...` rendering of six MAC bytes. -/
def macFormat (m : List Nat) : List Nat :=
  (List.range 6).flatMap (fun i =>
    (if i = 0 then [] else [58]) ++
      [hexDigitU (li m i / 16 % 16), hexDigitU (li m i % 16)])

/-- The delta / plain-INT state update of packr_decode_next: with a
numeric history for the active field, a delta adds prev + d/65536 (float
history) or prev + d in wrapped int32 arithmetic (int history);
otherwise the value is stored as a fresh int. -/
def applyNumeric (d : Dec) (val : Int) (isDelta : Bool) : Option Doc × Dec :=
  let f := d.currentField
  if isDelta ∧ 0 ≤ f ∧ f < 64 ∧ d.lastTypes.getD f.toNat 0 ≠ 0 then
    let prev := d.lastNums.getD f.toNat 0
    if d.lastTypes.getD f.toNat 0 = 2 then
      let res := prev + (val : ℚ) / 65536
      (some (.num res), { d with lastNums := d.lastNums.set f.toNat res })
    else
      let resi := wrap32 (qTrunc prev + val)
      (some (.int resi), { d with lastNums := d.lastNums.set f.toNat (resi : ℚ) })
  else
    if 0 ≤ f ∧ f < 64 then
      (some (.int val),
        { d with lastNums := d.lastNums.set f.toNat (val : ℚ),
                 lastTypes := d.lastTypes.set f.toNat 1 })
    else (some (.int val), d)

/-- Key bytes of a decoded object key: the C code pastes the printed
text of the key token between quotes; only string-rendering tokens occur
on well-formed frames. -/
def keyBytesOf : Option Doc → List Nat
  | some (.str s) => s
  | _ => []

mutual

/-- packr_decode_next.  The outer `none` is the C `return 0` (no event:
past the end, within four bytes of the end, or a truncated payload); the
inner option is the produced value, `none` when the C code appends no
text (unknown token bytes fall through every branch and return 1).
The ULTRA_BATCH / chained-batch branch reconstructs whole record batches
and is not modelled: every claim is settled away from it, and the model
returns the outer `none` there.  The three inner-loop deviations are
noted where they occur; each is unreachable on frames the encoder
produces. -/
def packr_decode_next : Nat → Dec → Option (Option Doc × Dec)
  | 0, _ => none
  | fuel + 1, d =>
    if d.data.length ≤ d.pos then none
    else if 4 ≤ d.data.length ∧ d.data.length < d.pos + 4 then none
    else
      let token := li d.data d.pos
      let d0 := { d with pos := d.pos + 1 }
      if token = TOKEN_NULL then some (some .null, d0)
      else if token = TOKEN_BOOL_TRUE then some (some (.bool true), d0)
      else if token = TOKEN_BOOL_FALSE then some (some (.bool false), d0)
      else if token = TOKEN_FLOAT32 then
        if d.data.length < d0.pos + 4 then none
        else
          let scaled := i32ofNat (rd32 (li d.data d0.pos) (li d.data (d0.pos + 1))
            (li d.data (d0.pos + 2)) (li d.data (d0.pos + 3)))
          let v : ℚ := (scaled : ℚ) / 65536
          let d1 := { d0 with pos := d0.pos + 4 }
          let f := d.currentField
          let d2 :=
            if 0 ≤ f ∧ f < 64 then
              { d1 with lastNums := d1.lastNums.set f.toNat v,
                        lastTypes := d1.lastTypes.set f.toNat 2 }
            else d1
          some (some (.num v), d2)
      else if token = TOKEN_DOUBLE then
        if d.data.length < d0.pos + 8 then none
        else
          let bits := (List.range 8).foldl
            (fun acc i => acc + li d.data (d0.pos + i) * 2 ^ (8 * i)) 0
          let d1 := { d0 with pos := d0.pos + 8 }
          let f := d.currentField
          let d2 :=
            if 0 ≤ f ∧ f < 64 then
              { d1 with lastNums := d1.lastNums.set f.toNat (dblBitsToQ bits),
                        lastTypes := d1.lastTypes.set f.toNat 2 }
            else d1
          some (some (.dbl bits), d2)
      else if token = TOKEN_BINARY then
        let vr := decodeVarintGo d.data d0.pos 0 0
        if d.data.length < vr.2 + vr.1 then none
        else some (some (.str (binPlaceholder vr.1)), { d0 with pos := vr.2 + vr.1 })
      else if token = TOKEN_INT then
        let vr := decodeVarintGo d.data d0.pos 0 0
        let r := applyNumeric { d0 with pos := vr.2 } (zigzag_decode vr.1) false
        some r
      else if token = TOKEN_DELTA_LARGE then
        let vr := decodeVarintGo d.data d0.pos 0 0
        let r := applyNumeric { d0 with pos := vr.2 } (zigzag_decode vr.1) true
        some r
      else if 0xC3 ≤ token ∧ token ≤ 0xD2 then
        some (applyNumeric d0 ((token : Int) - 0xC3 - 8) true)
      else if token = TOKEN_DELTA_ZERO then some (applyNumeric d0 0 true)
      else if token = TOKEN_DELTA_ONE then some (applyNumeric d0 1 true)
      else if token = TOKEN_DELTA_NEG_ONE then some (applyNumeric d0 (-1) true)
      else if token = TOKEN_DELTA_MEDIUM then
        if d.data.length ≤ d0.pos then none
        else
          some (applyNumeric { d0 with pos := d0.pos + 1 }
            ((li d.data d0.pos : Int) - 64) true)
      else if token = TOKEN_NEW_STRING ∨ token = TOKEN_NEW_FIELD then
        let vr := decodeVarintGo d.data d0.pos 0 0
        if d.data.length < vr.2 + vr.1 then none
        else
          let s := (d.data.drop vr.2).take vr.1
          let d1 := { d0 with pos := vr.2 + vr.1 }
          let d2 :=
            if token = TOKEN_NEW_FIELD then
              { d1 with fields := (dict_get_or_add d1.fields s).2.2 }
            else
              { d1 with strings := (dict_get_or_add d1.strings s).2.2 }
          some (some (.str s), d2)
      else if token < 0x80 then
        let isField := token < TOKEN_STRING
        let dict := if isField then d.fields else d.strings
        let index := if isField then token else token - TOKEN_STRING
        match (dict.entries.getD index ⟨none, 0⟩).value with
        | some s =>
          let dict1 : Dict :=
            ⟨dict.entries.set index ⟨some s, dict.usage + 1⟩, dict.usage + 1⟩
          let d1 :=
            if isField then { d0 with fields := dict1 } else { d0 with strings := dict1 }
          some (some (.str s), d1)
        | none => some (some (.str []), d0)
      else if token = TOKEN_NEW_MAC then
        if d.data.length < d0.pos + 6 then none
        else
          let mbytes := (d.data.drop d0.pos).take 6
          let ms := macFormat mbytes
          let d1 := { d0 with pos := d0.pos + 6 }
          some (some (.str ms), { d1 with macs := (dict_get_or_add d1.macs ms).2.2 })
      else if 0x80 ≤ token ∧ token < 0xC0 then
        let index := token - TOKEN_MAC
        match (d.macs.entries.getD index ⟨none, 0⟩).value with
        | some s =>
          let macs1 : Dict :=
            ⟨d.macs.entries.set index ⟨some s, d.macs.usage + 1⟩, d.macs.usage + 1⟩
          some (some (.str s), { d0 with macs := macs1 })
        | none => some (some (.str []), d0)
      else if token = TOKEN_ARRAY_START then
        let vr := decodeVarintGo d.data d0.pos 0 0
        let r := decodeArrayElems fuel { d0 with pos := vr.2 } vr.1 []
        let d1 := r.2
        let d2 :=
          if d1.pos < d1.data.length ∧ li d1.data d1.pos = TOKEN_ARRAY_END then
            { d1 with pos := d1.pos + 1 }
          else d1
        some (some (.arr r.1), d2)
      else if token = TOKEN_ARRAY_STREAM then
        let r := decodeStreamElems fuel d0 []
        let d1 := r.2
        let d2 := if d1.pos < d1.data.length then { d1 with pos := d1.pos + 1 } else d1
        some (some (.arr r.1), d2)
      else if token = TOKEN_OBJECT_START then
        match decodeObjFields fuel d0 [] with
        | none => none
        | some (kvs, d1) => some (some (.obj kvs), d1)
      else if token = TOKEN_ULTRA_BATCH ∨ token = TOKEN_CHAINED_BATCH then
        none
      else
        some (none, d0)

/-- The counted element loop of the ARRAY_START branch: the C code
breaks out of the for loop when packr_decode_next returns 0 and keeps
the elements read so far (elements that appended no output leave a hole
in the C text and are skipped here). -/
def decodeArrayElems : Nat → Dec → Nat → List Doc → List Doc × Dec
  | 0, d, _, acc => (acc, d)
  | _, d, 0, acc => (acc, d)
  | fuel + 1, d, cnt + 1, acc =>
    match packr_decode_next fuel d with
    | none => (acc, d)
    | some (x, d1) => decodeArrayElems fuel d1 cnt (acc ++ x.toList)

/-- The unbounded element loop of the ARRAY_STREAM branch: read until
ARRAY_END or end of data, breaking when the decoder yields no event. -/
def decodeStreamElems : Nat → Dec → List Doc → List Doc × Dec
  | 0, d, acc => (acc, d)
  | fuel + 1, d, acc =>
    if d.pos < d.data.length ∧ li d.data d.pos ≠ TOKEN_ARRAY_END then
      match packr_decode_next fuel d with
      | none => (acc, d)
      | some (x, d1) => decodeStreamElems fuel d1 (acc ++ x.toList)
    else (acc, d)

/-- The field loop of the OBJECT_START branch: peek the key token to set
the active field slot (a dictionary reference 0x00..0x3F; NEW_FIELD and
anything else leave it -1), decode the key, decode the value with the
field slot active, restore the old slot.  The C code ignores the return
values of both inner decodes and would loop forever on a failing one;
the model reports failure (outer none) there — unreachable on frames
the encoder produces. -/
def decodeObjFields : Nat → Dec → List (List Nat × Doc) →
    Option (List (List Nat × Doc) × Dec)
  | 0, _, _ => none
  | fuel + 1, d, acc =>
    if d.pos < d.data.length ∧ li d.data d.pos ≠ TOKEN_OBJECT_END then
      let nextT := li d.data d.pos
      let fieldIdx : Int := if nextT < 0x40 then (nextT : Int) else -1
      match packr_decode_next fuel d with
      | none => none
      | some (kdoc, d1) =>
        let k := keyBytesOf kdoc
        let oldField := d1.currentField
        match packr_decode_next fuel { d1 with currentField := fieldIdx } with
        | none => none
        | some (vdoc, d2) =>
          match vdoc with
          | none => none
          | some v =>
            decodeObjFields fuel { d2 with currentField := oldField } (acc ++ [(k, v)])
    else
      some (acc,
        if d.pos < d.data.length then { d with pos := d.pos + 1 } else d)

end

/-- Decode one frame to its document: init, then one decode_next. -/
def decodeFrameDoc (data : List Nat) : Option Doc :=
  match packr_decode_next (data.length + 1) (packr_decoder_init data) with
  | some (some doc, _) => some doc
  | _ => none

/-! ## Dictionary lemmas and claim C4 -/

theorem dictEmptyGo_spec (l : List DictEntry) (i k : Nat)
    (h : dictEmptyGo l i = some k) :
    i ≤ k ∧ k - i < l.length ∧ (l.getD (k - i) ⟨none, 0⟩).value = none ∧
      ∀ j, j < k - i → (l.getD j ⟨none, 0⟩).value ≠ none := by
  induction l generalizing i with
  | nil => simp [dictEmptyGo] at h
  | cons e rest ih =>
    simp only [dictEmptyGo] at h
    by_cases he : e.value = none
    · simp only [he, if_true, Option.some.injEq] at h
      subst h
      simp only [Nat.sub_self, List.getD_cons_zero]
      refine ⟨le_refl _, by simp, he, ?_⟩
      intro j hj; omega
    · simp only [he, if_false] at h
      obtain ⟨h1, h2, h3, h4⟩ := ih (i + 1) h
      have hki : k - i = (k - (i + 1)) + 1 := by omega
      refine ⟨by omega, by simp only [List.length_cons]; omega, ?_, ?_⟩
      · rw [hki]; simpa using h3
      · intro j hj
        match j with
        | 0 => simpa using he
        | j + 1 =>
          have := h4 j (by omega)
          simpa using this

theorem dictEmptyGo_none (l : List DictEntry) (i : Nat)
    (h : dictEmptyGo l i = none) :
    ∀ j, j < l.length → (l.getD j ⟨none, 0⟩).value ≠ none := by
  induction l generalizing i with
  | nil => intro j hj; simp at hj
  | cons e rest ih =>
    simp only [dictEmptyGo] at h
    by_cases he : e.value = none
    · simp [he] at h
    · simp only [he, if_false] at h
      intro j hj
      match j with
      | 0 => simpa using he
      | j + 1 =>
        have := ih (i + 1) h j (by simpa using hj)
        simpa using this

theorem dictMinScan_spec (l : List DictEntry) (i best bs : Nat) :
    ((∀ e ∈ l, bs ≤ e.lastUsed) ∧ dictMinScan l i best bs = best) ∨
    (∃ k, k < l.length ∧ dictMinScan l i best bs = i + k ∧
      (l.getD k ⟨none, 0⟩).lastUsed < bs ∧
      (∀ j, j < l.length →
        (l.getD k ⟨none, 0⟩).lastUsed ≤ (l.getD j ⟨none, 0⟩).lastUsed) ∧
      (∀ j, j < k →
        (l.getD k ⟨none, 0⟩).lastUsed < (l.getD j ⟨none, 0⟩).lastUsed)) := by
  induction l generalizing i best bs with
  | nil => left; exact ⟨by simp, rfl⟩
  | cons e rest ih =>
    by_cases he : e.lastUsed < bs
    · right
      have hstep : dictMinScan (e :: rest) i best bs =
          dictMinScan rest (i + 1) i e.lastUsed := by
        simp [dictMinScan, he]
      rcases ih (i + 1) i e.lastUsed with ⟨hall, heq⟩ | ⟨k, hk, heq, hlt, hmin, hpre⟩
      · refine ⟨0, by simp, ?_, by simpa using he, ?_, ?_⟩
        · rw [hstep, heq]; omega
        · intro j hj
          match j with
          | 0 => simp
          | j + 1 =>
            have hjr : j < rest.length := by simpa using hj
            have hmem : rest.getD j ⟨none, 0⟩ ∈ rest := by
              rw [List.getD_eq_getElem?_getD, List.getElem?_eq_getElem hjr]
              exact List.getElem_mem hjr
            have := hall (rest.getD j ⟨none, 0⟩) hmem
            simpa using this
        · intro j hj; omega
      · refine ⟨k + 1, by simpa using hk, ?_, ?_, ?_, ?_⟩
        · rw [hstep, heq]; omega
        · simpa using lt_trans hlt he
        · intro j hj
          match j with
          | 0 =>
            simp only [List.getD_cons_succ, List.getD_cons_zero]
            omega
          | j + 1 =>
            have := hmin j (by simpa using hj)
            simpa using this
        · intro j hj
          match j with
          | 0 =>
            simp only [List.getD_cons_succ, List.getD_cons_zero]
            omega
          | j + 1 =>
            have := hpre j (by omega)
            simpa using this
    · have hstep : dictMinScan (e :: rest) i best bs =
          dictMinScan rest (i + 1) best bs := by
        simp [dictMinScan, he]
      rcases ih (i + 1) best bs with ⟨hall, heq⟩ | ⟨k, hk, heq, hlt, hmin, hpre⟩
      · left
        refine ⟨?_, by rw [hstep, heq]⟩
        intro x hx
        rcases List.mem_cons.mp hx with hx | hx
        · subst hx; omega
        · exact hall x hx
      · right
        refine ⟨k + 1, by simpa using hk, ?_, ?_, ?_, ?_⟩
        · rw [hstep, heq]; omega
        · simpa using hlt
        · intro j hj
          match j with
          | 0 =>
            simp only [List.getD_cons_succ, List.getD_cons_zero]
            omega
          | j + 1 =>
            have := hmin j (by simpa using hj)
            simpa using this
        · intro j hj
          match j with
          | 0 =>
            simp only [List.getD_cons_succ, List.getD_cons_zero]
            omega
          | j + 1 =>
            have := hpre j (by omega)
            simpa using this

/-- For a full 64-entry dictionary with realistic stamps, the claim-pass
result is the lowest index attaining the minimal stamp. -/
theorem dictClaimSlot_full (entries : List DictEntry)
    (hlen : entries.length = 64)
    (hbs : ∀ e ∈ entries, e.lastUsed < 2 ^ 64 - 1)
    (hfull : dictFirstEmpty entries = none) :
    dictClaimSlot entries < 64 ∧
    (∀ j, j < 64 →
      (entries.getD (dictClaimSlot entries) ⟨none, 0⟩).lastUsed ≤
        (entries.getD j ⟨none, 0⟩).lastUsed) ∧
    (∀ j, j < dictClaimSlot entries →
      (entries.getD (dictClaimSlot entries) ⟨none, 0⟩).lastUsed <
        (entries.getD j ⟨none, 0⟩).lastUsed) := by
  unfold dictClaimSlot
  rw [hfull]
  rcases dictMinScan_spec entries 0 64 (2 ^ 64 - 1) with ⟨hall, _⟩ | ⟨k, hk, heq, _, hmin, hpre⟩
  · exfalso
    have hne : entries ≠ [] := by
      intro hnil; rw [hnil] at hlen; simp at hlen
    obtain ⟨e, he⟩ := List.exists_mem_of_ne_nil entries hne
    exact absurd (hall e he) (by have := hbs e he; omega)
  · simp only [heq, Nat.zero_add]
    exact ⟨by omega, fun j hj => hmin j (by omega), hpre⟩

/-- C4: on a miss, dict_get_or_add claims the first empty slot if one
exists, else the slot with the smallest stamp (ties to the lowest
index), and stamps it with the incremented usage counter; consequently
inserting 65 distinct strings into an empty dictionary leaves the 64
most recently referenced strings resident (slot 0 now holds the 65th
string, stamped 65, slots 1..63 hold strings 2..64) and evicts the
least-recently-used first string. -/
theorem C4_lru_selection (d : Dict) (key : List Nat)
    (hlen : d.entries.length = 64)
    (hbs : ∀ e ∈ d.entries, e.lastUsed < 2 ^ 64 - 1)
    (hmiss : dictFind d.entries key = none) :
    (dict_get_or_add d key).2.1 = true ∧
    (dict_get_or_add d key).2.2.usage = d.usage + 1 ∧
    (dict_get_or_add d key).1 < 64 ∧
    ((dict_get_or_add d key).2.2.entries.getD (dict_get_or_add d key).1 ⟨none, 0⟩)
      = ⟨some key, d.usage + 1⟩ ∧
    (∀ k, dictFirstEmpty d.entries = some k →
      (dict_get_or_add d key).1 = k ∧
      (d.entries.getD k ⟨none, 0⟩).value = none ∧
      ∀ j, j < k → (d.entries.getD j ⟨none, 0⟩).value ≠ none) ∧
    (dictFirstEmpty d.entries = none →
      (∀ j, j < 64 →
        (d.entries.getD (dict_get_or_add d key).1 ⟨none, 0⟩).lastUsed ≤
          (d.entries.getD j ⟨none, 0⟩).lastUsed) ∧
      (∀ j, j < (dict_get_or_add d key).1 →
        (d.entries.getD (dict_get_or_add d key).1 ⟨none, 0⟩).lastUsed <
          (d.entries.getD j ⟨none, 0⟩).lastUsed)) ∧
    (let dF := (List.range 65).foldl (fun dd i => (dict_get_or_add dd [i]).2.2) dict_init
     dF.entries.getD 0 ⟨none, 0⟩ = ⟨some [64], 65⟩ ∧
     (∀ i, 1 ≤ i → i < 64 → dF.entries.getD i ⟨none, 0⟩ = ⟨some [i], i + 1⟩) ∧
     (∀ j, j < 64 → (dF.entries.getD j ⟨none, 0⟩).value ≠ some [0])) := by
  have hidx : (dict_get_or_add d key).1 = dictClaimSlot d.entries := by
    unfold dict_get_or_add
    rw [hmiss]
  have hlt : dictClaimSlot d.entries < 64 := by
    cases hfe : dictFirstEmpty d.entries with
    | some k =>
      obtain ⟨_, h2, _, _⟩ := dictEmptyGo_spec d.entries 0 k hfe
      unfold dictClaimSlot
      rw [hfe]
      show k < 64
      omega
    | none =>
      exact (dictClaimSlot_full d.entries hlen hbs hfe).1
  refine ⟨?_, ?_, ?_, ?_, ?_, ?_, by decide⟩
  · unfold dict_get_or_add; rw [hmiss]
  · unfold dict_get_or_add; rw [hmiss]
  · rw [hidx]; exact hlt
  · unfold dict_get_or_add
    rw [hmiss]
    simp only
    rw [List.getD_eq_getElem?_getD, List.getElem?_set_self (by omega)]
    rfl
  · intro k hk
    obtain ⟨h1, h2, h3, h4⟩ := dictEmptyGo_spec d.entries 0 k hk
    refine ⟨?_, by simpa using h3, fun j hj => by simpa using h4 j (by omega)⟩
    rw [hidx]
    unfold dictClaimSlot dictFirstEmpty
    unfold dictFirstEmpty at hk
    rw [hk]
  · intro hfe
    have := dictClaimSlot_full d.entries hlen hbs hfe
    rw [hidx]
    exact ⟨this.2.1, this.2.2⟩

/-- C4 witness: a miss on an empty dictionary claims slot 0. -/
theorem C4_lru_selection_witness :
    dict_init.entries.length = 64 ∧
    (∀ e ∈ dict_init.entries, e.lastUsed < 2 ^ 64 - 1) ∧
    dictFind dict_init.entries [7] = none ∧
    (dict_get_or_add dict_init [7]).1 < 64 := by
  refine ⟨by decide, ?_, by decide, ?_⟩
  · intro e he
    have : e = ⟨none, 0⟩ := List.eq_of_mem_replicate he
    rw [this]; decide
  · exact (C4_lru_selection dict_init [7] (by decide)
      (fun e he => by
        have : e = ⟨none, 0⟩ := List.eq_of_mem_replicate he
        rw [this]; decide)
      (by decide)).2.2.1

/-! ## Claim C8: the entropy pre-check -/

theorem distinctSeen_aux_nodup (bs : List Nat) (acc : List Nat) (h : acc.Nodup) :
    (bs.foldl (fun a b => if b ∈ a then a else b :: a) acc).Nodup := by
  induction bs generalizing acc with
  | nil => exact h
  | cons b rest ih =>
    simp only [List.foldl_cons]
    by_cases hb : b ∈ acc
    · simp only [hb, if_true]
      exact ih acc h
    · simp only [hb, if_false]
      exact ih (b :: acc) (List.nodup_cons.mpr ⟨hb, h⟩)

theorem distinctSeen_aux_sub (bs : List Nat) (acc : List Nat) :
    ∀ x ∈ bs.foldl (fun a b => if b ∈ a then a else b :: a) acc,
      x ∈ bs ∨ x ∈ acc := by
  induction bs generalizing acc with
  | nil => intro x hx; exact Or.inr hx
  | cons b rest ih =>
    intro x hx
    simp only [List.foldl_cons] at hx
    by_cases hb : b ∈ acc
    · simp only [hb, if_true] at hx
      rcases ih acc x hx with h | h
      · exact Or.inl (List.mem_cons_of_mem _ h)
      · exact Or.inr h
    · simp only [hb, if_false] at hx
      rcases ih (b :: acc) x hx with h | h
      · exact Or.inl (List.mem_cons_of_mem _ h)
      · rcases List.mem_cons.mp h with h | h
        · exact Or.inl (h ▸ List.mem_cons_self _ _)
        · exact Or.inr h

/-- At most 256 distinct byte values can be counted. -/
theorem distinctSeen_le_256 (bs : List Nat) (hb : ∀ x ∈ bs, x < 256) :
    (distinctSeen bs).length ≤ 256 := by
  have hnd : (distinctSeen bs).Nodup := distinctSeen_aux_nodup bs [] List.nodup_nil
  have hsub : (distinctSeen bs).toFinset ⊆ Finset.range 256 := by
    intro x hx
    rw [List.mem_toFinset] at hx
    rcases distinctSeen_aux_sub bs [] x hx with h | h
    · exact Finset.mem_range.mpr (hb x h)
    · simp at h
  calc (distinctSeen bs).length = (distinctSeen bs).toFinset.card :=
        (List.toFinset_card_of_nodup hnd).symm
    _ ≤ (Finset.range 256).card := Finset.card_le_card hsub
    _ = 256 := Finset.card_range 256

theorem C8_entropy_precheck_helper (data : List Nat)
    (hlen : 1024 ≤ data.length) (hbytes : ∀ b ∈ data, b < 256) :
    entropyFires data = false := by
  unfold entropyFires
  have hs : min data.length 1024 = 1024 := by omega
  rw [hs]
  have huniq : (distinctSeen (data.take 1024)).length ≤ 256 :=
    distinctSeen_le_256 _ (fun x hx => hbytes x (List.mem_of_mem_take hx))
  have hdiv : (distinctSeen (data.take 1024)).length * 100 / 1024 ≤ 25 := by
    calc (distinctSeen (data.take 1024)).length * 100 / 1024
        ≤ 256 * 100 / 1024 := Nat.div_le_div_right (by omega)
      _ = 25 := by norm_num
  simp only [gt_iff_lt, decide_eq_false_iff_not, not_lt]
  omega

/-- C8 (amended): for every input of at least 1 KiB the entropy pre-check
of packr_lz77_compress cannot fire: the 1024-byte sample holds at most
256 distinct byte values, so the integer distinct ratio
`unique * 100 / 1024` is at most 25 and never exceeds 80.  The
uncompressed wrapper for such inputs can only come from the final
expansion check. -/
theorem C8_entropy_precheck_never_fires (data : List Nat)
    (hlen : 1024 ≤ data.length) (hbytes : ∀ b ∈ data, b < 256) :
    entropyFires data = false :=
  C8_entropy_precheck_helper data hlen hbytes

/-- C8 witness. -/
theorem C8_entropy_precheck_never_fires_witness :
    1024 ≤ (List.replicate 1024 0).length ∧
    entropyFires (List.replicate 1024 0) = false :=
  ⟨by simp, C8_entropy_precheck_never_fires (List.replicate 1024 0) (by simp)
    (fun b hb => by
      have := List.eq_of_mem_replicate hb
      omega)⟩

theorem distinctSeen_aux_acc_sub (bs acc : List Nat) :
    ∀ x ∈ acc, x ∈ bs.foldl (fun a b => if b ∈ a then a else b :: a) acc := by
  induction bs generalizing acc with
  | nil => intro x hx; exact hx
  | cons b rest ih =>
    intro x hx
    simp only [List.foldl_cons]
    by_cases hb : b ∈ acc
    · simp only [hb, if_true]; exact ih acc x hx
    · simp only [hb, if_false]
      exact ih (b :: acc) x (List.mem_cons_of_mem _ hx)

theorem distinctSeen_aux_mem (bs acc : List Nat) :
    ∀ x ∈ bs, x ∈ bs.foldl (fun a b => if b ∈ a then a else b :: a) acc := by
  induction bs generalizing acc with
  | nil => intro x hx; simp at hx
  | cons b rest ih =>
    intro x hx
    simp only [List.foldl_cons]
    rcases List.mem_cons.mp hx with hx | hx
    · subst hx
      by_cases hb : x ∈ acc
      · simp only [hb, if_true]
        exact distinctSeen_aux_acc_sub rest acc x hb
      · simp only [hb, if_false]
        exact distinctSeen_aux_acc_sub rest (x :: acc) x (List.mem_cons_self _ _)
    · by_cases hb : b ∈ acc
      · simp only [hb, if_true]; exact ih acc x hx
      · simp only [hb, if_false]; exact ih (b :: acc) x hx

/-- An input of exactly 1 KiB realizing every possible byte value. -/
def input1024 : List Nat := (List.range 256).flatMap (List.replicate 4)

theorem input1024_length : input1024.length = 1024 := by
  simp only [input1024, List.length_flatMap]
  have : List.map (List.length ∘ List.replicate 4) (List.range 256) =
      List.replicate (List.range 256).length 4 := by
    apply List.map_eq_replicate_iff.mpr
    intro x _
    simp
  rw [this, List.sum_replicate]
  simp

theorem input1024_mem (x : Nat) : x ∈ input1024 ↔ x < 256 := by
  simp [input1024, List.mem_flatMap, List.mem_replicate, List.mem_range]

/-- C8 counterexample: this 1 KiB input attains the maximum possible 256
distinct byte values over its 1024-byte sample, yet the entropy
pre-check does not fire (the integer ratio is 25, not above 80),
refuting the claim that inputs of at least 1 KiB whose bytes take many
distinct values get the uncompressed wrapper because the pre-check
fires. -/
theorem C8_counterexample :
    input1024.length = 1024 ∧
    (distinctSeen input1024).length = 256 ∧
    entropyFires input1024 = false := by
  have hnd : (distinctSeen input1024).Nodup :=
    distinctSeen_aux_nodup input1024 [] List.nodup_nil
  have hfin : (distinctSeen input1024).toFinset = Finset.range 256 := by
    ext x
    simp only [List.mem_toFinset, Finset.mem_range]
    constructor
    · intro hx
      rcases distinctSeen_aux_sub input1024 [] x hx with h | h
      · exact (input1024_mem x).mp h
      · simp at h
    · intro hx
      exact distinctSeen_aux_mem input1024 [] x ((input1024_mem x).mpr hx)
  refine ⟨input1024_length, ?_, ?_⟩
  · have hcard := List.toFinset_card_of_nodup hnd
    rw [hfin, Finset.card_range] at hcard
    omega
  · exact C8_entropy_precheck_helper input1024 (by rw [input1024_length])
      (fun b hb => (input1024_mem b).mp hb)

/-! ## Claim C2: frame validation -/

/-- C2 counterexample: a five-byte input whose magic is not `P K R 1`
(and which carries no valid CRC) still produces a value event: the
decoder treats the bytes as a raw token body and yields a null value,
refuting the claim that such frames are rejected with no value events. -/
theorem C2_counterexample :
    [0xD9, 0xD9, 0xD9, 0xD9, 0xD9].take 4 ≠ [0x50, 0x4B, 0x52, 0x31] ∧
    decodeFrameDoc [0xD9, 0xD9, 0xD9, 0xD9, 0xD9] = some Doc.null := by
  exact ⟨by decide, rfl⟩

/-- C2 (amended): the decoder validates neither the version byte nor the
CRC — no such checks exist in the source — and the magic bytes only
decide whether the seven-plus-byte header is skipped: a non-LZ77-wrapped
input beginning with `P K R 1` (and longer than six bytes) starts
decoding after the header's symbol-count varint, any other input starts
decoding at offset zero; in both cases decode events are produced from
whatever tokens follow, so no frame-level rejection happens. -/
theorem C2_no_frame_validation (data : List Nat)
    (hnw : ¬(7 < data.length ∧ li data 0 = 0xFE ∧ li data 1 = 0x03)) :
    (packr_decoder_init data).data = data ∧
    ((6 < data.length ∧ data.take 4 = [0x50, 0x4B, 0x52, 0x31]) →
      (packr_decoder_init data).pos = (decodeVarintGo data 6 0 0).2) ∧
    (¬(6 < data.length ∧ data.take 4 = [0x50, 0x4B, 0x52, 0x31]) →
      (packr_decoder_init data).pos = 0) := by
  unfold packr_decoder_init
  simp only [hnw, if_false]
  refine ⟨by trivial, fun hm => by simp [hm], fun hm => by simp [hm]⟩

/-- C2 witness. -/
theorem C2_no_frame_validation_witness :
    ¬(7 < ([0xD9, 0xD9, 0xD9, 0xD9, 0xD9] : List Nat).length ∧
        li [0xD9, 0xD9, 0xD9, 0xD9, 0xD9] 0 = 0xFE ∧
        li [0xD9, 0xD9, 0xD9, 0xD9, 0xD9] 1 = 0x03) ∧
    (packr_decoder_init [0xD9, 0xD9, 0xD9, 0xD9, 0xD9]).pos = 0 :=
  ⟨by decide,
    (C2_no_frame_validation [0xD9, 0xD9, 0xD9, 0xD9, 0xD9] (by decide)).2.2
      (by decide)⟩

/-! ## Claim C6: the five-row batch example -/

/-- The array of spec scenario 3: five records with field `t` (byte
0x74) holding 100..104. -/
def fiveRowsDoc : Doc :=
  .arr [.obj [([0x74], .int 100)], .obj [([0x74], .int 101)],
        .obj [([0x74], .int 102)], .obj [([0x74], .int 103)],
        .obj [([0x74], .int 104)]]

/-- The body bytes the encoder actually produces for the five-row
example. -/
def fiveRowsBytes : List Nat :=
  [0xE9, 0x05, 0x01, 0xD5, 0x01, 0x74, 0x02, 0xC0, 0xC8, 0x01,
   0xE7, 0xE7, 0xE7, 0xE7]

/-- C6 counterexample: encoding the five-row array yields
ULTRA_BATCH rows=5 cols=1, NEW_FIELD "t", flag 0x02, base INT 100
(0xC0 0xC8 0x01) — and then four DELTA_ONE tokens (0xE7), not a
BITPACK_COL: the byte 0xEB appears nowhere in the emitted body, so the
claimed `BITPACK_COL count=4` with payload 0x99 0x99 is never
produced. -/
theorem C6_counterexample :
    (json_encode_to_packr fiveRowsDoc).map (fun e => e.out) = some fiveRowsBytes ∧
    0xEB ∉ fiveRowsBytes ∧ 0x99 ∉ fiveRowsBytes := by
  exact ⟨by decide, by decide, by decide⟩

/-- C6 (amended): the five-row example produces
`ULTRA_BATCH rows=5 cols=1 field="t" flags=0x02`, then base `INT 100`,
then four DELTA_ONE tokens.  The RLE-cost heuristic of
encode_numeric_column (token-fallback cost 4 < 0.8 · bitpack cost 7)
overrides the all-small bitpack path for this column, so the delta
stream is emitted with the token ladder instead of BITPACK_COL. -/
theorem C6_five_row_batch :
    (json_encode_to_packr fiveRowsDoc).map (fun e => e.out) =
      some ([TOKEN_ULTRA_BATCH] ++ [5, 1] ++
        [TOKEN_NEW_FIELD, 1, 0x74] ++ [0x02] ++
        [TOKEN_INT, 0xC8, 0x01] ++
        [TOKEN_DELTA_ONE, TOKEN_DELTA_ONE, TOKEN_DELTA_ONE, TOKEN_DELTA_ONE]) := by
  decide

/-! ## Claim C7: field reference and second-object value encoding -/

/-- The first object of spec scenario 2. -/
def recordA : Doc := .obj [([0x69, 0x64], .int 42), ([0x6F, 0x6B], .bool true)]

/-- The second object of spec scenario 2. -/
def recordB : Doc := .obj [([0x69, 0x64], .int 43)]

/-- The bytes the second object adds to the frame body. -/
def recordBBytes : Option (List Nat) :=
  match encode_value packr_encoder_init recordA with
  | some e1 => (encode_value e1 recordB).map (fun e2 => e2.out.drop e1.out.length)
  | none => none

/-- C7 counterexample: after {"id":42,"ok":true}, encoding {"id":43} in
the same frame emits OBJECT_START, the field reference 0x00, then the
value as a plain INT token with zig-zag varint 0x56, and OBJECT_END —
the DELTA_ONE token 0xE7 appears nowhere, because packr_encode_int has
no inline delta path.  This refutes the claimed single DELTA_ONE
token. -/
theorem C7_counterexample :
    recordBBytes = some [0xDC, 0x00, 0xC0, 0x56, 0xDD] ∧
    0xE7 ∉ [0xDC, 0x00, 0xC0, 0x56, 0xDD] := by
  exact ⟨by decide, by decide⟩

/-- C7 (amended): the second encoding of {"id":43} in the same frame
uses the field-dictionary reference byte 0x00 for "id", but the value 43
is encoded as the INT token 0xC0 followed by the zig-zag varint 0x56:
the buffered encoder keeps no per-field numeric memory and never emits
inline delta tokens. -/
theorem C7_second_object_bytes :
    recordBBytes =
      some ([TOKEN_OBJECT_START, TOKEN_FIELD + 0, TOKEN_INT] ++
        varintEnc (zigzag_encode 43) ++ [TOKEN_OBJECT_END]) := by
  decide

/-! ## Claim C10: strategy minimum sizes -/

/-- Modelled from the spec's words: the per-column default strategy of
section 4.5 — the emission switch of packr_encode_ultra_columns with the
MFV attempt removed (constant value, numeric delta stream, or RLE runs
by type).  Compared against `ultraColumnBody` below. -/
def defaultColumnBody (e : Enc) (col : Column) : Enc :=
  let e0 :=
    if colHasNulls col then
      bufApp e (bitmapBytes ((col.nulls.take col.count).map (· ≠ 0)))
    else e
  match col.type with
  | .int =>
    if colIsConstant col then packr_encode_int e0 (col.ints.headD 0)
    else encode_numeric_column e0 col
  | .float =>
    if colIsConstant col then
      let v := col.floats.headD 0
      if qIsInt32 v then packr_encode_int e0 v.num
      else packr_encode_float e0 v
    else encode_numeric_column e0 col
  | .str =>
    if colIsConstant col then packr_encode_string e0 (col.strings.headD [])
    else rleStringRuns e0 (col.strings.take col.count)
  | .bool =>
    if colIsConstant col then packr_encode_bool e0 (col.bools.headD 0 ≠ 0)
    else rleBoolRuns e0 (col.bools.take col.count)
  | _ => e0

/-- C10: a column of fewer than 8 rows never selects MFV, a delta list of
fewer than 10 entries never selects RICE_COLUMN, and below the MFV
minimum the emitted column body coincides with the type's default
strategy. -/
theorem C10_minimum_sizes :
    (∀ (e : Enc) (col : Column), col.count < 8 → encode_mfv_column e col = none) ∧
    (∀ (e : Enc) (ds : List Int), ds.length < 10 → encode_rice_column e ds = none) ∧
    (∀ (e : Enc) (col : Column), col.count < 8 →
      ultraColumnBody e col = defaultColumnBody e col) := by
  have hmfv : ∀ (e : Enc) (col : Column), col.count < 8 →
      encode_mfv_column e col = none := by
    intro e col h
    unfold encode_mfv_column
    simp [h]
  refine ⟨hmfv, ?_, ?_⟩
  · intro e ds h
    unfold encode_rice_column
    simp [h]
  · intro e col h
    unfold ultraColumnBody defaultColumnBody
    cases col.type <;> simp [hmfv _ _ h]

/-- C10 witness: a two-row int column with distinct values takes the
numeric default (MFV and Rice both refuse). -/
theorem C10_minimum_sizes_witness :
    (Column.mk ColType.int [1, 5] [] [] [] [1, 1] 2).count < 8 ∧
    encode_mfv_column packr_encoder_init
      (Column.mk ColType.int [1, 5] [] [] [] [1, 1] 2) = none ∧
    ([(3 : Int), 3, 3].length < 10 ∧
      encode_rice_column packr_encoder_init [(3 : Int), 3, 3] = none) ∧
    ultraColumnBody packr_encoder_init
        (Column.mk ColType.int [1, 5] [] [] [] [1, 1] 2) =
      defaultColumnBody packr_encoder_init
        (Column.mk ColType.int [1, 5] [] [] [] [1, 1] 2) :=
  ⟨by decide,
   C10_minimum_sizes.1 packr_encoder_init _ (by decide),
   ⟨by decide, C10_minimum_sizes.2.1 packr_encoder_init [3, 3, 3] (by decide)⟩,
   C10_minimum_sizes.2.2 packr_encoder_init _ (by decide)⟩

/-! ## Stream toolkit: reading an encoded prefix back -/

theorem streamHead (data : List Nat) (pos b : Nat) (rest : List Nat)
    (h : data.drop pos = b :: rest) :
    li data pos = b ∧ data.drop (pos + 1) = rest ∧ pos < data.length := by
  have hlen : pos < data.length := by
    by_contra hge
    rw [List.drop_eq_nil_of_le (by omega)] at h
    simp at h
  refine ⟨?_, ?_, hlen⟩
  · have h0 : data[pos]? = some b := by
      have h1 := List.getElem?_drop data pos 0
      rw [h] at h1
      simpa using h1.symm
    simp [li, List.getD_eq_getElem?_getD, h0]
  · have h1 : data.drop (pos + 1) = (data.drop pos).drop 1 := by
      rw [List.drop_drop, Nat.add_comm]
    rw [h1, h]
    rfl

theorem streamTake (data : List Nat) (pos : Nat) (chunk rest : List Nat)
    (h : data.drop pos = chunk ++ rest) :
    data.drop (pos + chunk.length) = rest := by
  have h1 : data.drop (pos + chunk.length) = (data.drop pos).drop chunk.length := by
    rw [List.drop_drop, Nat.add_comm]
  rw [h1, h, List.drop_left]

theorem varintEncGo_nonempty (v fuel : Nat) : varintEncGo v fuel ≠ [] := by
  cases fuel with
  | zero => simp [varintEncGo]
  | succ f =>
    unfold varintEncGo
    split <;> simp

theorem varintEnc_nonempty (v : Nat) : varintEnc v ≠ [] := varintEncGo_nonempty v 5

/-- Decoding an encoder-produced varint: the loop returns exactly the
encoded value (modulo the fuel-limited prefix) and stops right after its
bytes.  Stated for the generalized accumulators of the C loop. -/
theorem decodeVarintLoop_enc (data : List Nat) :
    ∀ (fe v pos res shift : Nat) (rest : List Nat) (fd : Nat),
      data.drop pos = varintEncGo v fe ++ rest →
      (varintEncGo v fe).length < fd →
      decodeVarintLoop data pos res shift fd =
        ((res + v % 128 ^ (fe + 1) * 2 ^ shift) % 2 ^ 32,
          pos + (varintEncGo v fe).length) := by
  intro fe
  induction fe with
  | zero =>
    intro v pos res shift rest fd hdrop hfd
    simp only [varintEncGo] at hdrop hfd ⊢
    obtain ⟨hb, -, hlt⟩ := streamHead data pos (v % 128) rest (by simpa using hdrop)
    match fd, hfd with
    | fd + 1, _ =>
      unfold decodeVarintLoop
      simp only [hlt, if_true, hb]
      have hsmall : v % 128 % 256 < 128 := by omega
      simp only [hsmall, if_true, List.length_cons, List.length_nil]
      have h1 : v % 128 % 128 = v % 128 ^ (0 + 1) := by
        rw [pow_succ, pow_zero, one_mul]
        omega
      rw [h1]
  | succ k ih =>
    intro v pos res shift rest fd hdrop hfd
    by_cases hbig : v > 0x7F
    · have henc : varintEncGo v (k + 1) = (v % 128 + 128) :: varintEncGo (v / 128) k := by
        show (if v > 0x7F then (v % 128 + 128) :: varintEncGo (v / 128) k else [v % 128]) = _
        simp [hbig]
      rw [henc] at hdrop hfd ⊢
      obtain ⟨hb, hrest, hlt⟩ := streamHead data pos (v % 128 + 128) _ hdrop
      match fd, hfd with
      | fd + 1, hfd =>
        unfold decodeVarintLoop
        simp only [hlt, if_true, hb]
        have hge : ¬((v % 128 + 128) % 256 < 128) := by omega
        simp only [hge, if_false]
        have hrec := ih (v / 128) (pos + 1)
          ((res + (v % 128 + 128) % 128 * 2 ^ shift) % 2 ^ 32) (shift + 7) rest fd
          hrest (by simp only [List.length_cons] at hfd; omega)
        rw [hrec]
        simp only [List.length_cons]
        rw [Prod.mk.injEq]
        refine ⟨?_, by omega⟩
        rw [Nat.mod_add_mod]
        have hm : (v % 128 + 128) % 128 = v % 128 := by omega
        have hsplit : v % 128 ^ (k + 1 + 1) = v % 128 + 128 * (v / 128 % 128 ^ (k + 1)) := by
          rw [pow_succ']
          exact Nat.mod_mul
        rw [hm, hsplit]
        congr 1
        ring
    · have henc : varintEncGo v (k + 1) = [v % 128] := by
        show (if v > 0x7F then (v % 128 + 128) :: varintEncGo (v / 128) k else [v % 128]) = _
        simp [hbig]
      rw [henc] at hdrop hfd ⊢
      obtain ⟨hb, -, hlt⟩ := streamHead data pos (v % 128) rest (by simpa using hdrop)
      match fd, hfd with
      | fd + 1, _ =>
        unfold decodeVarintLoop
        simp only [hlt, if_true, hb]
        have hsmall : v % 128 % 256 < 128 := by omega
        simp only [hsmall, if_true, List.length_cons, List.length_nil]
        have h1 : v % 128 % 128 = v % 128 ^ (k + 1 + 1) := by
          have h2 : v % 128 ^ (k + 1 + 1) = v := Nat.mod_eq_of_lt
            (lt_of_lt_of_le (by omega) (Nat.le_self_pow (by omega) 128))
          omega
        rw [h1]

/-- Reading back a 32-bit varint the encoder wrote: decode_varint
returns the value and advances past exactly its bytes. -/
theorem decodeVarintGo_enc (data : List Nat) (pos v : Nat) (rest : List Nat)
    (hv : v < 2 ^ 32) (h : data.drop pos = varintEnc v ++ rest) :
    decodeVarintGo data pos 0 0 = (v, pos + (varintEnc v).length) := by
  have hlen : (varintEnc v).length < data.length + 1 - pos := by
    have hc := congrArg List.length h
    rw [List.length_drop, List.length_append] at hc
    have hpos : pos ≤ data.length := by
      by_contra hgt
      rw [List.drop_eq_nil_of_le (by omega)] at h
      have := varintEnc_nonempty v
      cases hv2 : varintEnc v with
      | nil => exact this hv2
      | cons a l => rw [hv2] at h; simp at h
    omega
  have := decodeVarintLoop_enc data 5 v pos 0 0 rest (data.length + 1 - pos) h hlen
  rw [decodeVarintGo, varintEnc] at *
  rw [this]
  have hmod : v % 128 ^ (5 + 1) = v := Nat.mod_eq_of_lt (by
    calc v < 2 ^ 32 := hv
      _ ≤ 128 ^ (5 + 1) := by norm_num)
  rw [hmod]
  simp only [Nat.zero_add, pow_zero, mul_one]
  rw [Nat.mod_eq_of_lt hv]

/-! ## Claim C3: delta semantics and reconstructed bases -/

/-- The serialized forms of the inline delta tokens of packr.c: the three
one-byte specials, the small-delta band 0xC3..0xD2 (biased by 8), the
two-byte DELTA_MEDIUM form (biased by 64), and DELTA_LARGE followed by a
zig-zag varint. -/
def DeltaTokenBytes (dv : Int) (bs : List Nat) : Prop :=
  (dv = 0 ∧ bs = [TOKEN_DELTA_ZERO]) ∨
  (dv = 1 ∧ bs = [TOKEN_DELTA_ONE]) ∨
  (dv = -1 ∧ bs = [TOKEN_DELTA_NEG_ONE]) ∨
  (-8 ≤ dv ∧ dv ≤ 7 ∧ bs = [0xC3 + (dv + 8).toNat]) ∨
  (-64 ≤ dv ∧ dv ≤ 63 ∧ bs = [TOKEN_DELTA_MEDIUM, (dv + 64).toNat]) ∨
  (-2 ^ 31 ≤ dv ∧ dv < 2 ^ 31 ∧ bs = TOKEN_DELTA_LARGE :: varintEnc (zigzag_encode dv))

theorem zigzag_encode_lt (dv : Int) (h1 : -2 ^ 31 ≤ dv) (h2 : dv < 2 ^ 31) :
    zigzag_encode dv < 2 ^ 32 := by
  unfold zigzag_encode
  split <;> omega

theorem qTrunc_intCast (k : Int) : qTrunc (k : ℚ) = k := by
  unfold qTrunc
  split
  · exact Int.floor_intCast k
  · rw [← Int.cast_neg, Int.floor_intCast, neg_neg]

theorem wrap32_eq_self (z : Int) (h1 : -2 ^ 31 ≤ z) (h2 : z < 2 ^ 31) : wrap32 z = z := by
  unfold wrap32
  omega

/-- Any inline delta token makes packr_decode_next take the shared
applyNumeric path with the decoded delta, advancing exactly past the
token's bytes.  The four-byte tail hypothesis keeps the decoder's
`pos > size - 4` entry guard from firing, as on any stream the encoder
terminates. -/
theorem decodeNext_delta_step (dec : Dec) (dv : Int) (bs rest : List Nat) (fuel : Nat)
    (hbs : DeltaTokenBytes dv bs)
    (hdrop : dec.data.drop dec.pos = bs ++ rest)
    (hrest : 4 ≤ rest.length) :
    packr_decode_next (fuel + 1) dec =
      some (applyNumeric { dec with pos := dec.pos + bs.length } dv true) := by
  have hlen : dec.data.length - dec.pos = bs.length + rest.length := by
    have h := congrArg List.length hdrop
    rw [List.length_drop, List.length_append] at h
    exact h
  rcases hbs with ⟨hdv, hb⟩ | ⟨hdv, hb⟩ | ⟨hdv, hb⟩ | ⟨hl, hr, hb⟩ | ⟨hl, hr, hb⟩ | ⟨hl, hr, hb⟩
  · subst hdv; subst hb
    obtain ⟨htok, -, hpos⟩ := streamHead _ _ _ _ (by simpa using hdrop)
    have hlen' : dec.data.length - dec.pos = 1 + rest.length := by simpa using hlen
    unfold packr_decode_next
    rw [if_neg (by omega), if_neg (by omega)]
    simp only [htok, TOKEN_DELTA_ZERO, TOKEN_NULL, TOKEN_BOOL_TRUE, TOKEN_BOOL_FALSE,
      TOKEN_FLOAT32, TOKEN_DOUBLE, TOKEN_BINARY, TOKEN_INT, TOKEN_DELTA_LARGE,
      TOKEN_DELTA_ONE, TOKEN_DELTA_NEG_ONE, TOKEN_DELTA_MEDIUM]
    norm_num
  · subst hdv; subst hb
    obtain ⟨htok, -, hpos⟩ := streamHead _ _ _ _ (by simpa using hdrop)
    have hlen' : dec.data.length - dec.pos = 1 + rest.length := by simpa using hlen
    unfold packr_decode_next
    rw [if_neg (by omega), if_neg (by omega)]
    simp only [htok, TOKEN_DELTA_ZERO, TOKEN_NULL, TOKEN_BOOL_TRUE, TOKEN_BOOL_FALSE,
      TOKEN_FLOAT32, TOKEN_DOUBLE, TOKEN_BINARY, TOKEN_INT, TOKEN_DELTA_LARGE,
      TOKEN_DELTA_ONE, TOKEN_DELTA_NEG_ONE, TOKEN_DELTA_MEDIUM]
    norm_num
  · subst hdv; subst hb
    obtain ⟨htok, -, hpos⟩ := streamHead _ _ _ _ (by simpa using hdrop)
    have hlen' : dec.data.length - dec.pos = 1 + rest.length := by simpa using hlen
    unfold packr_decode_next
    rw [if_neg (by omega), if_neg (by omega)]
    simp only [htok, TOKEN_DELTA_ZERO, TOKEN_NULL, TOKEN_BOOL_TRUE, TOKEN_BOOL_FALSE,
      TOKEN_FLOAT32, TOKEN_DOUBLE, TOKEN_BINARY, TOKEN_INT, TOKEN_DELTA_LARGE,
      TOKEN_DELTA_ONE, TOKEN_DELTA_NEG_ONE, TOKEN_DELTA_MEDIUM]
    norm_num
  · subst hb
    obtain ⟨htok, -, hpos⟩ := streamHead _ _ _ _ (by simpa using hdrop)
    have hlen' : dec.data.length - dec.pos = 1 + rest.length := by simpa using hlen
    have htn : (dv + 8).toNat ≤ 15 := by omega
    unfold packr_decode_next
    rw [if_neg (by omega), if_neg (by omega)]
    simp only [htok, TOKEN_NULL, TOKEN_BOOL_TRUE, TOKEN_BOOL_FALSE,
      TOKEN_FLOAT32, TOKEN_DOUBLE, TOKEN_BINARY, TOKEN_INT, TOKEN_DELTA_LARGE]
    have cNull : ¬(0xC3 + (dv + 8).toNat = 0xD9) := by omega
    have cTrue : ¬(0xC3 + (dv + 8).toNat = 0xD7) := by omega
    have cFalse : ¬(0xC3 + (dv + 8).toNat = 0xD8) := by omega
    have cF32 : ¬(0xC3 + (dv + 8).toNat = 0xC2) := by omega
    have cDbl : ¬(0xC3 + (dv + 8).toNat = 0xDE) := by omega
    have cBin : ¬(0xC3 + (dv + 8).toNat = 0xDF) := by omega
    have cInt : ¬(0xC3 + (dv + 8).toNat = 0xC0) := by omega
    have cLarge : ¬(0xC3 + (dv + 8).toNat = 0xD3) := by omega
    have cBand : 0xC3 ≤ 0xC3 + (dv + 8).toNat ∧ 0xC3 + (dv + 8).toNat ≤ 0xD2 := by omega
    rw [if_neg cNull, if_neg cTrue, if_neg cFalse, if_neg cF32, if_neg cDbl, if_neg cBin,
      if_neg cInt, if_neg cLarge, if_pos cBand]
    have harg : ((0xC3 + (dv + 8).toNat : Nat) : Int) - 0xC3 - 8 = dv := by omega
    rw [harg]
    simp
  · subst hb
    obtain ⟨htok, htl, hpos⟩ := streamHead _ _ _ _ (by simpa using hdrop)
    obtain ⟨htok2, -, -⟩ := streamHead _ _ _ _ htl
    have hlen' : dec.data.length - dec.pos = 2 + rest.length := by simpa using hlen
    unfold packr_decode_next
    rw [if_neg (by omega), if_neg (by omega)]
    simp only [htok, TOKEN_DELTA_ZERO, TOKEN_NULL, TOKEN_BOOL_TRUE, TOKEN_BOOL_FALSE,
      TOKEN_FLOAT32, TOKEN_DOUBLE, TOKEN_BINARY, TOKEN_INT, TOKEN_DELTA_LARGE,
      TOKEN_DELTA_ONE, TOKEN_DELTA_NEG_ONE, TOKEN_DELTA_MEDIUM]
    norm_num
    refine ⟨by omega, ?_⟩
    rw [htok2]
    have harg : (((dv + 64).toNat : Nat) : Int) - 64 = dv := by omega
    rw [harg]
  · subst hb
    obtain ⟨htok, htl, hpos⟩ := streamHead _ _ _ _ (by simpa using hdrop)
    have hu : zigzag_encode dv < 2 ^ 32 := zigzag_encode_lt dv hl hr
    have hlen' : dec.data.length - dec.pos =
        (1 + (varintEnc (zigzag_encode dv)).length) + rest.length := by
      simpa [Nat.add_comm] using hlen
    have hvr := decodeVarintGo_enc dec.data (dec.pos + 1) (zigzag_encode dv) rest hu htl
    unfold packr_decode_next
    rw [if_neg (by omega), if_neg (by omega)]
    simp only [htok, TOKEN_DELTA_ZERO, TOKEN_NULL, TOKEN_BOOL_TRUE, TOKEN_BOOL_FALSE,
      TOKEN_FLOAT32, TOKEN_DOUBLE, TOKEN_BINARY, TOKEN_INT, TOKEN_DELTA_LARGE,
      TOKEN_DELTA_ONE, TOKEN_DELTA_NEG_ONE, TOKEN_DELTA_MEDIUM]
    norm_num
    rw [hvr]
    simp only [zigzag_roundtrip, List.length_cons]
    have hplen : dec.pos + 1 + (varintEnc (zigzag_encode dv)).length =
        dec.pos + ((varintEnc (zigzag_encode dv)).length + 1) := by omega
    rw [hplen]

/-- The decoder's float reconstruction rule (the float-history branch of
applyNumeric) iterated over a delta list: each step advances the basis by
delta/65536. -/
def reconFloat (base : ℚ) : List Int → List ℚ
  | [] => []
  | d :: ds => (base + (d : ℚ) / 65536) :: reconFloat (base + (d : ℚ) / 65536) ds

/-- The decoder's int reconstruction rule iterated (wrapped 32-bit
addition, as in the int-history branch of applyNumeric). -/
def reconInt (base : Int) : List Int → List Int
  | [] => []
  | d :: ds => wrap32 (base + d) :: reconInt (wrap32 (base + d)) ds

/-- Each delta the float branch of encode_numeric_column emits is rint of
(value − basis)·65536 where the basis is the decoder-reconstructed
previous value, not the original input value. -/
theorem floatDeltaScan_basis (vs : List ℚ) : ∀ (base : ℚ) (i : Nat), i < vs.length →
    ((floatDeltaScan base vs).1).getD i 0 =
      rintQ ((vs.getD i 0 -
        (base :: reconFloat base (floatDeltaScan base vs).1).getD i 0) * 65536) := by
  induction vs with
  | nil => intro base i h; simp at h
  | cons v vs ih =>
    intro base i h
    cases i with
    | zero => simp [floatDeltaScan, reconFloat]
    | succ j =>
      have hj : j < vs.length := by simpa using h
      have hstep := ih (base + (rintQ ((v - base) * 65536) : ℚ) / 65536) j hj
      simpa [floatDeltaScan, reconFloat] using hstep

/-- Int analog: each emitted delta is the wrapped difference from the
decoder-reconstructed previous value. -/
theorem intDeltaScan_basis (vs : List Int) : ∀ (base : Int) (i : Nat), i < vs.length →
    ((intDeltaScan base vs).1).getD i 0 =
      wrap32 (vs.getD i 0 -
        (base :: reconInt base (intDeltaScan base vs).1).getD i 0) := by
  induction vs with
  | nil => intro base i h; simp at h
  | cons v vs ih =>
    intro base i h
    cases i with
    | zero => simp [intDeltaScan, reconInt]
    | succ j =>
      have hj : j < vs.length := by simpa using h
      have hstep := ih (wrap32 (base + wrap32 (v - base))) j hj
      simpa [intDeltaScan, reconInt] using hstep

/-- Concrete decoder state with a float history for field 0 (previous
value 5), about to read a DELTA_ONE token. -/
def C3decFloat : Dec :=
  ⟨[0xE7, 9, 9, 9, 9], 0, dict_init, dict_init, dict_init, [5], [2], 0⟩

/-- Concrete decoder state with an int history for field 0 (previous
value 7), about to read a DELTA_ZERO token. -/
def C3decInt : Dec :=
  ⟨[0xE6, 9, 9, 9, 9], 0, dict_init, dict_init, dict_init, [7], [1], 0⟩

/-- C3: on the decoder, every inline delta token (the three one-byte
specials, the small band, DELTA_MEDIUM and DELTA_LARGE) applied to a
field slot whose history has type FLOAT32 reconstructs prev + delta/65536
and stores it back; applied to a slot with INT history it reconstructs
prev + delta (stated for in-range results; the C arithmetic is wrapped
int32).  On the encoder, both branches of encode_numeric_column compute
every delta against the decoder-reconstructed (quantized) basis — the
element of the reconstruction sequence — not the original input value. -/
theorem C3_delta_semantics :
    (∀ (dec : Dec) (dv : Int) (bs rest : List Nat) (fuel : Nat) (f : Nat) (p : ℚ),
      DeltaTokenBytes dv bs →
      dec.data.drop dec.pos = bs ++ rest →
      4 ≤ rest.length →
      dec.currentField = (f : Int) → f < 64 →
      dec.lastTypes.getD f 0 = 2 →
      dec.lastNums.getD f 0 = p →
      packr_decode_next (fuel + 1) dec =
        some (some (.num (p + (dv : ℚ) / 65536)),
          { dec with pos := dec.pos + bs.length,
                     lastNums := dec.lastNums.set f (p + (dv : ℚ) / 65536) })) ∧
    (∀ (dec : Dec) (dv : Int) (bs rest : List Nat) (fuel : Nat) (f : Nat) (k : Int),
      DeltaTokenBytes dv bs →
      dec.data.drop dec.pos = bs ++ rest →
      4 ≤ rest.length →
      dec.currentField = (f : Int) → f < 64 →
      dec.lastTypes.getD f 0 = 1 →
      dec.lastNums.getD f 0 = (k : ℚ) →
      -2 ^ 31 ≤ k + dv → k + dv < 2 ^ 31 →
      packr_decode_next (fuel + 1) dec =
        some (some (.int (k + dv)),
          { dec with pos := dec.pos + bs.length,
                     lastNums := dec.lastNums.set f ((k + dv : Int) : ℚ) })) ∧
    (∀ (base : ℚ) (vs : List ℚ) (i : Nat), i < vs.length →
      ((floatDeltaScan base vs).1).getD i 0 =
        rintQ ((vs.getD i 0 -
          (base :: reconFloat base (floatDeltaScan base vs).1).getD i 0) * 65536)) ∧
    (∀ (base : Int) (vs : List Int) (i : Nat), i < vs.length →
      ((intDeltaScan base vs).1).getD i 0 =
        wrap32 (vs.getD i 0 -
          (base :: reconInt base (intDeltaScan base vs).1).getD i 0)) := by
  refine ⟨?_, ?_, fun base vs i h => floatDeltaScan_basis vs base i h,
    fun base vs i h => intDeltaScan_basis vs base i h⟩
  · intro dec dv bs rest fuel f p hbs hdrop hrest hf hf64 ht hp
    rw [decodeNext_delta_step dec dv bs rest fuel hbs hdrop hrest]
    have hf64i : ((f : Nat) : Int) < 64 := by exact_mod_cast hf64
    simp only [List.getD_eq_getElem?_getD] at ht hp
    simp [applyNumeric, hf, ht, hp, hf64i, Int.toNat_natCast]
  · intro dec dv bs rest fuel f k hbs hdrop hrest hf hf64 ht hk h1 h2
    rw [decodeNext_delta_step dec dv bs rest fuel hbs hdrop hrest]
    have hf64i : ((f : Nat) : Int) < 64 := by exact_mod_cast hf64
    simp only [List.getD_eq_getElem?_getD] at ht hk
    simp [applyNumeric, hf, ht, hk, hf64i, Int.toNat_natCast, qTrunc_intCast,
      wrap32_eq_self (k + dv) h1 h2]

/-- C3 witness: DELTA_ONE on the concrete float-history state turns
prev 5 into 5 + 1/65536; DELTA_ZERO on the concrete int-history state
keeps prev 7; and the second delta of a quantized float column (values
1/3 then 2/3) and of an int column is computed from the reconstructed
basis. -/
theorem C3_delta_semantics_witness :
    (DeltaTokenBytes 1 [TOKEN_DELTA_ONE] ∧ 4 ≤ ([9, 9, 9, 9] : List Nat).length ∧
      packr_decode_next 1 C3decFloat =
        some (some (.num ((5 : ℚ) + ((1 : Int) : ℚ) / 65536)),
          { C3decFloat with
              pos := C3decFloat.pos + [TOKEN_DELTA_ONE].length,
              lastNums := C3decFloat.lastNums.set 0 ((5 : ℚ) + ((1 : Int) : ℚ) / 65536) })) ∧
    (DeltaTokenBytes 0 [TOKEN_DELTA_ZERO] ∧
      packr_decode_next 1 C3decInt =
        some (some (.int ((7 : Int) + 0)),
          { C3decInt with
              pos := C3decInt.pos + [TOKEN_DELTA_ZERO].length,
              lastNums := C3decInt.lastNums.set 0 (((7 : Int) + 0 : Int) : ℚ) })) ∧
    (1 < ([(1 : ℚ) / 3, 2 / 3] : List ℚ).length ∧
      ((floatDeltaScan 0 [(1 : ℚ) / 3, 2 / 3]).1).getD 1 0 =
        rintQ ((([(1 : ℚ) / 3, 2 / 3] : List ℚ).getD 1 0 -
          ((0 : ℚ) :: reconFloat 0 (floatDeltaScan 0 [(1 : ℚ) / 3, 2 / 3]).1).getD 1 0) *
            65536)) ∧
    (1 < ([5, 9] : List Int).length ∧
      ((intDeltaScan 0 [5, 9]).1).getD 1 0 =
        wrap32 (([5, 9] : List Int).getD 1 0 -
          ((0 : Int) :: reconInt 0 (intDeltaScan 0 [5, 9]).1).getD 1 0)) := by
  have hbs1 : DeltaTokenBytes 1 [TOKEN_DELTA_ONE] := Or.inr (Or.inl ⟨rfl, rfl⟩)
  have hbs0 : DeltaTokenBytes 0 [TOKEN_DELTA_ZERO] := Or.inl ⟨rfl, rfl⟩
  refine ⟨⟨hbs1, by decide, ?_⟩, ⟨hbs0, ?_⟩, ⟨by decide, ?_⟩, ⟨by decide, ?_⟩⟩
  · exact C3_delta_semantics.1 C3decFloat 1 [TOKEN_DELTA_ONE] [9, 9, 9, 9] 0 0 5
      hbs1 rfl (by decide) rfl (by decide) rfl rfl
  · exact C3_delta_semantics.2.1 C3decInt 0 [TOKEN_DELTA_ZERO] [9, 9, 9, 9] 0 0 7
      hbs0 rfl (by decide) rfl (by decide) rfl (by decide) (by decide) (by decide)
  · exact C3_delta_semantics.2.2.1 0 [(1 : ℚ) / 3, 2 / 3] 1 (by decide)
  · exact C3_delta_semantics.2.2.2 0 [5, 9] 1 (by decide)

/-! ## Claim C9: 255-byte truncation of strings and keys -/

/-- A four-row array of objects whose field `s` holds a distinct
256-byte string per row: long enough to trigger truncation if it
existed, shaped to take the ultra column path. -/
def C9bigRow (b : Nat) : Doc := .obj [([115], .str (List.replicate 256 b))]

def C9bigDoc : Doc := .arr [C9bigRow 65, C9bigRow 66, C9bigRow 67, C9bigRow 68]

/-- The same array with every string already cut to 255 bytes — what the
encoder would emit if it truncated these strings. -/
def C9truncRow (b : Nat) : Doc := .obj [([115], .str (List.replicate 255 b))]

def C9truncDoc : Doc := .arr [C9truncRow 65, C9truncRow 66, C9truncRow 67, C9truncRow 68]

/-- C9 counterexample: strings that reach the encoder through the ultra
column path are NOT truncated.  Encoding the four-row array of 256-byte
strings emits NEW_STRING with length varint 256 (bytes 0x80 0x02) and
differs from the encoding of the pre-truncated array, so the claimed
universal 255-byte truncation fails for this input. -/
theorem C9_counterexample :
    (json_encode_to_packr C9bigDoc).map (fun e => e.out.take 10) =
      some [0xE9, 4, 1, 0xD5, 1, 115, 4, 0xD4, 0x80, 0x02] ∧
    (json_encode_to_packr C9bigDoc).map (fun e => e.out.take 10) ≠
      (json_encode_to_packr C9truncDoc).map (fun e => e.out.take 10) := by
  exact ⟨by decide, by decide⟩

/-- C9 (amended): truncation to 255 bytes happens on the recursive
encode path only — a string value of more than 255 bytes is encoded
exactly as its 255-byte prefix, and an object key of more than 255 bytes
is cut to its 255-byte prefix by encode_object's key truncation; strings
routed through the ultra column path are emitted untruncated. -/
theorem C9_recursive_truncation :
    (∀ (e : Enc) (s : List Nat), 255 < s.length →
      encode_value e (.str s) = encode_value e (.str (s.take 255))) ∧
    (∀ (k : List Nat), 255 < k.length → truncKey k = k.take 255) := by
  constructor
  · intro e s h
    have h256 : 256 ≤ s.length := by omega
    have hn : ¬(256 ≤ (s.take 255).length) := by
      rw [List.length_take]
      omega
    simp [encode_value, h256, hn, List.take_take]
  · intro k h
    unfold truncKey
    rw [if_pos (by omega)]

/-- C9 witness: the amended truncation equalities at a concrete 256-byte
string and key. -/
theorem C9_recursive_truncation_witness :
    255 < (List.replicate 256 65 : List Nat).length ∧
    encode_value packr_encoder_init (.str (List.replicate 256 65)) =
      encode_value packr_encoder_init (.str ((List.replicate 256 65).take 255)) ∧
    truncKey (List.replicate 256 107) = (List.replicate 256 107).take 255 :=
  ⟨by decide,
    C9_recursive_truncation.1 packr_encoder_init (List.replicate 256 65) (by decide),
    C9_recursive_truncation.2 (List.replicate 256 107) (by decide)⟩

/-! ## Claim C5: the LZ77 round trip -/

theorem push_eq (cap : Nat) (out : List Nat) (b : Nat) (h : out.length < cap) :
    push cap out b = out ++ [b] := by
  unfold push
  rw [if_pos h]

theorem pushL_eq (cap : Nat) : ∀ (bs out : List Nat), out.length + bs.length ≤ cap →
    pushL cap out bs = out ++ bs := by
  intro bs
  induction bs with
  | nil => intro out h; simp [pushL]
  | cons b rest ih =>
    intro out h
    simp only [List.length_cons] at h
    simp only [pushL, List.foldl_cons]
    rw [push_eq cap out b (by omega)]
    have h2 := ih (out ++ [b]) (by simp; omega)
    simp only [pushL] at h2
    rw [h2, List.append_assoc]
    rfl

theorem pushM_eq (cap : Nat) (out bs : List Nat) (h : out.length + bs.length ≤ cap) :
    pushM cap out bs = out ++ bs := by
  unfold pushM
  rw [if_pos h]

theorem extBytesGo_length : ∀ (fuel r : Nat), (extBytesGo r fuel).length ≤ r / 255 + 1 := by
  intro fuel
  induction fuel with
  | zero => intro r; simp [extBytesGo]
  | succ f ih =>
    intro r
    unfold extBytesGo
    split
    · simp only [List.length_cons]
      have h2 := ih (r - 255)
      omega
    · simp

theorem extBytes_length (r : Nat) : (extBytes r).length ≤ r / 255 + 1 :=
  extBytesGo_length r r

/-- Reading back an encoder-produced extension-byte run: the reader adds
exactly the encoded remainder and stops after its bytes. -/
theorem extReadGo_enc (cin : List Nat) :
    ∀ (fe r pos acc : Nat) (rest : List Nat) (fd : Nat),
      cin.drop pos = extBytesGo r fe ++ rest →
      r ≤ 255 * fe + 254 →
      (extBytesGo r fe).length < fd →
      extReadGo cin pos acc fd = (acc + r, pos + (extBytesGo r fe).length) := by
  intro fe
  induction fe with
  | zero =>
    intro r pos acc rest fd hdrop hr hfd
    simp only [extBytesGo] at hdrop hfd ⊢
    obtain ⟨hb, -, hlt⟩ := streamHead cin pos r rest (by simpa using hdrop)
    match fd, hfd with
    | fd + 1, _ =>
      unfold extReadGo
      rw [if_pos hlt, hb, if_pos (by omega)]
      simp
  | succ f ih =>
    intro r pos acc rest fd hdrop hr hfd
    by_cases h255 : 255 ≤ r
    · have henc : extBytesGo r (f + 1) = 255 :: extBytesGo (r - 255) f := by
        show (if 255 ≤ r then 255 :: extBytesGo (r - 255) f else [r]) = _
        rw [if_pos h255]
      rw [henc] at hdrop hfd ⊢
      obtain ⟨hb, hrest, hlt⟩ := streamHead cin pos 255 _ hdrop
      match fd, hfd with
      | fd + 1, hfd =>
        unfold extReadGo
        rw [if_pos hlt, hb, if_neg (by omega)]
        rw [ih (r - 255) (pos + 1) (acc + 255) rest fd hrest (by omega)
          (by simp only [List.length_cons] at hfd; omega)]
        rw [Prod.mk.injEq]
        simp only [List.length_cons]
        exact ⟨by omega, by omega⟩
    · have henc : extBytesGo r (f + 1) = [r] := by
        show (if 255 ≤ r then 255 :: extBytesGo (r - 255) f else [r]) = _
        rw [if_neg h255]
      rw [henc] at hdrop hfd ⊢
      obtain ⟨hb, -, hlt⟩ := streamHead cin pos r rest (by simpa using hdrop)
      match fd, hfd with
      | fd + 1, _ =>
        unfold extReadGo
        rw [if_pos hlt, hb, if_pos (by omega)]
        simp

/-- Reading back an extension run with the reader's own fuel. -/
theorem extRead_enc (cin : List Nat) (r pos acc : Nat) (rest : List Nat)
    (hdrop : cin.drop pos = extBytes r ++ rest) :
    extRead cin pos acc = (acc + r, pos + (extBytes r).length) := by
  have hlen : (extBytes r).length < cin.length + 1 := by
    have hc := congrArg List.length hdrop
    rw [List.length_drop, List.length_append] at hc
    omega
  exact extReadGo_enc cin r r pos acc rest (cin.length + 1) hdrop (by omega) hlen

theorem li_take (l : List Nat) (k i : Nat) (h : i < k) : li (l.take k) i = li l i := by
  simp [li, List.getD_eq_getElem?_getD, List.getElem?_take, h]

theorem take_push_li (l : List Nat) (n : Nat) (h : n < l.length) :
    l.take n ++ [li l n] = l.take (n + 1) := by
  rw [List.take_succ]
  congr 1
  simp [li, List.getD_eq_getElem?_getD, List.getElem?_eq_getElem h]

/-- The overlapping byte-by-byte match copy extends a prefix of the
input exactly as the matched bytes dictate. -/
theorem matchCopy_take (inp : List Nat) :
    ∀ (m ip off : Nat), 1 ≤ off → off ≤ ip → ip + m ≤ inp.length →
      (∀ j, j < m → li inp (ip + j) = li inp (ip - off + j)) →
      matchCopy (inp.take ip) off m = inp.take (ip + m) := by
  intro m
  induction m with
  | zero => intro ip off h1 h2 h3 h4; simp [matchCopy]
  | succ k ih =>
    intro ip off h1 h2 h3 h4
    unfold matchCopy
    have hlen : (inp.take ip).length = ip := by
      rw [List.length_take]; omega
    have hb : li (inp.take ip) ((inp.take ip).length - off) = li inp ip := by
      rw [hlen, li_take inp ip (ip - off) (by omega)]
      have h0 := h4 0 (by omega)
      simpa using h0.symm
    rw [hb, take_push_li inp ip (by omega)]
    have h4s : ∀ j, j < k → li inp (ip + 1 + j) = li inp (ip + 1 - off + j) := by
      intro j hj
      have hs := h4 (j + 1) (by omega)
      have e1 : ip + (j + 1) = ip + 1 + j := by omega
      have e2 : ip - off + (j + 1) = ip + 1 - off + j := by omega
      rw [e1, e2] at hs
      exact hs
    rw [ih (ip + 1) off h1 (by omega) (by omega) h4s]
    congr 1
    omega

/-- The byte-equality scan only reports verified equal bytes and never
runs past the input end. -/
theorem lzMatchScan_spec (inp : List Nat) (n ip cm : Nat) :
    ∀ (fuel len : Nat),
      (∀ j, j < len → li inp (ip + j) = li inp (cm + j)) →
      (∀ j, j < lzMatchScan inp n ip cm len fuel → li inp (ip + j) = li inp (cm + j)) ∧
      (len ≤ n - ip → lzMatchScan inp n ip cm len fuel ≤ n - ip) := by
  intro fuel
  induction fuel with
  | zero =>
    intro len hl
    exact ⟨by simpa [lzMatchScan] using hl, by simp [lzMatchScan]⟩
  | succ f ih =>
    intro len hl
    unfold lzMatchScan
    split
    case isTrue h =>
      have hl1 : ∀ j, j < len + 1 → li inp (ip + j) = li inp (cm + j) := by
        intro j hj
        rcases Nat.lt_or_ge j len with hlt | hge
        · exact hl j hlt
        · have hje : j = len := by omega
          subst hje
          exact h.2
      split
      case isTrue h258 => exact ⟨hl1, fun hle => by omega⟩
      case isFalse h258 =>
        exact ⟨(ih (len + 1) hl1).1, fun hle => (ih (len + 1) hl1).2 (by omega)⟩
    case isFalse h => exact ⟨hl, fun hle => hle⟩

/-- What the chain walk guarantees about its best candidate: either no
match (length 0) or a verified self-overlap-safe match: every byte of
the match window equals the byte `offset` positions earlier, the offset
is positive, within the current position and the 8192-byte window, and
the match stays inside the input. -/
def lzBestOk (inp : List Nat) (n ip : Nat) (b : Nat × Nat) : Prop :=
  b.1 = 0 ∨ ((∀ j, j < b.1 → li inp (ip + j) = li inp (ip - b.2 + j)) ∧
    1 ≤ b.2 ∧ b.2 ≤ ip ∧ b.2 ≤ 8192 ∧ b.1 ≤ n - ip)

theorem lzChain_ok (inp : List Nat) (n ip : Nat) (ht : LzHash) :
    ∀ (chainLen chainVal : Nat) (best : Nat × Nat),
      lzBestOk inp n ip best →
      lzBestOk inp n ip (lzChain inp n ip ht chainVal chainLen best) := by
  intro chainLen
  induction chainLen with
  | zero => intro cv best hb; simpa [lzChain] using hb
  | succ cl ih =>
    intro cv best hb
    simp only [lzChain]
    by_cases h0 : cv = 0
    · rw [if_pos h0]; exact hb
    · rw [if_neg h0]
      by_cases hle : ip ≤ cv - 1
      · rw [if_pos hle]; exact hb
      · rw [if_neg hle]
        by_cases hdist : 8192 < ip - (cv - 1)
        · rw [if_pos hdist]; exact hb
        · rw [if_neg hdist]
          by_cases hbetter : 3 ≤ lzMatchLenGo inp n ip (cv - 1) 0 ∧
              best.1 < lzMatchLenGo inp n ip (cv - 1) 0
          · rw [if_pos hbetter]
            have hspec := lzMatchScan_spec inp n ip (cv - 1) 258 0 (by intro j hj; omega)
            have hok : lzBestOk inp n ip
                (lzMatchLenGo inp n ip (cv - 1) 0, ip - (cv - 1)) := by
              right
              refine ⟨?_, by omega, by omega, by omega, hspec.2 (by omega)⟩
              intro j hj
              have hq := hspec.1 j hj
              have he : ip - (ip - (cv - 1)) = cv - 1 := by omega
              rw [he]
              exact hq
            by_cases h32 : 32 ≤ lzMatchLenGo inp n ip (cv - 1) 0
            · rw [if_pos h32]; exact hok
            · rw [if_neg h32]; exact ih _ _ hok
          · rw [if_neg hbetter]; exact ih _ _ hb

theorem push_app (cap : Nat) (out : List Nat) (b : Nat) :
    ∃ t, push cap out b = out ++ t := by
  unfold push
  split
  · exact ⟨[b], rfl⟩
  · exact ⟨[], by simp⟩

theorem pushL_app (cap : Nat) : ∀ (bs out : List Nat), ∃ t, pushL cap out bs = out ++ t := by
  intro bs
  induction bs with
  | nil => intro out; exact ⟨[], by simp [pushL]⟩
  | cons b rest ih =>
    intro out
    simp only [pushL, List.foldl_cons]
    obtain ⟨t1, h1⟩ := push_app cap out b
    obtain ⟨t2, h2⟩ := ih (push cap out b)
    simp only [pushL] at h2
    exact ⟨t1 ++ t2, by rw [h2, h1, List.append_assoc]⟩

theorem pushM_app (cap : Nat) (out bs : List Nat) : ∃ t, pushM cap out bs = out ++ t := by
  unfold pushM
  split
  · exact ⟨bs, rfl⟩
  · exact ⟨List.replicate (cap - out.length) 0, rfl⟩

theorem app_trans {x y z : List Nat} (h1 : ∃ t, x = y ++ t) (h2 : ∃ t, z = x ++ t) :
    ∃ t, z = y ++ t := by
  obtain ⟨t1, e1⟩ := h1
  obtain ⟨t2, e2⟩ := h2
  exact ⟨t1 ++ t2, by rw [e2, e1, List.append_assoc]⟩

theorem ite_app {c : Prop} [Decidable c] {a b out : List Nat}
    (ha : ∃ t, a = out ++ t) (hb : ∃ t, b = out ++ t) :
    ∃ t, (if c then a else b) = out ++ t := by
  split
  · exact ha
  · exact hb

/-- The flush emission shape only appends. -/
theorem flush_app (cap : Nat) (out : List Nat) {b1 : Nat} {c1 : Prop} [Decidable c1]
    {e1 lits : List Nat} :
    ∃ t, pushM cap (if c1 then pushL cap (push cap out b1) e1 else push cap out b1) lits =
      out ++ t := by
  have h2 : ∃ t, (if c1 then pushL cap (push cap out b1) e1 else push cap out b1) =
      out ++ t := by
    split
    · exact app_trans (push_app cap out b1) (pushL_app cap e1 (push cap out b1))
    · exact push_app cap out b1
  exact app_trans h2 (pushM_app cap _ lits)

/-- The match-command emission shape only appends. -/
theorem emit_app (cap : Nat) (out : List Nat) {b1 b5 b6 : Nat} {c1 c2 : Prop}
    [Decidable c1] [Decidable c2] {e1 e2 lits : List Nat} :
    ∃ t,
      push cap (push cap
        (if c2 then
          pushL cap (pushM cap
            (if c1 then pushL cap (push cap out b1) e1 else push cap out b1) lits) e2
        else pushM cap
          (if c1 then pushL cap (push cap out b1) e1 else push cap out b1) lits) b5) b6 =
      out ++ t := by
  have h3 := @flush_app cap out b1 c1 _ e1 lits
  have h4 : ∃ t, (if c2 then
      pushL cap (pushM cap
        (if c1 then pushL cap (push cap out b1) e1 else push cap out b1) lits) e2
    else pushM cap
      (if c1 then pushL cap (push cap out b1) e1 else push cap out b1) lits) =
      out ++ t := by
    split
    · exact app_trans h3 (pushL_app cap e2 _)
    · exact h3
  exact app_trans (app_trans h4 (push_app cap _ b5)) (push_app cap _ b6)

/-- The compress loop only ever appends to its output accumulator. -/
theorem lzLoopGo_app (inp : List Nat) (n cap : Nat) :
    ∀ (fuel ip anchor : Nat) (ht : LzHash) (out : List Nat),
      ∃ t, lzLoopGo inp n cap fuel ip anchor ht out = out ++ t := by
  intro fuel
  induction fuel with
  | zero =>
    intro ip anchor ht out
    simp only [lzLoopGo]
    exact ite_app ⟨[], by simp⟩ (flush_app cap out)
  | succ f ih =>
    intro ip anchor ht out
    simp only [lzLoopGo]
    refine ite_app (ite_app ?_ (ih _ _ _ _)) (ite_app ⟨[], by simp⟩ (flush_app cap out))
    exact app_trans (emit_app cap out) (ih _ _ _ _)

/-- Decoding the compress loop's final literal flush: one decompression
step copies the flushed literals and returns the full input. -/
theorem flushSim (inp : List Nat) (cap capD anchor : Nat) (out S : List Nat)
    (hS : S =
      (if inp.length - anchor = 0 then out
       else
         pushM cap
           (if (if 15 ≤ inp.length - anchor then 15 else inp.length - anchor) = 15 then
             pushL cap
               (push cap out
                 ((if 15 ≤ inp.length - anchor then 15 else inp.length - anchor) * 16))
               (extBytes (inp.length - anchor - 15))
           else
             push cap out
               ((if 15 ≤ inp.length - anchor then 15 else inp.length - anchor) * 16))
           ((inp.drop anchor).take (inp.length - anchor))))
    (hcap : 2 * inp.length + 16 ≤ cap) (hcapD : inp.length ≤ capD)
    (ha : anchor ≤ inp.length) (hout : out.length ≤ 5 + 2 * anchor) :
    ∀ dfuel : Nat, S.length - out.length ≤ dfuel →
      lz77DecompLoop S inp.length capD dfuel out.length (inp.take anchor) = inp := by
  intro dfuel hdf
  by_cases h0 : inp.length - anchor = 0
  · rw [if_pos h0] at hS
    subst hS
    have hae : anchor = inp.length := by omega
    subst hae
    rw [List.take_length]
    cases dfuel with
    | zero => rfl
    | succ d =>
      unfold lz77DecompLoop
      rw [dif_neg (by omega)]
  · rw [if_neg h0] at hS
    have hL1 : 1 ≤ inp.length - anchor := by omega
    have hlits : ((inp.drop anchor).take (inp.length - anchor)).length =
        inp.length - anchor := by
      rw [List.length_take, List.length_drop]
      omega
    have hlitsfull : (inp.drop anchor).take (inp.length - anchor) = inp.drop anchor := by
      rw [← List.length_drop anchor inp, List.take_length]
    have hlitscat : inp.take anchor ++ (inp.drop anchor).take (inp.length - anchor) = inp := by
      rw [hlitsfull, List.take_append_drop]
    have htakea : (inp.take anchor).length = anchor := by
      rw [List.length_take]; omega
    by_cases hL15 : 15 ≤ inp.length - anchor
    · rw [if_pos hL15, if_pos (rfl : (15 : Nat) = 15)] at hS
      have hext := extBytes_length (inp.length - anchor - 15)
      have hdiv : (inp.length - anchor - 15) / 255 ≤ inp.length - anchor - 15 :=
        Nat.div_le_self _ _
      rw [push_eq cap out (15 * 16) (by omega)] at hS
      rw [pushL_eq cap (extBytes (inp.length - anchor - 15)) (out ++ [15 * 16]) (by
        simp only [List.length_append, List.length_cons, List.length_nil]
        omega)] at hS
      rw [pushM_eq cap _ _ (by
        simp only [List.length_append, List.length_cons, List.length_nil, hlits]
        omega)] at hS
      have hSassoc : S = out ++ (15 * 16 :: (extBytes (inp.length - anchor - 15) ++
          (inp.drop anchor).take (inp.length - anchor))) := by
        rw [hS]
        simp [List.append_assoc]
      have hSlen : S.length = out.length + 1 + (extBytes (inp.length - anchor - 15)).length +
          (inp.length - anchor) := by
        rw [hSassoc]
        simp [hlits]
        omega
      obtain ⟨d, rfl⟩ : ∃ d, dfuel = d + 1 := ⟨dfuel - 1, by omega⟩
      have hdropS : S.drop out.length = 15 * 16 :: (extBytes (inp.length - anchor - 15) ++
          (inp.drop anchor).take (inp.length - anchor)) := by
        rw [hSassoc]
        exact List.drop_left _ _
      obtain ⟨hctrl, htail, hposS⟩ := streamHead S out.length _ _ hdropS
      have hdrop2 : S.drop (out.length + 1 + (extBytes (inp.length - anchor - 15)).length) =
          (inp.drop anchor).take (inp.length - anchor) := by
        have hst := streamTake S (out.length + 1) (extBytes (inp.length - anchor - 15))
          ((inp.drop anchor).take (inp.length - anchor)) htail
        rw [← hst]
      simp only [lz77DecompLoop]
      rw [dif_pos ⟨hposS, by rw [List.length_take]; omega⟩]
      rw [hctrl]
      have hext2 : extRead S (out.length + 1) 15 =
          (inp.length - anchor,
            out.length + 1 + (extBytes (inp.length - anchor - 15)).length) := by
        rw [extRead_enc S (inp.length - anchor - 15) (out.length + 1) 15 _ htail]
        rw [Prod.mk.injEq]
        exact ⟨by omega, rfl⟩
      simp only [hext2, if_true]
      rw [if_neg (by omega)]
      rw [if_neg (by rw [htakea]; omega)]
      rw [hdrop2, List.take_take, Nat.min_self, hlitscat]
      rw [if_pos (Or.inl (le_refl inp.length))]
    · have hne : ¬((if 15 ≤ inp.length - anchor then 15 else inp.length - anchor) = 15) := by
        rw [if_neg hL15]
        omega
      rw [if_neg hne, if_neg hL15] at hS
      rw [push_eq cap out ((inp.length - anchor) * 16) (by omega)] at hS
      rw [pushM_eq cap _ _ (by
        simp only [List.length_append, List.length_cons, List.length_nil, hlits]
        omega)] at hS
      have hSassoc : S = out ++ ((inp.length - anchor) * 16 ::
          (inp.drop anchor).take (inp.length - anchor)) := by
        rw [hS]
        simp [List.append_assoc]
      have hSlen : S.length = out.length + 1 + (inp.length - anchor) := by
        rw [hSassoc]
        simp [hlits]
        omega
      obtain ⟨d, rfl⟩ : ∃ d, dfuel = d + 1 := ⟨dfuel - 1, by omega⟩
      have hdropS : S.drop out.length = (inp.length - anchor) * 16 ::
          (inp.drop anchor).take (inp.length - anchor) := by
        rw [hSassoc]
        exact List.drop_left _ _
      obtain ⟨hctrl, htail, hposS⟩ := streamHead S out.length _ _ hdropS
      simp only [lz77DecompLoop]
      rw [dif_pos ⟨hposS, by rw [List.length_take]; omega⟩]
      rw [hctrl]
      have hc1 : (inp.length - anchor) * 16 / 16 % 16 = inp.length - anchor := by omega
      rw [hc1]
      rw [if_neg (by omega : ¬(inp.length - anchor = 15))]
      rw [if_neg (by omega)]
      rw [if_neg (by rw [htakea]; omega)]
      rw [htail, List.take_take, Nat.min_self, hlitscat]
      rw [if_pos (Or.inl (le_refl inp.length))]

/-- The match-command emission chain, written out: one control byte,
extended literal length, literals, extended match length and the two
offset bytes, appended to the output. -/
theorem emit_eq (cap : Nat) (out lits : List Nat) (L m off : Nat)
    (hlits : lits.length = L)
    (hcapE : out.length + 5 + 2 * L + m ≤ cap)
    (h3 : 3 ≤ m) :
    push cap (push cap
      (if (if 15 ≤ m - 3 then 15 else m - 3) = 15 then
        pushL cap (pushM cap
          (if (if 15 ≤ L then 15 else L) = 15 then
            pushL cap (push cap out ((if 15 ≤ L then 15 else L) * 16 +
              (if 15 ≤ m - 3 then 15 else m - 3))) (extBytes (L - 15))
          else push cap out ((if 15 ≤ L then 15 else L) * 16 +
            (if 15 ≤ m - 3 then 15 else m - 3))) lits) (extBytes (m - 3 - 15))
      else pushM cap
        (if (if 15 ≤ L then 15 else L) = 15 then
          pushL cap (push cap out ((if 15 ≤ L then 15 else L) * 16 +
            (if 15 ≤ m - 3 then 15 else m - 3))) (extBytes (L - 15))
        else push cap out ((if 15 ≤ L then 15 else L) * 16 +
          (if 15 ≤ m - 3 then 15 else m - 3))) lits) (off % 256)) (off / 256 % 256) =
    out ++ (((if 15 ≤ L then 15 else L) * 16 + (if 15 ≤ m - 3 then 15 else m - 3)) ::
      ((if 15 ≤ L then extBytes (L - 15) else []) ++ (lits ++
        ((if 15 ≤ m - 3 then extBytes (m - 3 - 15) else []) ++
          [off % 256, off / 256 % 256])))) := by
  have hx1 := extBytes_length (L - 15)
  have hx2 := Nat.div_le_self (L - 15) 255
  have hy1 := extBytes_length (m - 3 - 15)
  have hy2 := Nat.div_le_self (m - 3 - 15) 255
  by_cases hL15 : 15 ≤ L <;> by_cases hm18 : 15 ≤ m - 3
  · rw [if_pos hL15, if_pos hm18, if_pos (rfl : (15 : Nat) = 15),
      if_pos (rfl : (15 : Nat) = 15)]
    rw [push_eq cap out _ (by omega)]
    rw [pushL_eq cap (extBytes (L - 15)) _ (by simp; omega)]
    rw [pushM_eq cap _ lits (by simp [hlits]; omega)]
    rw [pushL_eq cap (extBytes (m - 3 - 15)) _ (by simp [hlits]; omega)]
    rw [push_eq cap _ (off % 256) (by simp [hlits]; omega)]
    rw [push_eq cap _ (off / 256 % 256) (by simp [hlits]; omega)]
    simp [hL15, hm18, List.append_assoc]
  · rw [if_pos hL15, if_neg hm18, if_pos (rfl : (15 : Nat) = 15),
      if_neg (by omega : ¬(m - 3 = 15))]
    rw [push_eq cap out _ (by omega)]
    rw [pushL_eq cap (extBytes (L - 15)) _ (by simp; omega)]
    rw [pushM_eq cap _ lits (by simp [hlits]; omega)]
    rw [push_eq cap _ (off % 256) (by simp [hlits]; omega)]
    rw [push_eq cap _ (off / 256 % 256) (by simp [hlits]; omega)]
    simp [hL15, hm18, List.append_assoc]
  · rw [if_neg hL15, if_pos hm18, if_neg (by omega : ¬(L = 15)),
      if_pos (rfl : (15 : Nat) = 15)]
    rw [push_eq cap out _ (by omega)]
    rw [pushM_eq cap _ lits (by simp [hlits]; omega)]
    rw [pushL_eq cap (extBytes (m - 3 - 15)) _ (by simp [hlits]; omega)]
    rw [push_eq cap _ (off % 256) (by simp [hlits]; omega)]
    rw [push_eq cap _ (off / 256 % 256) (by simp [hlits]; omega)]
    simp [hL15, hm18, List.append_assoc]
  · rw [if_neg hL15, if_neg hm18, if_neg (by omega : ¬(L = 15)),
      if_neg (by omega : ¬(m - 3 = 15))]
    rw [push_eq cap out _ (by omega)]
    rw [pushM_eq cap _ lits (by simp [hlits]; omega)]
    rw [push_eq cap _ (off % 256) (by simp [hlits]; omega)]
    rw [push_eq cap _ (off / 256 % 256) (by simp [hlits]; omega)]
    simp [hL15, hm18, List.append_assoc]

/-- Reading the literal-length header of a command back: the nibble, or
15 plus the extension bytes, yields exactly the encoded literal count. -/
theorem litHeaderRead (S : List Nat) (pos L mn : Nat) (rest : List Nat)
    (hmn : mn ≤ 15)
    (hct : li S pos = (if 15 ≤ L then 15 else L) * 16 + mn)
    (hdrop : S.drop (pos + 1) = (if 15 ≤ L then extBytes (L - 15) else []) ++ rest) :
    (if li S pos / 16 % 16 = 15 then extRead S (pos + 1) 15
      else (li S pos / 16 % 16, pos + 1)) =
    (L, pos + 1 + (if 15 ≤ L then extBytes (L - 15) else []).length) := by
  by_cases hL15 : 15 ≤ L
  · rw [if_pos hL15] at hct hdrop ⊢
    rw [hct]
    rw [if_pos (show (15 * 16 + mn) / 16 % 16 = 15 by omega)]
    rw [extRead_enc S (L - 15) (pos + 1) 15 rest hdrop]
    rw [Prod.mk.injEq]
    exact ⟨by omega, rfl⟩
  · rw [if_neg hL15] at hct hdrop ⊢
    rw [hct]
    rw [if_neg (show ¬((L * 16 + mn) / 16 % 16 = 15) by omega)]
    rw [Prod.mk.injEq]
    exact ⟨by omega, by simp⟩

/-- Reading the match-length header back: the nibble plus 3, or 18 plus
the extension bytes, yields exactly the encoded match length. -/
theorem matchHeaderRead (S : List Nat) (ctrlPos pos L m : Nat) (rest : List Nat)
    (h3 : 3 ≤ m) (hL : L ≤ 15)
    (hct : li S ctrlPos = L * 16 + (if 15 ≤ m - 3 then 15 else m - 3))
    (hdrop : S.drop pos = (if 15 ≤ m - 3 then extBytes (m - 3 - 15) else []) ++ rest) :
    (if li S ctrlPos % 16 = 15 then extRead S pos (15 + 3)
      else (li S ctrlPos % 16 + 3, pos)) =
    (m, pos + (if 15 ≤ m - 3 then extBytes (m - 3 - 15) else []).length) := by
  by_cases hm18 : 15 ≤ m - 3
  · rw [if_pos hm18] at hct hdrop ⊢
    rw [hct]
    rw [if_pos (show (L * 16 + 15) % 16 = 15 by omega)]
    rw [extRead_enc S (m - 3 - 15) pos (15 + 3) rest hdrop]
    rw [Prod.mk.injEq]
    exact ⟨by omega, rfl⟩
  · rw [if_neg hm18] at hct hdrop ⊢
    rw [hct]
    rw [if_neg (show ¬((L * 16 + (m - 3)) % 16 = 15) by omega)]
    rw [Prod.mk.injEq]
    exact ⟨by omega, by simp⟩

/-- The main simulation: from any faithful intermediate compressor
state, running the decompression loop over the final stream from the
current write position reconstructs the whole input. -/
theorem lzSimGo (inp : List Nat) (cap capD : Nat)
    (hcap : 2 * inp.length + 16 ≤ cap) (hcapD : inp.length ≤ capD) :
    ∀ (fuel ip anchor : Nat) (ht : LzHash) (out : List Nat),
      anchor ≤ ip → ip ≤ inp.length → inp.length ≤ ip + fuel →
      out.length ≤ 5 + 2 * anchor →
      ∀ dfuel : Nat,
        (lzLoopGo inp inp.length cap fuel ip anchor ht out).length - out.length ≤ dfuel →
        lz77DecompLoop (lzLoopGo inp inp.length cap fuel ip anchor ht out)
          inp.length capD dfuel out.length (inp.take anchor) = inp := by
  intro fuel
  induction fuel with
  | zero =>
    intro ip anchor ht out hai hin hnf hout dfuel hdf
    simp only [lzLoopGo] at hdf ⊢
    exact flushSim inp cap capD anchor out _ rfl hcap hcapD (by omega) hout dfuel hdf
  | succ f ih =>
    intro ip anchor ht out hai hin hnf hout dfuel hdf
    by_cases hip : ip < inp.length
    case neg =>
      simp only [lzLoopGo] at hdf ⊢
      rw [if_neg hip] at hdf ⊢
      have hie : ip = inp.length := by omega
      rw [hie] at hdf ⊢
      exact flushSim inp cap capD anchor out _ rfl hcap hcapD (by omega) hout dfuel hdf
    case pos =>
      simp only [lzLoopGo] at hdf ⊢
      rw [if_pos hip] at hdf ⊢
      set prb := (if ip + 3 < inp.length then
          ((lzChain inp inp.length ip (lz77_hash_insert ht inp ip)
              (ht.head (lz77_hash4 (li inp ip) (li inp (ip + 1)) (li inp (ip + 2))
                (li inp (ip + 3)))) 32 (0, 0)).1,
            (lzChain inp inp.length ip (lz77_hash_insert ht inp ip)
              (ht.head (lz77_hash4 (li inp ip) (li inp (ip + 1)) (li inp (ip + 2))
                (li inp (ip + 3)))) 32 (0, 0)).2,
            lz77_hash_insert ht inp ip)
        else ((0 : Nat), (0 : Nat), ht)) with hprb
      have hok : lzBestOk inp inp.length ip (prb.1, prb.2.1) := by
        rw [hprb]
        split
        · have hc := lzChain_ok inp inp.length ip (lz77_hash_insert ht inp ip) 32
            (ht.head (lz77_hash4 (li inp ip) (li inp (ip + 1)) (li inp (ip + 2))
              (li inp (ip + 3)))) (0, 0) (Or.inl rfl)
          simpa using hc
        · exact Or.inl rfl
      by_cases hm : (if 0 < ip - anchor then 3 else 4) ≤ prb.1
      case neg =>
        rw [if_neg hm] at hdf ⊢
        exact ih (ip + 1) anchor prb.2.2 out (by omega) (by omega) (by omega) hout dfuel hdf
      case pos =>
        rw [if_pos hm] at hdf ⊢
        have h3m : 3 ≤ prb.1 := le_trans (by split <;> omega) hm
        have hB : (∀ j, j < prb.1 → li inp (ip + j) = li inp (ip - prb.2.1 + j)) ∧
            1 ≤ prb.2.1 ∧ prb.2.1 ≤ ip ∧ prb.2.1 ≤ 8192 ∧ prb.1 ≤ inp.length - ip := by
          rcases hok with h0 | hgood
          · have h0x : prb.1 = 0 := h0
            omega
          · exact hgood
        obtain ⟨hmatch, hoff1, hoffip, hoff8k, hmlen⟩ := hB
        have hlits : ((inp.drop anchor).take (ip - anchor)).length = ip - anchor := by
          rw [List.length_take, List.length_drop]
          omega
        rw [emit_eq cap out ((inp.drop anchor).take (ip - anchor)) (ip - anchor) prb.1
          prb.2.1 hlits (by omega) h3m] at hdf ⊢
        set ln := (if 15 ≤ ip - anchor then (15 : Nat) else ip - anchor) with hlndef
        set mn := (if 15 ≤ prb.1 - 3 then (15 : Nat) else prb.1 - 3) with hmndef
        set eb1 := (if 15 ≤ ip - anchor then extBytes (ip - anchor - 15) else []) with heb1def
        set eb2 := (if 15 ≤ prb.1 - 3 then extBytes (prb.1 - 3 - 15) else []) with heb2def
        set lits := (inp.drop anchor).take (ip - anchor) with hlitsdef
        set cb := (ln * 16 + mn) ::
          (eb1 ++ (lits ++ (eb2 ++ [prb.2.1 % 256, prb.2.1 / 256 % 256]))) with hcbdef
        set SS := lzLoopGo inp inp.length cap f (ip + prb.1) (ip + prb.1)
          (lzHashFill inp prb.2.2 (ip + 1) (ip + prb.1)) (out ++ cb) with hSS
        obtain ⟨T, hT⟩ := lzLoopGo_app inp inp.length cap f (ip + prb.1) (ip + prb.1)
          (lzHashFill inp prb.2.2 (ip + 1) (ip + prb.1)) (out ++ cb)
        rw [← hSS] at hT
        have hll : lits.length = ip - anchor := hlits
        have hln15 : ln ≤ 15 := by rw [hlndef]; split <;> omega
        have hmn15 : mn ≤ 15 := by rw [hmndef]; split <;> omega
        have heb1len : eb1.length ≤ ip - anchor := by
          rw [heb1def]
          split
          · have hq1 := extBytes_length (ip - anchor - 15)
            have hq2 := Nat.div_le_self (ip - anchor - 15) 255
            omega
          · simp
        have heb2len : eb2.length ≤ prb.1 := by
          rw [heb2def]
          split
          · have hq1 := extBytes_length (prb.1 - 3 - 15)
            have hq2 := Nat.div_le_self (prb.1 - 3 - 15) 255
            omega
          · simp
        have hcblen : cb.length = 1 + eb1.length + (ip - anchor) + eb2.length + 2 := by
          rw [hcbdef]
          simp [hll]
          omega
        have hOc : (out ++ cb).length = out.length + cb.length := by simp
        have hSlen : SS.length = out.length + cb.length + T.length := by
          rw [hT]
          simp
          omega
        obtain ⟨df, rfl⟩ : ∃ df, dfuel = df + 1 := ⟨dfuel - 1, by omega⟩
        have hdropS : SS.drop out.length = (ln * 16 + mn) ::
            (eb1 ++ (lits ++ (eb2 ++ (prb.2.1 % 256 :: prb.2.1 / 256 % 256 :: T)))) := by
          rw [hT, List.append_assoc, List.drop_left, hcbdef]
          simp [List.append_assoc]
        obtain ⟨hctrl, htail1, hposS⟩ := streamHead _ out.length _ _ hdropS
        have htakea : (inp.take anchor).length = anchor := by
          rw [List.length_take]
          omega
        have htkip : (inp.take ip).length = ip := by
          rw [List.length_take]
          omega
        simp only [lz77DecompLoop]
        rw [dif_pos ⟨hposS, by rw [htakea]; omega⟩]
        have hct1 : li SS out.length =
            (if 15 ≤ ip - anchor then 15 else ip - anchor) * 16 + mn := by
          rw [← hlndef]
          exact hctrl
        have htail1x : SS.drop (out.length + 1) =
            (if 15 ≤ ip - anchor then extBytes (ip - anchor - 15) else []) ++
              (lits ++ (eb2 ++ (prb.2.1 % 256 :: prb.2.1 / 256 % 256 :: T))) := by
          rw [← heb1def]
          exact htail1
        have hEL := litHeaderRead SS out.length (ip - anchor) mn _ hmn15 hct1 htail1x
        rw [← heb1def] at hEL
        simp only [hEL]
        rw [if_neg (by omega)]
        rw [if_neg (by rw [htakea]; omega)]
        have hd2 : SS.drop (out.length + 1 + eb1.length) =
            lits ++ (eb2 ++ (prb.2.1 % 256 :: prb.2.1 / 256 % 256 :: T)) :=
          streamTake SS (out.length + 1) eb1 _ htail1
        have htk : (lits ++ (eb2 ++ (prb.2.1 % 256 :: prb.2.1 / 256 % 256 :: T))).take
            (ip - anchor) = lits := by
          rw [← hll]
          exact List.take_left _ _
        rw [hd2, htk]
        have hcat : inp.take anchor ++ lits = inp.take ip := by
          rw [hlitsdef, ← List.take_add]
          congr 1
          omega
        rw [hcat]
        rw [if_neg (by omega)]
        have hd3 : SS.drop (out.length + 1 + eb1.length + (ip - anchor)) =
            eb2 ++ (prb.2.1 % 256 :: prb.2.1 / 256 % 256 :: T) := by
          have hq := streamTake SS (out.length + 1 + eb1.length) lits _ hd2
          rw [hll] at hq
          exact hq
        have hct2 : li SS out.length =
            ln * 16 + (if 15 ≤ prb.1 - 3 then 15 else prb.1 - 3) := by
          rw [← hmndef]
          exact hctrl
        have hd3x : SS.drop (out.length + 1 + eb1.length + (ip - anchor)) =
            (if 15 ≤ prb.1 - 3 then extBytes (prb.1 - 3 - 15) else []) ++
              (prb.2.1 % 256 :: prb.2.1 / 256 % 256 :: T) := by
          rw [← heb2def]
          exact hd3
        have hEM := matchHeaderRead SS out.length
          (out.length + 1 + eb1.length + (ip - anchor)) ln prb.1 _ h3m hln15 hct2 hd3x
        rw [← heb2def] at hEM
        simp only [hEM]
        rw [if_neg (by omega)]
        have hd4 : SS.drop (out.length + 1 + eb1.length + (ip - anchor) + eb2.length) =
            prb.2.1 % 256 :: prb.2.1 / 256 % 256 :: T :=
          streamTake SS (out.length + 1 + eb1.length + (ip - anchor)) eb2 _ hd3
        obtain ⟨hx, hd5, -⟩ := streamHead _ _ _ _ hd4
        obtain ⟨hy, -, -⟩ := streamHead _ _ _ _ hd5
        rw [hx, hy]
        have hoffv : prb.2.1 % 256 + 256 * (prb.2.1 / 256 % 256) = prb.2.1 := by omega
        rw [hoffv]
        rw [if_neg (by rw [htkip]; omega)]
        rw [if_neg (by rw [htkip]; omega)]
        rw [matchCopy_take inp prb.1 ip prb.2.1 hoff1 hoffip (by omega) hmatch]
        have hip5 : out.length + 1 + eb1.length + (ip - anchor) + eb2.length + 2 =
            (out ++ cb).length := by
          rw [hOc, hcblen]
          omega
        rw [hip5, hSS]
        exact ih (ip + prb.1) (ip + prb.1)
          (lzHashFill inp prb.2.2 (ip + 1) (ip + prb.1)) (out ++ cb)
          (le_refl _) (by omega) (by omega)
          (by rw [hOc, hcblen]; omega)
          df (by rw [← hSS]; omega)

/-- Decoding the uncompressed wrapper returns the stored bytes. -/
theorem wrapperDecode (inp : List Nat) (capD : Nat)
    (hlen : inp.length < 2 ^ 32) (hcapD : inp.length ≤ capD) :
    packr_lz77_decompress (0 :: le32 inp.length ++ inp) capD = inp := by
  have hl : (0 :: le32 inp.length ++ inp).length = 5 + inp.length := by
    simp [le32]
    omega
  unfold packr_lz77_decompress
  rw [if_neg (by omega)]
  have h0 : li (0 :: le32 inp.length ++ inp) 0 = 0 := rfl
  have hrd : rd32 (li (0 :: le32 inp.length ++ inp) 1) (li (0 :: le32 inp.length ++ inp) 2)
      (li (0 :: le32 inp.length ++ inp) 3) (li (0 :: le32 inp.length ++ inp) 4) =
      inp.length := by
    have e1 : li (0 :: le32 inp.length ++ inp) 1 = inp.length % 256 := rfl
    have e2 : li (0 :: le32 inp.length ++ inp) 2 = inp.length / 256 % 256 := rfl
    have e3 : li (0 :: le32 inp.length ++ inp) 3 = inp.length / 65536 % 256 := rfl
    have e4 : li (0 :: le32 inp.length ++ inp) 4 = inp.length / 16777216 % 256 := rfl
    rw [e1, e2, e3, e4]
    unfold rd32
    omega
  rw [h0, hrd]
  rw [if_pos rfl, if_neg (by omega)]
  have hdrop : (0 :: le32 inp.length ++ inp).drop 5 = inp := rfl
  rw [hdrop, Nat.min_eq_left hcapD, List.take_length]

/-- C5: LZ77 decompression inverts single-shot LZ77 compression — for
every input (32-bit length) and sufficiently large buffers
(compression capacity at least 2·n+16 so no write is ever truncated,
decompression capacity at least n), decompressing the compressor's
output returns exactly the input, including overlapping matches. -/
theorem C5_lz77_roundtrip (inp : List Nat) (cap capD : Nat)
    (hlen : inp.length < 2 ^ 32)
    (hcap : 2 * inp.length + 16 ≤ cap)
    (hcapD : inp.length ≤ capD) :
    packr_lz77_decompress (packr_lz77_compress inp cap) capD = inp := by
  by_cases hemp : inp.length = 0
  · have he : inp = [] := List.length_eq_zero.mp hemp
    subst he
    rfl
  · unfold packr_lz77_compress
    rw [if_neg hemp, if_neg (by omega)]
    by_cases hent : entropyFires inp
    · rw [if_pos hent, if_pos (by omega)]
      exact wrapperDecode inp capD hlen hcapD
    · rw [if_neg hent]
      by_cases hshrink : inp.length ≤
          (lzLoop inp inp.length cap 0 0 lzHashInit (2 :: le32 inp.length)).length
      · rw [if_pos hshrink, if_pos (by omega)]
        exact wrapperDecode inp capD hlen hcapD
      · rw [if_neg hshrink]
        obtain ⟨t, ht⟩ : ∃ t, lzLoop inp inp.length cap 0 0 lzHashInit
            (2 :: le32 inp.length) = (2 :: le32 inp.length) ++ t :=
          lzLoopGo_app inp inp.length cap (inp.length - 0) 0 0 lzHashInit _
        have hbl : (lzLoop inp inp.length cap 0 0 lzHashInit
            (2 :: le32 inp.length)).length = 5 + t.length := by
          rw [ht]
          simp [le32]
          omega
        unfold packr_lz77_decompress
        rw [if_neg (by omega)]
        have h0 : li (lzLoop inp inp.length cap 0 0 lzHashInit (2 :: le32 inp.length)) 0 =
            2 := by
          rw [ht]; rfl
        have hrd : rd32
            (li (lzLoop inp inp.length cap 0 0 lzHashInit (2 :: le32 inp.length)) 1)
            (li (lzLoop inp inp.length cap 0 0 lzHashInit (2 :: le32 inp.length)) 2)
            (li (lzLoop inp inp.length cap 0 0 lzHashInit (2 :: le32 inp.length)) 3)
            (li (lzLoop inp inp.length cap 0 0 lzHashInit (2 :: le32 inp.length)) 4) =
            inp.length := by
          have e1 : li (lzLoop inp inp.length cap 0 0 lzHashInit (2 :: le32 inp.length)) 1 =
              inp.length % 256 := by rw [ht]; rfl
          have e2 : li (lzLoop inp inp.length cap 0 0 lzHashInit (2 :: le32 inp.length)) 2 =
              inp.length / 256 % 256 := by rw [ht]; rfl
          have e3 : li (lzLoop inp inp.length cap 0 0 lzHashInit (2 :: le32 inp.length)) 3 =
              inp.length / 65536 % 256 := by rw [ht]; rfl
          have e4 : li (lzLoop inp inp.length cap 0 0 lzHashInit (2 :: le32 inp.length)) 4 =
              inp.length / 16777216 % 256 := by rw [ht]; rfl
          rw [e1, e2, e3, e4]
          unfold rd32
          omega
        rw [h0, hrd]
        rw [if_neg (by omega), if_neg (by simp), if_neg (by omega)]
        have hLL : lzLoop inp inp.length cap 0 0 lzHashInit (2 :: le32 inp.length) =
            lzLoopGo inp inp.length cap (inp.length - 0) 0 0 lzHashInit
              (2 :: le32 inp.length) := rfl
        have hsim := lzSimGo inp cap capD hcap hcapD (inp.length - 0) 0 0 lzHashInit
          (2 :: le32 inp.length) (by omega) (by omega) (by omega)
          (by simp [le32])
          (lzLoop inp inp.length cap 0 0 lzHashInit (2 :: le32 inp.length)).length
          (by rw [← hLL]; omega)
        have h5 : ((2 : Nat) :: le32 inp.length).length = 5 := by simp [le32]
        rw [h5, List.take_zero, ← hLL] at hsim
        exact hsim

/-- C5 witness: the round trip at a concrete 24-byte repetitive input
with exact-size buffers. -/
theorem C5_lz77_roundtrip_witness :
    ([1, 2, 3, 4, 1, 2, 3, 4, 1, 2, 3, 4, 1, 2, 3, 4, 1, 2, 3, 4, 1, 2, 3, 4] :
      List Nat).length < 2 ^ 32 ∧
    2 * ([1, 2, 3, 4, 1, 2, 3, 4, 1, 2, 3, 4, 1, 2, 3, 4, 1, 2, 3, 4, 1, 2, 3, 4] :
      List Nat).length + 16 ≤ 64 ∧
    ([1, 2, 3, 4, 1, 2, 3, 4, 1, 2, 3, 4, 1, 2, 3, 4, 1, 2, 3, 4, 1, 2, 3, 4] :
      List Nat).length ≤ 24 ∧
    packr_lz77_decompress
      (packr_lz77_compress
        [1, 2, 3, 4, 1, 2, 3, 4, 1, 2, 3, 4, 1, 2, 3, 4, 1, 2, 3, 4, 1, 2, 3, 4] 64) 24 =
      [1, 2, 3, 4, 1, 2, 3, 4, 1, 2, 3, 4, 1, 2, 3, 4, 1, 2, 3, 4, 1, 2, 3, 4] :=
  ⟨by decide, by decide, by decide,
    C5_lz77_roundtrip
      [1, 2, 3, 4, 1, 2, 3, 4, 1, 2, 3, 4, 1, 2, 3, 4, 1, 2, 3, 4, 1, 2, 3, 4] 64 24
      (by decide) (by decide) (by decide)⟩

/-! ## Claim C1: the document round trip -/

/-- C1 counterexample: a binary value does not survive the round trip —
the decoder discards the payload and prints the placeholder string
`<binary data len=3>`, so decode(encode(D)) differs from D. -/
theorem C1_counterexample :
    (encodeFrame (Doc.bin [1, 2, 3])).bind decodeFrameDoc =
      some (.str (binPlaceholder 3)) ∧
    (encodeFrame (Doc.bin [1, 2, 3])).bind decodeFrameDoc ≠ some (Doc.bin [1, 2, 3]) := by
  have h : (encodeFrame (Doc.bin [1, 2, 3])).bind decodeFrameDoc =
      some (.str (binPlaceholder 3)) := rfl
  refine ⟨h, ?_⟩
  rw [h]
  simp

/-! The class of documents for which the round trip is exact: no binary
(placeholder-decoded) and no fixed-point float (quantized); strings and
keys short enough to escape truncation and not MAC-shaped (MAC strings
are re-formatted on decode); integers in int32; arrays short of the
ultra-batch shape (fewer than four leading object rows) so the recursive
encoder runs, with a 32-bit element count. -/

mutual

def GoodDoc : Doc → Prop
  | .null => True
  | .bool _ => True
  | .int v => -2 ^ 31 ≤ v ∧ v < 2 ^ 31
  | .dbl b => b < 2 ^ 64
  | .num _ => False
  | .str s => s.length ≤ 255 ∧ is_mac_address s = false
  | .bin _ => False
  | .arr xs => (leadingObjRows xs).length < 4 ∧ xs.length < 2 ^ 32 ∧ GoodElems xs
  | .obj kvs => GoodKVs kvs

def GoodKVs : List (List Nat × Doc) → Prop
  | [] => True
  | (k, v) :: r => k.length ≤ 255 ∧ GoodDoc v ∧ GoodKVs r

def GoodElems : List Doc → Prop
  | [] => True
  | x :: r => GoodDoc x ∧ GoodElems r

end

mutual

def docSize : Doc → Nat
  | .arr xs => 1 + docSizeL xs
  | .obj kvs => 1 + docSizeKV kvs
  | _ => 1

def docSizeL : List Doc → Nat
  | [] => 0
  | x :: r => docSize x + docSizeL r

def docSizeKV : List (List Nat × Doc) → Nat
  | [] => 0
  | (_, v) :: r => docSize v + docSizeKV r

end

theorem docSize_pos : ∀ v, 1 ≤ docSize v := by
  intro v
  cases v <;> simp [docSize]

/-- The find scan reports an index holding exactly the key. -/
theorem dictFindGo_spec (key : List Nat) :
    ∀ (l : List DictEntry) (i j : Nat), dictFindGo key l i = some j →
      i ≤ j ∧ j - i < l.length ∧ (l.getD (j - i) ⟨none, 0⟩).value = some key := by
  intro l
  induction l with
  | nil => intro i j h; simp [dictFindGo] at h
  | cons e rest ih =>
    intro i j h
    simp only [dictFindGo] at h
    by_cases he : e.value = some key
    · simp only [he, if_true, Option.some.injEq] at h
      subst h
      simp [he]
    · simp only [he, if_false] at h
      obtain ⟨h1, h2, h3⟩ := ih (i + 1) j h
      have hji : j - i = (j - (i + 1)) + 1 := by omega
      refine ⟨by omega, by simp only [List.length_cons]; omega, ?_⟩
      rw [hji]
      simpa using h3

set_option maxHeartbeats 1000000 in
/-- Reading back an eight-byte little-endian pattern. -/
theorem le64_fold (data : List Nat) (pos bits : Nat) (rest : List Nat)
    (h : data.drop pos = le64 bits ++ rest) (hb : bits < 2 ^ 64) :
    (List.range 8).foldl (fun acc i => acc + li data (pos + i) * 2 ^ (8 * i)) 0 = bits := by
  rw [le64] at h
  have hcons : data.drop pos = bits % 256 :: (bits / 2 ^ 8 % 256 :: (bits / 2 ^ 16 % 256 ::
      (bits / 2 ^ 24 % 256 :: (bits / 2 ^ 32 % 256 :: (bits / 2 ^ 40 % 256 ::
      (bits / 2 ^ 48 % 256 :: (bits / 2 ^ 56 % 256 :: rest))))))) := by
    rw [h]
    simp
  obtain ⟨h0, h', -⟩ := streamHead data pos _ _ hcons
  obtain ⟨h1, h', -⟩ := streamHead data (pos + 1) _ _ h'
  obtain ⟨h2, h', -⟩ := streamHead data (pos + 1 + 1) _ _ h'
  obtain ⟨h3, h', -⟩ := streamHead data (pos + 1 + 1 + 1) _ _ h'
  obtain ⟨h4, h', -⟩ := streamHead data (pos + 1 + 1 + 1 + 1) _ _ h'
  obtain ⟨h5, h', -⟩ := streamHead data (pos + 1 + 1 + 1 + 1 + 1) _ _ h'
  obtain ⟨h6, h', -⟩ := streamHead data (pos + 1 + 1 + 1 + 1 + 1 + 1) _ _ h'
  obtain ⟨h7, -, -⟩ := streamHead data (pos + 1 + 1 + 1 + 1 + 1 + 1 + 1) _ _ h'
  rw [show pos + 1 + 1 = pos + 2 by omega] at h2
  rw [show pos + 1 + 1 + 1 = pos + 3 by omega] at h3
  rw [show pos + 1 + 1 + 1 + 1 = pos + 4 by omega] at h4
  rw [show pos + 1 + 1 + 1 + 1 + 1 = pos + 5 by omega] at h5
  rw [show pos + 1 + 1 + 1 + 1 + 1 + 1 = pos + 6 by omega] at h6
  rw [show pos + 1 + 1 + 1 + 1 + 1 + 1 + 1 = pos + 7 by omega] at h7
  have hr : List.range 8 = [0, 1, 2, 3, 4, 5, 6, 7] := rfl
  rw [hr]
  simp only [List.foldl_cons, List.foldl_nil]
  rw [show pos + 0 = pos by omega]
  rw [h0, h1, h2, h3, h4, h5, h6, h7]
  norm_num
  omega

/-- A plain INT (non-delta) always produces the int value and only
touches the numeric-history slots. -/
theorem applyNumeric_false (d : Dec) (v : Int) :
    ∃ ln lt, applyNumeric d v false =
      (some (.int v), { d with lastNums := ln, lastTypes := lt }) := by
  unfold applyNumeric
  rw [if_neg (by simp)]
  split
  · exact ⟨d.lastNums.set d.currentField.toNat (v : ℚ), d.lastTypes.set d.currentField.toNat 1,
      rfl⟩
  · exact ⟨d.lastNums, d.lastTypes, rfl⟩

/-- Arrays with fewer than four leading object rows take the recursive
fallback: the ultra encoder soft-fails. -/
theorem ultra_soft (e : Enc) (xs : List Doc) (h : (leadingObjRows xs).length < 4) :
    try_encode_ultra_array e xs = .soft := by
  cases xs with
  | nil => rfl
  | cons x rest =>
    simp only [try_encode_ultra_array]
    by_cases ho : (asObj x).isNone = true
    · rw [if_pos ho]
    · rw [if_neg ho]
      split <;> first | rfl | exact (by omega : False).elim

theorem docSizeL_mem : ∀ (xs : List Doc) (x : Doc), x ∈ xs → docSize x ≤ docSizeL xs := by
  intro xs
  induction xs with
  | nil => intro x h; simp at h
  | cons y rest ih =>
    intro x h
    rcases List.mem_cons.mp h with h1 | h2
    · subst h1
      simp [docSizeL]
    · have := ih x h2
      simp only [docSizeL]
      omega

theorem docSizeKV_mem : ∀ (kvs : List (List Nat × Doc)) (k : List Nat) (v : Doc),
    (k, v) ∈ kvs → docSize v ≤ docSizeKV kvs := by
  intro kvs
  induction kvs with
  | nil => intro k v h; simp at h
  | cons y rest ih =>
    intro k v h
    rcases List.mem_cons.mp h with h1 | h2
    · rw [← h1]
      match y with
      | (k0, v0) =>
        simp only [docSizeKV]
        omega
    · have := ih k v h2
      match y with
      | (k0, v0) =>
        simp only [docSizeKV]
        omega

/-- The recursive encoder only appends bytes and preserves the
dictionary shapes (and never touches the MAC dictionary on the good
class). -/
theorem encode_value_app : ∀ (N : Nat) (v : Doc), docSize v ≤ N → GoodDoc v →
    ∀ (e e' : Enc), encode_value e v = some e' →
      (∃ t, e'.out = e.out ++ t ∧ 1 ≤ t.length) ∧
      e'.fields.entries.length = e.fields.entries.length ∧
      e'.strings.entries.length = e.strings.entries.length ∧
      e'.macs = e.macs := by
  intro N
  induction N with
  | zero =>
    intro v hsz
    have := docSize_pos v
    omega
  | succ n ih =>
    intro v hsz hg e e' henc
    match v with
    | .null =>
      simp only [encode_value, Option.some.injEq] at henc
      subst henc
      exact ⟨⟨[TOKEN_NULL], rfl, by simp⟩, rfl, rfl, rfl⟩
    | .bool b =>
      simp only [encode_value, Option.some.injEq] at henc
      subst henc
      exact ⟨⟨[if b then TOKEN_BOOL_TRUE else TOKEN_BOOL_FALSE], rfl, by simp⟩,
        rfl, rfl, rfl⟩
    | .int z =>
      simp only [encode_value, Option.some.injEq] at henc
      subst henc
      refine ⟨⟨TOKEN_INT :: varintEnc (zigzag_encode z), ?_, by simp⟩, rfl, rfl, rfl⟩
      simp [packr_encode_int, packr_encode_varint, packr_encode_token, bufApp]
    | .dbl bits =>
      simp only [encode_value, Option.some.injEq] at henc
      subst henc
      refine ⟨⟨TOKEN_DOUBLE :: le64 bits, ?_, by simp⟩, rfl, rfl, rfl⟩
      simp [packr_encode_double, packr_encode_token, bufApp]
    | .num q => exact absurd hg (by simp [GoodDoc])
    | .bin b => exact absurd hg (by simp [GoodDoc])
    | .str s =>
      obtain ⟨hlen, hmac⟩ := hg
      have hs1 : (if 256 ≤ s.length then s.take 255 else s) = s := by
        rw [if_neg (by omega)]
      simp only [encode_value, hs1, hmac, Bool.false_eq_true, if_false,
        Option.some.injEq] at henc
      subst henc
      unfold packr_encode_string
      split
      case _ idx isNew dnew heq =>
        cases isNew
        · refine ⟨⟨[TOKEN_STRING + idx], by simp [packr_encode_token], by simp⟩,
            rfl, ?_, rfl⟩
          have hdn : dnew = (dict_get_or_add e.strings s).2.2 := by rw [heq]
          subst hdn
          unfold dict_get_or_add
          split <;> simp [packr_encode_token, bufApp, packr_encode_varint,
            List.length_set]
        · refine ⟨⟨TOKEN_NEW_STRING :: (varintEnc s.length ++ s),
            by simp [bufApp, packr_encode_varint, packr_encode_token,
              List.append_assoc], by simp⟩, rfl, ?_, rfl⟩
          have hdn : dnew = (dict_get_or_add e.strings s).2.2 := by rw [heq]
          subst hdn
          unfold dict_get_or_add
          split <;> simp [packr_encode_token, bufApp, packr_encode_varint,
            List.length_set]
    | .arr xs =>
      obtain ⟨hrows, hcnt, hels⟩ := hg
      simp only [encode_value] at henc
      rw [ultra_soft e xs hrows] at henc
      simp only [Option.map_eq_some'] at henc
      obtain ⟨e2, he2, hee⟩ := henc
      subst hee
      have hloop : ∀ (ys : List Doc), GoodElems ys → docSizeL ys ≤ n →
          ∀ (a a' : Enc), encode_array_elems a ys = some a' →
            (∃ t, a'.out = a.out ++ t) ∧
            a'.fields.entries.length = a.fields.entries.length ∧
            a'.strings.entries.length = a.strings.entries.length ∧
            a'.macs = a.macs := by
        intro ys
        induction ys with
        | nil =>
          intro _ _ a a' h
          simp only [encode_array_elems, Option.some.injEq] at h
          subst h
          exact ⟨⟨[], by simp⟩, rfl, rfl, rfl⟩
        | cons y rest ihy =>
          intro hgys hszys a a' h
          simp only [encode_array_elems] at h
          match hy : encode_value a y with
          | none => rw [hy] at h; exact absurd h (by simp)
          | some a1 =>
            rw [hy] at h
            have h1 := ih y (by simp only [docSizeL] at hszys; have := docSize_pos y; omega)
              hgys.1 a a1 hy
            have h2 := ihy hgys.2 (by simp only [docSizeL] at hszys; omega) a1 a' h
            obtain ⟨⟨t1, ht1, -⟩, f1, s1, m1⟩ := h1
            obtain ⟨⟨t2, ht2⟩, f2, s2, m2⟩ := h2
            exact ⟨⟨t1 ++ t2, by rw [ht2, ht1, List.append_assoc]⟩,
              by omega, by omega, by rw [m2, m1]⟩
      have hmain := hloop xs hels (by simp only [docSize] at hsz; omega)
        (packr_encode_varint (packr_encode_token e TOKEN_ARRAY_START) xs.length) e2 he2
      obtain ⟨⟨t1, ht1⟩, f1, s1, m1⟩ := hmain
      refine ⟨⟨TOKEN_ARRAY_START :: (varintEnc xs.length ++ t1 ++ [TOKEN_ARRAY_END]),
        ?_, by simp⟩,
        by simpa [packr_encode_token, packr_encode_varint, bufApp] using f1,
        by simpa [packr_encode_token, packr_encode_varint, bufApp] using s1,
        by simpa [packr_encode_token, packr_encode_varint, bufApp] using m1⟩
      simp only [packr_encode_token]
      rw [ht1]
      simp [packr_encode_varint, packr_encode_token, bufApp, List.append_assoc]
    | .obj kvs =>
      simp only [encode_value] at henc
      simp only [Option.map_eq_some'] at henc
      obtain ⟨e2, he2, hee⟩ := henc
      subst hee
      have hloop : ∀ (ys : List (List Nat × Doc)), GoodKVs ys → docSizeKV ys ≤ n →
          ∀ (a a' : Enc), encode_object_fields a ys = some a' →
            (∃ t, a'.out = a.out ++ t) ∧
            a'.fields.entries.length = a.fields.entries.length ∧
            a'.strings.entries.length = a.strings.entries.length ∧
            a'.macs = a.macs := by
        intro ys
        induction ys with
        | nil =>
          intro _ _ a a' h
          simp only [encode_object_fields, Option.some.injEq] at h
          subst h
          exact ⟨⟨[], by simp⟩, rfl, rfl, rfl⟩
        | cons y rest ihy =>
          intro hgys hszys a a' h
          match y with
          | (k, v0) =>
            simp only [encode_object_fields] at h
            have hfe : ∃ tf, (packr_encode_field a (truncKey k)).out = a.out ++ tf ∧
                (packr_encode_field a (truncKey k)).fields.entries.length =
                  a.fields.entries.length ∧
                (packr_encode_field a (truncKey k)).strings = a.strings ∧
                (packr_encode_field a (truncKey k)).macs = a.macs := by
              unfold packr_encode_field
              split
              case _ idx isNew dnew heq =>
                cases isNew
                · refine ⟨[TOKEN_FIELD + idx], by simp [packr_encode_token], ?_, rfl, rfl⟩
                  have hdn : dnew = (dict_get_or_add a.fields (truncKey k)).2.2 := by rw [heq]
                  subst hdn
                  unfold dict_get_or_add
                  split <;> simp [packr_encode_token, bufApp, packr_encode_varint,
                    List.length_set]
                · refine ⟨TOKEN_NEW_FIELD :: (varintEnc (truncKey k).length ++ truncKey k),
                    by simp [bufApp, packr_encode_varint, packr_encode_token,
                      List.append_assoc], ?_, rfl, rfl⟩
                  have hdn : dnew = (dict_get_or_add a.fields (truncKey k)).2.2 := by rw [heq]
                  subst hdn
                  unfold dict_get_or_add
                  split <;> simp [packr_encode_token, bufApp, packr_encode_varint,
                    List.length_set]
            obtain ⟨tf, htf, ff, sf, mf⟩ := hfe
            match hv : encode_value (packr_encode_field a (truncKey k)) v0 with
            | none => rw [hv] at h; exact absurd h (by simp)
            | some a1 =>
              rw [hv] at h
              have h1 := ih v0
                (by simp only [docSizeKV] at hszys; have := docSize_pos v0; omega)
                hgys.2.1 _ a1 hv
              have h2 := ihy hgys.2.2 (by simp only [docSizeKV] at hszys; omega) a1 a' h
              obtain ⟨⟨t1, ht1, -⟩, f1, s1, m1⟩ := h1
              obtain ⟨⟨t2, ht2⟩, f2, s2, m2⟩ := h2
              refine ⟨⟨tf ++ (t1 ++ t2), ?_⟩, by omega, ?_, by rw [m2, m1, mf]⟩
              · rw [ht2, ht1, htf]
                simp [List.append_assoc]
              · rw [s2, s1, sf]
      have hmain := hloop kvs hg (by simp only [docSize] at hsz; omega)
        (packr_encode_token e TOKEN_OBJECT_START) e2 he2
      obtain ⟨⟨t1, ht1⟩, f1, s1, m1⟩ := hmain
      refine ⟨⟨TOKEN_OBJECT_START :: (t1 ++ [TOKEN_OBJECT_END]), ?_, by simp⟩,
        by simpa [packr_encode_token] using f1,
        by simpa [packr_encode_token] using s1,
        by simpa [packr_encode_token] using m1⟩
      simp only [packr_encode_token]
      rw [ht1]
      simp [packr_encode_token, List.append_assoc]


/-- Decoding a NULL token. -/
theorem decodeNext_null_step (dec : Dec) (rest : List Nat) (fuel : Nat)
    (hdrop : dec.data.drop dec.pos = TOKEN_NULL :: rest) (hrest : 4 ≤ rest.length) :
    packr_decode_next (fuel + 1) dec =
      some (some .null, { dec with pos := dec.pos + 1 }) := by
  obtain ⟨htok, -, hpos⟩ := streamHead _ _ _ _ hdrop
  have hlen : dec.data.length - dec.pos = 1 + rest.length := by
    have h := congrArg List.length hdrop
    rw [List.length_drop, List.length_cons] at h
    omega
  unfold packr_decode_next
  rw [if_neg (by omega), if_neg (by omega)]
  simp only [htok, TOKEN_NULL]
  norm_num

/-- Decoding a boolean token. -/
theorem decodeNext_bool_step (dec : Dec) (b : Bool) (rest : List Nat) (fuel : Nat)
    (hdrop : dec.data.drop dec.pos =
      (if b then TOKEN_BOOL_TRUE else TOKEN_BOOL_FALSE) :: rest)
    (hrest : 4 ≤ rest.length) :
    packr_decode_next (fuel + 1) dec =
      some (some (.bool b), { dec with pos := dec.pos + 1 }) := by
  obtain ⟨htok, -, hpos⟩ := streamHead _ _ _ _ hdrop
  have hlen : dec.data.length - dec.pos = 1 + rest.length := by
    have h := congrArg List.length hdrop
    rw [List.length_drop, List.length_cons] at h
    omega
  cases b with
  | true =>
    rw [if_pos rfl] at htok
    unfold packr_decode_next
    rw [if_neg (by omega), if_neg (by omega)]
    simp only [htok, TOKEN_NULL, TOKEN_BOOL_TRUE]
    norm_num
  | false =>
    rw [if_neg (by simp)] at htok
    unfold packr_decode_next
    rw [if_neg (by omega), if_neg (by omega)]
    simp only [htok, TOKEN_NULL, TOKEN_BOOL_TRUE, TOKEN_BOOL_FALSE]
    norm_num

/-- Decoding an INT token carrying an int32 zig-zag varint. -/
theorem decodeNext_int_step (dec : Dec) (z : Int) (rest : List Nat) (fuel : Nat)
    (hz1 : -2 ^ 31 ≤ z) (hz2 : z < 2 ^ 31)
    (hdrop : dec.data.drop dec.pos =
      TOKEN_INT :: (varintEnc (zigzag_encode z) ++ rest))
    (hrest : 4 ≤ rest.length) :
    ∃ ln lt, packr_decode_next (fuel + 1) dec =
      some (some (.int z),
        { dec with pos := dec.pos + 1 + (varintEnc (zigzag_encode z)).length,
                   lastNums := ln, lastTypes := lt }) := by
  obtain ⟨htok, htl, hpos⟩ := streamHead _ _ _ _ hdrop
  have hlen : dec.data.length - dec.pos =
      1 + ((varintEnc (zigzag_encode z)).length + rest.length) := by
    have h := congrArg List.length hdrop
    rw [List.length_drop, List.length_cons, List.length_append] at h
    omega
  have hzz : zigzag_encode z < 2 ^ 32 := by
    unfold zigzag_encode
    split <;> omega
  have hvr := decodeVarintGo_enc dec.data (dec.pos + 1) (zigzag_encode z) rest hzz htl
  obtain ⟨ln, lt, hap⟩ := applyNumeric_false
    { dec with pos := dec.pos + 1 + (varintEnc (zigzag_encode z)).length } z
  refine ⟨ln, lt, ?_⟩
  unfold packr_decode_next
  rw [if_neg (by omega), if_neg (by omega)]
  simp only [htok, TOKEN_NULL, TOKEN_BOOL_TRUE, TOKEN_BOOL_FALSE, TOKEN_FLOAT32,
    TOKEN_DOUBLE, TOKEN_BINARY, TOKEN_INT]
  norm_num
  rw [hvr]
  simp only []
  rw [zigzag_roundtrip]
  rw [hap]

/-- Decoding a DOUBLE token carrying eight little-endian bytes. -/
theorem decodeNext_double_step (dec : Dec) (bits : Nat) (rest : List Nat) (fuel : Nat)
    (hb : bits < 2 ^ 64)
    (hdrop : dec.data.drop dec.pos = TOKEN_DOUBLE :: (le64 bits ++ rest))
    (hrest : 4 ≤ rest.length) :
    ∃ ln lt, packr_decode_next (fuel + 1) dec =
      some (some (.dbl bits),
        { dec with pos := dec.pos + 1 + 8, lastNums := ln, lastTypes := lt }) := by
  obtain ⟨htok, htl, hpos⟩ := streamHead _ _ _ _ hdrop
  have hl64 : (le64 bits).length = 8 := by simp [le64]
  have hlen : dec.data.length - dec.pos = 1 + (8 + rest.length) := by
    have h := congrArg List.length hdrop
    rw [List.length_drop, List.length_cons, List.length_append, hl64] at h
    omega
  have hbits := le64_fold dec.data (dec.pos + 1) bits rest htl hb
  by_cases hf : 0 ≤ dec.currentField ∧ dec.currentField < 64
  · refine ⟨dec.lastNums.set dec.currentField.toNat (dblBitsToQ bits),
      dec.lastTypes.set dec.currentField.toNat 2, ?_⟩
    unfold packr_decode_next
    rw [if_neg (by omega), if_neg (by omega)]
    simp only [htok, TOKEN_NULL, TOKEN_BOOL_TRUE, TOKEN_BOOL_FALSE, TOKEN_FLOAT32,
      TOKEN_DOUBLE]
    norm_num
    rw [hbits]
    exact ⟨by omega, rfl, by rw [if_pos hf]⟩
  · refine ⟨dec.lastNums, dec.lastTypes, ?_⟩
    unfold packr_decode_next
    rw [if_neg (by omega), if_neg (by omega)]
    simp only [htok, TOKEN_NULL, TOKEN_BOOL_TRUE, TOKEN_BOOL_FALSE, TOKEN_FLOAT32,
      TOKEN_DOUBLE]
    norm_num
    rw [hbits]
    exact ⟨by omega, rfl, fun h1 h2 => absurd ⟨h1, h2⟩ hf⟩

/-- Decoding a string-dictionary reference byte stamps the slot and
yields the resident string. -/
theorem decodeNext_strhit_step (dec : Dec) (s : List Nat) (i : Nat) (rest : List Nat)
    (fuel : Nat)
    (hfind : dictFind dec.strings.entries s = some i)
    (hlen64 : dec.strings.entries.length = 64)
    (hdrop : dec.data.drop dec.pos = (TOKEN_STRING + i) :: rest)
    (hrest : 4 ≤ rest.length) :
    packr_decode_next (fuel + 1) dec =
      some (some (.str s),
        { dec with pos := dec.pos + 1,
                   strings := ⟨dec.strings.entries.set i ⟨some s, dec.strings.usage + 1⟩,
                               dec.strings.usage + 1⟩ }) := by
  obtain ⟨-, hidx, hval⟩ := dictFindGo_spec s dec.strings.entries 0 i hfind
  rw [Nat.sub_zero] at hidx hval
  have hi : i < 64 := by omega
  obtain ⟨htok, -, hpos⟩ := streamHead _ _ _ _ hdrop
  have hlen : dec.data.length - dec.pos = 1 + rest.length := by
    have h := congrArg List.length hdrop
    rw [List.length_drop, List.length_cons] at h
    omega
  unfold packr_decode_next
  rw [if_neg (by omega), if_neg (by omega)]
  simp only [htok, TOKEN_STRING, TOKEN_FIELD, TOKEN_NULL, TOKEN_BOOL_TRUE,
    TOKEN_BOOL_FALSE, TOKEN_FLOAT32, TOKEN_DOUBLE, TOKEN_BINARY, TOKEN_INT,
    TOKEN_DELTA_LARGE, TOKEN_DELTA_ZERO, TOKEN_DELTA_ONE, TOKEN_DELTA_NEG_ONE,
    TOKEN_DELTA_MEDIUM, TOKEN_NEW_STRING, TOKEN_NEW_FIELD]
  have sNull : ¬(64 + i = 0xD9) := by omega
  have sTrue : ¬(64 + i = 0xD7) := by omega
  have sFalse : ¬(64 + i = 0xD8) := by omega
  have sF32 : ¬(64 + i = 0xC2) := by omega
  have sDbl : ¬(64 + i = 0xDE) := by omega
  have sBin : ¬(64 + i = 0xDF) := by omega
  have sInt : ¬(64 + i = 0xC0) := by omega
  have sLarge : ¬(64 + i = 0xD3) := by omega
  have sBand : ¬(0xC3 ≤ 64 + i ∧ 64 + i ≤ 0xD2) := by omega
  have sDz : ¬(64 + i = 0xE6) := by omega
  have sDo : ¬(64 + i = 0xE7) := by omega
  have sDn : ¬(64 + i = 0xE8) := by omega
  have sDm : ¬(64 + i = 0xEC) := by omega
  have sNew : ¬(64 + i = 0xD4 ∨ 64 + i = 0xD5) := by omega
  have sRef : 64 + i < 0x80 := by omega
  rw [if_neg sNull, if_neg sTrue, if_neg sFalse, if_neg sF32, if_neg sDbl,
    if_neg sBin, if_neg sInt, if_neg sLarge, if_neg sBand, if_neg sDz,
    if_neg sDo, if_neg sDn, if_neg sDm, if_neg sNew, if_pos sRef]
  have sFld : ¬(64 + i < 64) := by omega
  rw [if_neg sFld, if_neg sFld]
  have hsub : 64 + i - 64 = i := by omega
  rw [hsub]
  simp only [hval]
  rw [if_neg sFld]

/-- Decoding a field-dictionary reference byte stamps the slot and
yields the resident key. -/
theorem decodeNext_fieldhit_step (dec : Dec) (s : List Nat) (i : Nat) (rest : List Nat)
    (fuel : Nat)
    (hfind : dictFind dec.fields.entries s = some i)
    (hlen64 : dec.fields.entries.length = 64)
    (hdrop : dec.data.drop dec.pos = (TOKEN_FIELD + i) :: rest)
    (hrest : 4 ≤ rest.length) :
    packr_decode_next (fuel + 1) dec =
      some (some (.str s),
        { dec with pos := dec.pos + 1,
                   fields := ⟨dec.fields.entries.set i ⟨some s, dec.fields.usage + 1⟩,
                              dec.fields.usage + 1⟩ }) := by
  obtain ⟨-, hidx, hval⟩ := dictFindGo_spec s dec.fields.entries 0 i hfind
  rw [Nat.sub_zero] at hidx hval
  have hi : i < 64 := by omega
  obtain ⟨htok, -, hpos⟩ := streamHead _ _ _ _ hdrop
  have htok2 : li dec.data dec.pos = i := by rw [htok]; simp [TOKEN_FIELD]
  have hlen : dec.data.length - dec.pos = 1 + rest.length := by
    have h := congrArg List.length hdrop
    rw [List.length_drop, List.length_cons] at h
    omega
  unfold packr_decode_next
  rw [if_neg (by omega), if_neg (by omega)]
  simp only [htok2, TOKEN_STRING, TOKEN_FIELD, TOKEN_NULL, TOKEN_BOOL_TRUE,
    TOKEN_BOOL_FALSE, TOKEN_FLOAT32, TOKEN_DOUBLE, TOKEN_BINARY, TOKEN_INT,
    TOKEN_DELTA_LARGE, TOKEN_DELTA_ZERO, TOKEN_DELTA_ONE, TOKEN_DELTA_NEG_ONE,
    TOKEN_DELTA_MEDIUM, TOKEN_NEW_STRING, TOKEN_NEW_FIELD]
  have fNull : ¬(i = 0xD9) := by omega
  have fTrue : ¬(i = 0xD7) := by omega
  have fFalse : ¬(i = 0xD8) := by omega
  have fF32 : ¬(i = 0xC2) := by omega
  have fDbl : ¬(i = 0xDE) := by omega
  have fBin : ¬(i = 0xDF) := by omega
  have fInt : ¬(i = 0xC0) := by omega
  have fLarge : ¬(i = 0xD3) := by omega
  have fBand : ¬(0xC3 ≤ i ∧ i ≤ 0xD2) := by omega
  have fDz : ¬(i = 0xE6) := by omega
  have fDo : ¬(i = 0xE7) := by omega
  have fDn : ¬(i = 0xE8) := by omega
  have fDm : ¬(i = 0xEC) := by omega
  have fNew : ¬(i = 0xD4 ∨ i = 0xD5) := by omega
  have fRef : i < 0x80 := by omega
  rw [if_neg fNull, if_neg fTrue, if_neg fFalse, if_neg fF32, if_neg fDbl,
    if_neg fBin, if_neg fInt, if_neg fLarge, if_neg fBand, if_neg fDz,
    if_neg fDo, if_neg fDn, if_neg fDm, if_neg fNew, if_pos fRef]
  have fFld : i < 64 := hi
  rw [if_pos fFld, if_pos fFld]
  simp only [hval]
  rw [if_pos fFld]

/-- Decoding a NEW_STRING token reads the length varint and the raw
bytes and registers the string. -/
theorem decodeNext_strnew_step (dec : Dec) (s : List Nat) (rest : List Nat) (fuel : Nat)
    (hslen : s.length < 2 ^ 32)
    (hdrop : dec.data.drop dec.pos =
      TOKEN_NEW_STRING :: (varintEnc s.length ++ (s ++ rest)))
    (hrest : 4 ≤ rest.length) :
    packr_decode_next (fuel + 1) dec =
      some (some (.str s),
        { dec with pos := dec.pos + 1 + (varintEnc s.length).length + s.length,
                   strings := (dict_get_or_add dec.strings s).2.2 }) := by
  obtain ⟨htok, htl, hpos⟩ := streamHead _ _ _ _ hdrop
  have hlen : dec.data.length - dec.pos =
      1 + ((varintEnc s.length).length + (s.length + rest.length)) := by
    have h := congrArg List.length hdrop
    rw [List.length_drop, List.length_cons, List.length_append, List.length_append] at h
    omega
  have hvr := decodeVarintGo_enc dec.data (dec.pos + 1) s.length (s ++ rest) hslen htl
  have htail : dec.data.drop (dec.pos + 1 + (varintEnc s.length).length) = s ++ rest := by
    have := streamTake dec.data (dec.pos + 1) (varintEnc s.length) (s ++ rest) htl
    simpa [Nat.add_assoc] using this
  have hs : (dec.data.drop (dec.pos + 1 + (varintEnc s.length).length)).take s.length = s := by
    rw [htail, List.take_left]
  unfold packr_decode_next
  rw [if_neg (by omega), if_neg (by omega)]
  simp only [htok, TOKEN_NULL, TOKEN_BOOL_TRUE, TOKEN_BOOL_FALSE, TOKEN_FLOAT32,
    TOKEN_DOUBLE, TOKEN_BINARY, TOKEN_INT, TOKEN_DELTA_LARGE, TOKEN_DELTA_ZERO,
    TOKEN_DELTA_ONE, TOKEN_DELTA_NEG_ONE, TOKEN_DELTA_MEDIUM, TOKEN_NEW_STRING,
    TOKEN_NEW_FIELD]
  norm_num
  rw [hvr]
  simp only []
  exact ⟨by omega, hs, trivial, by rw [hs]⟩

/-- Decoding a NEW_FIELD token reads the length varint and the raw
bytes and registers the key. -/
theorem decodeNext_fieldnew_step (dec : Dec) (s : List Nat) (rest : List Nat) (fuel : Nat)
    (hslen : s.length < 2 ^ 32)
    (hdrop : dec.data.drop dec.pos =
      TOKEN_NEW_FIELD :: (varintEnc s.length ++ (s ++ rest)))
    (hrest : 4 ≤ rest.length) :
    packr_decode_next (fuel + 1) dec =
      some (some (.str s),
        { dec with pos := dec.pos + 1 + (varintEnc s.length).length + s.length,
                   fields := (dict_get_or_add dec.fields s).2.2 }) := by
  obtain ⟨htok, htl, hpos⟩ := streamHead _ _ _ _ hdrop
  have hlen : dec.data.length - dec.pos =
      1 + ((varintEnc s.length).length + (s.length + rest.length)) := by
    have h := congrArg List.length hdrop
    rw [List.length_drop, List.length_cons, List.length_append, List.length_append] at h
    omega
  have hvr := decodeVarintGo_enc dec.data (dec.pos + 1) s.length (s ++ rest) hslen htl
  have htail : dec.data.drop (dec.pos + 1 + (varintEnc s.length).length) = s ++ rest := by
    have := streamTake dec.data (dec.pos + 1) (varintEnc s.length) (s ++ rest) htl
    simpa [Nat.add_assoc] using this
  have hs : (dec.data.drop (dec.pos + 1 + (varintEnc s.length).length)).take s.length = s := by
    rw [htail, List.take_left]
  unfold packr_decode_next
  rw [if_neg (by omega), if_neg (by omega)]
  simp only [htok, TOKEN_NULL, TOKEN_BOOL_TRUE, TOKEN_BOOL_FALSE, TOKEN_FLOAT32,
    TOKEN_DOUBLE, TOKEN_BINARY, TOKEN_INT, TOKEN_DELTA_LARGE, TOKEN_DELTA_ZERO,
    TOKEN_DELTA_ONE, TOKEN_DELTA_NEG_ONE, TOKEN_DELTA_MEDIUM, TOKEN_NEW_STRING,
    TOKEN_NEW_FIELD]
  norm_num
  rw [hvr]
  simp only []
  exact ⟨by omega, hs, trivial, by rw [hs]⟩


/-- dict_get_or_add preserves the table size. -/
theorem dict_get_or_add_len (d : Dict) (key : List Nat) :
    (dict_get_or_add d key).2.2.entries.length = d.entries.length := by
  unfold dict_get_or_add
  split <;> simp [List.length_set]

/-- The object-field encoder loop only appends bytes and preserves the
dictionary shapes. -/
theorem encode_object_fields_app : ∀ (ys : List (List Nat × Doc)) (a a' : Enc),
    GoodKVs ys → encode_object_fields a ys = some a' →
      (∃ ts, a'.out = a.out ++ ts) ∧
      a'.fields.entries.length = a.fields.entries.length ∧
      a'.strings.entries.length = a.strings.entries.length ∧
      a'.macs = a.macs := by
  intro ys
  induction ys with
  | nil =>
    intro a a' _ h
    simp only [encode_object_fields, Option.some.injEq] at h
    subst h
    exact ⟨⟨[], by simp⟩, rfl, rfl, rfl⟩
  | cons y rest ihy =>
    intro a a' hg h
    match y with
    | (k, v0) =>
      simp only [encode_object_fields] at h
      have hfe : (∃ tf, (packr_encode_field a (truncKey k)).out = a.out ++ tf) ∧
          (packr_encode_field a (truncKey k)).fields.entries.length =
            a.fields.entries.length ∧
          (packr_encode_field a (truncKey k)).strings = a.strings ∧
          (packr_encode_field a (truncKey k)).macs = a.macs := by
        unfold packr_encode_field
        split
        case _ idx isNew dnew heq =>
          have hdn : dnew = (dict_get_or_add a.fields (truncKey k)).2.2 := by rw [heq]
          subst hdn
          cases isNew
          · exact ⟨⟨[TOKEN_FIELD + idx], by simp [packr_encode_token]⟩,
              by simp [packr_encode_token, dict_get_or_add_len], rfl, rfl⟩
          · exact ⟨⟨TOKEN_NEW_FIELD :: (varintEnc (truncKey k).length ++ truncKey k),
              by simp [bufApp, packr_encode_varint, packr_encode_token,
                List.append_assoc]⟩,
              by simp [bufApp, packr_encode_varint, packr_encode_token,
                dict_get_or_add_len], rfl, rfl⟩
      obtain ⟨⟨tf, htf⟩, ff, sf, mf⟩ := hfe
      match hv : encode_value (packr_encode_field a (truncKey k)) v0 with
      | none => rw [hv] at h; exact absurd h (by simp)
      | some a1 =>
        rw [hv] at h
        have h1 := encode_value_app (docSize v0) v0 le_rfl hg.2.1 _ a1 hv
        have h2 := ihy a1 a' hg.2.2 h
        obtain ⟨⟨t1, ht1, -⟩, f1, s1, m1⟩ := h1
        obtain ⟨⟨t2, ht2⟩, f2, s2, m2⟩ := h2
        refine ⟨⟨tf ++ (t1 ++ t2), ?_⟩, by omega, ?_, by rw [m2, m1, mf]⟩
        · rw [ht2, ht1, htf]
          simp [List.append_assoc]
        · rw [s2, s1, sf]

/-- The array-element encoder loop only appends bytes and preserves the
dictionary shapes. -/
theorem encode_array_elems_app : ∀ (ys : List Doc) (a a' : Enc),
    GoodElems ys → encode_array_elems a ys = some a' →
      (∃ ts, a'.out = a.out ++ ts) ∧
      a'.fields.entries.length = a.fields.entries.length ∧
      a'.strings.entries.length = a.strings.entries.length ∧
      a'.macs = a.macs := by
  intro ys
  induction ys with
  | nil =>
    intro a a' _ h
    simp only [encode_array_elems, Option.some.injEq] at h
    subst h
    exact ⟨⟨[], by simp⟩, rfl, rfl, rfl⟩
  | cons y rest ihy =>
    intro a a' hg h
    simp only [encode_array_elems] at h
    match hv : encode_value a y with
    | none => rw [hv] at h; exact absurd h (by simp)
    | some a1 =>
      rw [hv] at h
      have h1 := encode_value_app (docSize y) y le_rfl hg.1 a a1 hv
      have h2 := ihy a1 a' hg.2 h
      obtain ⟨⟨t1, ht1, -⟩, f1, s1, m1⟩ := h1
      obtain ⟨⟨t2, ht2⟩, f2, s2, m2⟩ := h2
      exact ⟨⟨t1 ++ t2, by rw [ht2, ht1, List.append_assoc]⟩,
        by omega, by omega, by rw [m2, m1]⟩

/-- Dispatch of an ARRAY_START token to the counted element loop. -/
theorem decodeNext_arrstart_step (dec : Dec) (rest : List Nat) (fuel cnt plen : Nat)
    (res : List Doc × Dec)
    (hdrop : dec.data.drop dec.pos = TOKEN_ARRAY_START :: rest)
    (hrest : 4 ≤ rest.length)
    (hvr : decodeVarintGo dec.data (dec.pos + 1) 0 0 = (cnt, plen))
    (hres : decodeArrayElems fuel { dec with pos := plen } cnt [] = res)
    (hend : res.2.pos < res.2.data.length ∧ li res.2.data res.2.pos = TOKEN_ARRAY_END) :
    packr_decode_next (fuel + 1) dec =
      some (some (.arr res.1), { res.2 with pos := res.2.pos + 1 }) := by
  obtain ⟨htok, -, hpos⟩ := streamHead _ _ _ _ hdrop
  have hlen : dec.data.length - dec.pos = 1 + rest.length := by
    have h := congrArg List.length hdrop
    rw [List.length_drop, List.length_cons] at h
    omega
  unfold packr_decode_next
  rw [if_neg (by omega), if_neg (by omega)]
  simp only [htok, TOKEN_NULL, TOKEN_BOOL_TRUE, TOKEN_BOOL_FALSE, TOKEN_FLOAT32,
    TOKEN_DOUBLE, TOKEN_BINARY, TOKEN_INT, TOKEN_DELTA_LARGE, TOKEN_DELTA_ZERO,
    TOKEN_DELTA_ONE, TOKEN_DELTA_NEG_ONE, TOKEN_DELTA_MEDIUM, TOKEN_NEW_STRING,
    TOKEN_NEW_FIELD, TOKEN_NEW_MAC, TOKEN_ARRAY_START]
  norm_num
  rw [hvr]
  simp only []
  rw [hres, if_pos hend]
  exact ⟨rfl, rfl⟩

/-- Dispatch of an OBJECT_START token to the field loop. -/
theorem decodeNext_objstart_step (dec : Dec) (rest : List Nat) (fuel : Nat)
    (res : List (List Nat × Doc) × Dec)
    (hdrop : dec.data.drop dec.pos = TOKEN_OBJECT_START :: rest)
    (hrest : 4 ≤ rest.length)
    (hres : decodeObjFields fuel { dec with pos := dec.pos + 1 } [] = some res) :
    packr_decode_next (fuel + 1) dec = some (some (.obj res.1), res.2) := by
  obtain ⟨kvs, d1⟩ := res
  obtain ⟨htok, -, hpos⟩ := streamHead _ _ _ _ hdrop
  have hlen : dec.data.length - dec.pos = 1 + rest.length := by
    have h := congrArg List.length hdrop
    rw [List.length_drop, List.length_cons] at h
    omega
  unfold packr_decode_next
  rw [if_neg (by omega), if_neg (by omega)]
  simp only [htok, TOKEN_NULL, TOKEN_BOOL_TRUE, TOKEN_BOOL_FALSE, TOKEN_FLOAT32,
    TOKEN_DOUBLE, TOKEN_BINARY, TOKEN_INT, TOKEN_DELTA_LARGE, TOKEN_DELTA_ZERO,
    TOKEN_DELTA_ONE, TOKEN_DELTA_NEG_ONE, TOKEN_DELTA_MEDIUM, TOKEN_NEW_STRING,
    TOKEN_NEW_FIELD, TOKEN_NEW_MAC, TOKEN_ARRAY_START, TOKEN_ARRAY_STREAM,
    TOKEN_OBJECT_START]
  norm_num
  rw [hres]



/-- One unfolding of the object-field loop. -/
theorem decodeObjFields_succ (fuel : Nat) (d : Dec)
    (acc : List (List Nat × Doc)) :
    decodeObjFields (fuel + 1) d acc =
      (if d.pos < d.data.length ∧ li d.data d.pos ≠ TOKEN_OBJECT_END then
        let nextT := li d.data d.pos
        let fieldIdx : Int := if nextT < 0x40 then (nextT : Int) else -1
        match packr_decode_next fuel d with
        | none => none
        | some (kdoc, d1) =>
          let k := keyBytesOf kdoc
          let oldField := d1.currentField
          match packr_decode_next fuel { d1 with currentField := fieldIdx } with
          | none => none
          | some (vdoc, d2) =>
            match vdoc with
            | none => none
            | some v =>
              decodeObjFields fuel { d2 with currentField := oldField } (acc ++ [(k, v)])
      else
        some (acc, if d.pos < d.data.length then { d with pos := d.pos + 1 } else d)) :=
  rfl

/-- Main decode simulation on the good class: the decoder reads back
exactly the document the recursive encoder wrote, advances past its
bytes, and tracks the encoder dictionaries in lockstep (the numeric
history slots change arbitrarily and are existentially quantified). -/
theorem decode_encode_good : ∀ (N : Nat) (v : Doc), docSize v ≤ N → GoodDoc v →
    ∀ (e e' : Enc), encode_value e v = some e' →
    e.fields.entries.length = 64 → e.strings.entries.length = 64 →
    ∀ (t : List Nat), e'.out = e.out ++ t →
    ∀ (dec : Dec) (rest : List Nat) (fuel : Nat),
      dec.fields = e.fields → dec.strings = e.strings → dec.macs = e.macs →
      dec.data.drop dec.pos = t ++ rest → 4 ≤ rest.length →
      dec.data.length - dec.pos + 2 ≤ fuel →
      ∃ ln lt, packr_decode_next fuel dec =
        some (some v,
          { dec with pos := dec.pos + t.length, fields := e'.fields,
                     strings := e'.strings, macs := e'.macs,
                     lastNums := ln, lastTypes := lt }) := by
  intro N
  induction N with
  | zero =>
    intro v hsz
    have := docSize_pos v
    omega
  | succ n ih =>
    intro v hsz hg e e' henc hf64 hs64 t ht dec rest fuel hdf hds hdm hdrop hrest hfuel
    cases fuel with
    | zero => exact absurd hfuel (by omega)
    | succ f =>
    match v with
    | .null =>
      simp only [encode_value, Option.some.injEq] at henc
      subst henc
      have hT : t = [TOKEN_NULL] := by
        have h1 : e.out ++ [TOKEN_NULL] = e.out ++ t := by
          simpa [packr_encode_null, packr_encode_token] using ht
        exact (List.append_cancel_left h1).symm
      subst hT
      refine ⟨dec.lastNums, dec.lastTypes, ?_⟩
      rw [decodeNext_null_step dec rest f (by simpa using hdrop) hrest]
      simp [packr_encode_null, packr_encode_token, hdf, hds, hdm]
    | .bool b =>
      simp only [encode_value, Option.some.injEq] at henc
      subst henc
      have hT : t = [if b then TOKEN_BOOL_TRUE else TOKEN_BOOL_FALSE] := by
        have h1 : e.out ++ [if b then TOKEN_BOOL_TRUE else TOKEN_BOOL_FALSE] =
            e.out ++ t := by
          simpa [packr_encode_bool, packr_encode_token] using ht
        exact (List.append_cancel_left h1).symm
      subst hT
      refine ⟨dec.lastNums, dec.lastTypes, ?_⟩
      rw [decodeNext_bool_step dec b rest f (by simpa using hdrop) hrest]
      simp [packr_encode_bool, packr_encode_token, hdf, hds, hdm]
    | .int z =>
      obtain ⟨hz1, hz2⟩ := hg
      simp only [encode_value, Option.some.injEq] at henc
      subst henc
      have hT : t = TOKEN_INT :: varintEnc (zigzag_encode z) := by
        have h1 : e.out ++ (TOKEN_INT :: varintEnc (zigzag_encode z)) = e.out ++ t := by
          simpa [packr_encode_int, packr_encode_varint, packr_encode_token, bufApp]
            using ht
        exact (List.append_cancel_left h1).symm
      subst hT
      obtain ⟨ln, lt, hstep⟩ := decodeNext_int_step dec z rest f hz1 hz2
        (by simpa using hdrop) hrest
      refine ⟨ln, lt, ?_⟩
      rw [hstep]
      have hpe : dec.pos + 1 + (varintEnc (zigzag_encode z)).length =
          dec.pos + (TOKEN_INT :: varintEnc (zigzag_encode z)).length := by
        rw [List.length_cons]
        omega
      rw [hpe]
      simp [packr_encode_int, packr_encode_varint, packr_encode_token, bufApp,
        hdf, hds, hdm]
    | .dbl bits =>
      simp only [encode_value, Option.some.injEq] at henc
      subst henc
      have hT : t = TOKEN_DOUBLE :: le64 bits := by
        have h1 : e.out ++ (TOKEN_DOUBLE :: le64 bits) = e.out ++ t := by
          simpa [packr_encode_double, packr_encode_token, bufApp] using ht
        exact (List.append_cancel_left h1).symm
      subst hT
      obtain ⟨ln, lt, hstep⟩ := decodeNext_double_step dec bits rest f hg
        (by simpa using hdrop) hrest
      refine ⟨ln, lt, ?_⟩
      rw [hstep]
      have hpe : dec.pos + 1 + 8 = dec.pos + (TOKEN_DOUBLE :: le64 bits).length := by
        rw [List.length_cons]
        simp [le64]
      rw [hpe]
      simp [packr_encode_double, packr_encode_token, bufApp, hdf, hds, hdm]
    | .num q => exact absurd hg (by simp [GoodDoc])
    | .bin b => exact absurd hg (by simp [GoodDoc])
    | .str s =>
      obtain ⟨hk255, hmac⟩ := hg
      have hs1 : (if 256 ≤ s.length then s.take 255 else s) = s := by
        rw [if_neg (by omega)]
      simp only [encode_value, hs1, hmac, Bool.false_eq_true, if_false,
        Option.some.injEq] at henc
      match hfind : dictFind e.strings.entries s with
      | some i =>
        have hdga : dict_get_or_add e.strings s =
            (i, false, ⟨e.strings.entries.set i ⟨some s, e.strings.usage + 1⟩,
              e.strings.usage + 1⟩) := by
          unfold dict_get_or_add
          rw [hfind]
        rw [packr_encode_string.eq_def, hdga] at henc
        simp only [Bool.false_eq_true, if_false] at henc
        subst henc
        have hT : t = [TOKEN_STRING + i] := by
          have h1 : e.out ++ [TOKEN_STRING + i] = e.out ++ t := by
            simpa [packr_encode_token] using ht
          exact (List.append_cancel_left h1).symm
        subst hT
        refine ⟨dec.lastNums, dec.lastTypes, ?_⟩
        rw [decodeNext_strhit_step dec s i rest f (by rw [hds]; exact hfind)
          (by rw [hds, hs64]) (by simpa using hdrop) hrest]
        simp [packr_encode_token, hdf, hds, hdm]
      | none =>
        have hdga : dict_get_or_add e.strings s =
            (dictClaimSlot e.strings.entries, true,
              ⟨e.strings.entries.set (dictClaimSlot e.strings.entries)
                ⟨some s, e.strings.usage + 1⟩, e.strings.usage + 1⟩) := by
          unfold dict_get_or_add
          rw [hfind]
        rw [packr_encode_string.eq_def, hdga] at henc
        simp only [if_true] at henc
        subst henc
        have hT : t = TOKEN_NEW_STRING :: (varintEnc s.length ++ s) := by
          have h1 : e.out ++ (TOKEN_NEW_STRING :: (varintEnc s.length ++ s)) =
              e.out ++ t := by
            simpa [bufApp, packr_encode_varint, packr_encode_token,
              List.append_assoc] using ht
          exact (List.append_cancel_left h1).symm
        subst hT
        refine ⟨dec.lastNums, dec.lastTypes, ?_⟩
        rw [decodeNext_strnew_step dec s rest f (by omega)
          (by simpa [List.append_assoc] using hdrop) hrest]
        have hpe : dec.pos + 1 + (varintEnc s.length).length + s.length =
            dec.pos + (TOKEN_NEW_STRING :: (varintEnc s.length ++ s)).length := by
          rw [List.length_cons, List.length_append]
          omega
        rw [hpe]
        simp [bufApp, packr_encode_varint, packr_encode_token, hdf, hds, hdm, hdga]
    | .arr xs =>
      obtain ⟨hrows, hcnt, hels⟩ := hg
      simp only [encode_value] at henc
      rw [ultra_soft e xs hrows] at henc
      simp only [Option.map_eq_some'] at henc
      obtain ⟨e2, he2, hee⟩ := henc
      subst hee
      obtain ⟨⟨ts, hts⟩, fL, sL, mL⟩ := encode_array_elems_app xs _ e2 hels he2
      have hT : t = TOKEN_ARRAY_START :: (varintEnc xs.length ++ (ts ++ [TOKEN_ARRAY_END])) := by
        have h2 : e2.out ++ [TOKEN_ARRAY_END] = e.out ++ t := by
          simpa [packr_encode_token] using ht
        rw [hts] at h2
        have h3 : (packr_encode_varint (packr_encode_token e TOKEN_ARRAY_START)
            xs.length).out = e.out ++ (TOKEN_ARRAY_START :: varintEnc xs.length) := by
          simp [packr_encode_token, packr_encode_varint, bufApp]
        rw [h3] at h2
        have h1 : e.out ++ (TOKEN_ARRAY_START ::
            (varintEnc xs.length ++ (ts ++ [TOKEN_ARRAY_END]))) = e.out ++ t := by
          simpa [List.append_assoc] using h2
        exact (List.append_cancel_left h1).symm
      subst hT
      have hvp : 1 ≤ (varintEnc xs.length).length :=
        List.length_pos.mpr (varintEnc_nonempty _)
      have hlenEq : dec.data.length - dec.pos =
          1 + ((varintEnc xs.length).length + (ts.length + (1 + rest.length))) := by
        have h := congrArg List.length hdrop
        simp only [List.length_drop, List.length_append, List.length_cons,
          List.length_nil] at h
        omega
      obtain ⟨-, htl, hpos0⟩ := streamHead _ _ _ _
        (show dec.data.drop dec.pos = TOKEN_ARRAY_START ::
          (varintEnc xs.length ++ (ts ++ (TOKEN_ARRAY_END :: rest))) by
            simpa [List.append_assoc] using hdrop)
      have hvr := decodeVarintGo_enc dec.data (dec.pos + 1) xs.length
        (ts ++ (TOKEN_ARRAY_END :: rest)) hcnt htl
      have hd0 : dec.data.drop (dec.pos + 1 + (varintEnc xs.length).length) =
          ts ++ (TOKEN_ARRAY_END :: rest) := by
        have := streamTake dec.data (dec.pos + 1) (varintEnc xs.length)
          (ts ++ (TOKEN_ARRAY_END :: rest)) htl
        simpa [Nat.add_assoc] using this
      have hloopA : ∀ (ys : List Doc), GoodElems ys → docSizeL ys ≤ n →
          ∀ (a a' : Enc), encode_array_elems a ys = some a' →
          a.fields.entries.length = 64 → a.strings.entries.length = 64 →
          ∀ (tsx : List Nat), a'.out = a.out ++ tsx →
          ∀ (dc : Dec) (rs : List Nat) (F : Nat),
            dc.fields = a.fields → dc.strings = a.strings → dc.macs = a.macs →
            dc.data.drop dc.pos = tsx ++ rs → 4 ≤ rs.length →
            dc.data.length - dc.pos + 3 ≤ F →
            ∀ acc, ∃ ln lt, decodeArrayElems F dc ys.length acc =
              (acc ++ ys,
                { dc with pos := dc.pos + tsx.length, fields := a'.fields,
                          strings := a'.strings, macs := a'.macs,
                          lastNums := ln, lastTypes := lt }) := by
        intro ys
        induction ys with
        | nil =>
          intro _ _ a a' hx _ _ tsx htsx dc rs F hcf hcs hcm hcd hcr hcF acc
          simp only [encode_array_elems, Option.some.injEq] at hx
          subst hx
          have htn : tsx = [] := by
            have hl := congrArg List.length htsx
            rw [List.length_append] at hl
            exact List.eq_nil_of_length_eq_zero (by omega)
          subst htn
          refine ⟨dc.lastNums, dc.lastTypes, ?_⟩
          cases F with
          | zero => exact absurd hcF (by omega)
          | succ F1 =>
            simp only [List.length_nil]
            have hz : decodeArrayElems (F1 + 1) dc 0 acc = (acc, dc) := rfl
            rw [hz, ← hcf, ← hcs, ← hcm]
            simp
        | cons y ys2 ihy =>
          intro hgys hszs a a' hx h64f h64s tsx htsx dc rs F hcf hcs hcm hcd hcr hcF acc
          simp only [encode_array_elems] at hx
          match hv : encode_value a y with
          | none => rw [hv] at hx; exact absurd hx (by simp)
          | some a1 =>
            rw [hv] at hx
            obtain ⟨⟨ty, hty, htyp⟩, fy, sy, my⟩ :=
              encode_value_app (docSize y) y le_rfl hgys.1 a a1 hv
            obtain ⟨⟨ts2, hts2⟩, f2, s2, m2⟩ := encode_array_elems_app ys2 a1 a' hgys.2 hx
            have hT2 : tsx = ty ++ ts2 := by
              have h1 : a.out ++ (ty ++ ts2) = a.out ++ tsx := by
                rw [← List.append_assoc, ← hty, ← hts2, htsx]
              exact (List.append_cancel_left h1).symm
            subst hT2
            have hlen2 : dc.data.length - dc.pos =
                ty.length + (ts2.length + rs.length) := by
              have h := congrArg List.length hcd
              simp only [List.length_drop, List.length_append] at h
              omega
            cases F with
            | zero => exact absurd hcF (by omega)
            | succ F1 =>
              have hdrop1 : dc.data.drop dc.pos = ty ++ (ts2 ++ rs) := by
                simpa [List.append_assoc] using hcd
              obtain ⟨ln1, lt1, hd1⟩ := ih y
                (by simp only [docSizeL] at hszs; have := docSize_pos y; omega)
                hgys.1 a a1 hv h64f h64s ty hty dc (ts2 ++ rs) F1 hcf hcs hcm hdrop1
                (by simp only [List.length_append]; omega) (by omega)
              have hd0y : dc.data.drop (dc.pos + ty.length) = ts2 ++ rs :=
                streamTake dc.data dc.pos ty (ts2 ++ rs) hdrop1
              obtain ⟨ln2, lt2, hd2⟩ := ihy hgys.2
                (by simp only [docSizeL] at hszs; omega) a1 a' hx
                (by omega) (by omega) ts2 hts2
                { dc with pos := dc.pos + ty.length, fields := a1.fields,
                          strings := a1.strings, macs := a1.macs,
                          lastNums := ln1, lastTypes := lt1 }
                rs F1 rfl rfl rfl hd0y hcr (by simp only []; omega)
                (acc ++ [y])
              refine ⟨ln2, lt2, ?_⟩
              simp only [List.length_cons]
              have hstep : decodeArrayElems (F1 + 1) dc (ys2.length + 1) acc =
                  match packr_decode_next F1 dc with
                  | none => (acc, dc)
                  | some (x, d1) => decodeArrayElems F1 d1 ys2.length (acc ++ x.toList) :=
                rfl
              rw [hstep, hd1]
              simp only [Option.toList]
              rw [hd2]
              simp only [Prod.mk.injEq]
              constructor
              · simp
              · simp only [List.length_append]
                congr 1
                omega
      have hloopRes := hloopA xs hels (by simp only [docSize] at hsz; omega)
        (packr_encode_varint (packr_encode_token e TOKEN_ARRAY_START) xs.length) e2 he2
        (by simpa [packr_encode_token, packr_encode_varint, bufApp] using hf64)
        (by simpa [packr_encode_token, packr_encode_varint, bufApp] using hs64)
        ts hts
        { dec with pos := dec.pos + 1 + (varintEnc xs.length).length }
        (TOKEN_ARRAY_END :: rest) f
        (by simp [packr_encode_token, packr_encode_varint, bufApp, hdf])
        (by simp [packr_encode_token, packr_encode_varint, bufApp, hds])
        (by simp [packr_encode_token, packr_encode_varint, bufApp, hdm])
        hd0 (by simp only [List.length_cons]; omega) (by simp only []; omega) []
      obtain ⟨ln, lt, hres⟩ := hloopRes
      have hdE : dec.data.drop (dec.pos + 1 + (varintEnc xs.length).length + ts.length) =
          TOKEN_ARRAY_END :: rest := streamTake dec.data _ ts (TOKEN_ARRAY_END :: rest) hd0
      obtain ⟨htokE, -, hposE⟩ := streamHead _ _ _ _ hdE
      refine ⟨ln, lt, ?_⟩
      rw [decodeNext_arrstart_step dec
        (varintEnc xs.length ++ (ts ++ (TOKEN_ARRAY_END :: rest))) f xs.length
        (dec.pos + 1 + (varintEnc xs.length).length) _
        (by simpa [List.append_assoc] using hdrop)
        (by simp only [List.length_append, List.length_cons]; omega)
        hvr hres ⟨by simpa using hposE, by simpa using htokE⟩]
      simp only [packr_encode_token, List.nil_append, Option.some.injEq, Prod.mk.injEq,
        List.length_cons, List.length_append, List.length_nil]
      refine ⟨trivial, ?_⟩
      congr 1
      omega
    | .obj kvs =>
      simp only [encode_value] at henc
      simp only [Option.map_eq_some'] at henc
      obtain ⟨e2, he2, hee⟩ := henc
      subst hee
      obtain ⟨⟨ts, hts⟩, fL, sL, mL⟩ := encode_object_fields_app kvs _ e2 hg he2
      have hT : t = TOKEN_OBJECT_START :: (ts ++ [TOKEN_OBJECT_END]) := by
        have h2 : e2.out ++ [TOKEN_OBJECT_END] = e.out ++ t := by
          simpa [packr_encode_token] using ht
        rw [hts] at h2
        have h3 : (packr_encode_token e TOKEN_OBJECT_START).out =
            e.out ++ [TOKEN_OBJECT_START] := by
          simp [packr_encode_token]
        rw [h3] at h2
        have h1 : e.out ++ (TOKEN_OBJECT_START :: (ts ++ [TOKEN_OBJECT_END])) =
            e.out ++ t := by
          simpa [List.append_assoc] using h2
        exact (List.append_cancel_left h1).symm
      subst hT
      have hlenEq : dec.data.length - dec.pos = 1 + (ts.length + (1 + rest.length)) := by
        have h := congrArg List.length hdrop
        simp only [List.length_drop, List.length_append, List.length_cons,
          List.length_nil] at h
        omega
      obtain ⟨-, htl, hpos0⟩ := streamHead _ _ _ _
        (show dec.data.drop dec.pos = TOKEN_OBJECT_START ::
          (ts ++ (TOKEN_OBJECT_END :: rest)) by simpa [List.append_assoc] using hdrop)
      have hloopO : ∀ (ys : List (List Nat × Doc)), GoodKVs ys → docSizeKV ys ≤ n →
          ∀ (a a' : Enc), encode_object_fields a ys = some a' →
          a.fields.entries.length = 64 → a.strings.entries.length = 64 →
          ∀ (tsx : List Nat), a'.out = a.out ++ tsx →
          ∀ (dc : Dec) (rs : List Nat) (F : Nat),
            dc.fields = a.fields → dc.strings = a.strings → dc.macs = a.macs →
            dc.data.drop dc.pos = tsx ++ (TOKEN_OBJECT_END :: rs) → 4 ≤ rs.length →
            dc.data.length - dc.pos + 2 ≤ F →
            ∀ acc, ∃ ln lt, decodeObjFields F dc acc =
              some (acc ++ ys,
                { dc with pos := dc.pos + tsx.length + 1, fields := a'.fields,
                          strings := a'.strings, macs := a'.macs,
                          lastNums := ln, lastTypes := lt }) := by
        intro ys
        induction ys with
        | nil =>
          intro _ _ a a' hx _ _ tsx htsx dc rs F hcf hcs hcm hcd hcr hcF acc
          simp only [encode_object_fields, Option.some.injEq] at hx
          subst hx
          have htn : tsx = [] := by
            have hl := congrArg List.length htsx
            rw [List.length_append] at hl
            exact List.eq_nil_of_length_eq_zero (by omega)
          subst htn
          rw [List.nil_append] at hcd
          obtain ⟨htokE, -, hposE⟩ := streamHead _ _ _ _ hcd
          refine ⟨dc.lastNums, dc.lastTypes, ?_⟩
          cases F with
          | zero => exact absurd hcF (by omega)
          | succ F1 =>
            rw [decodeObjFields_succ]
            rw [if_neg (fun hc => hc.2 htokE), if_pos hposE]
            rw [← hcf, ← hcs, ← hcm]
            simp
        | cons y ys2 ihy =>
          intro hgys hszs a a' hx h64f h64s tsx htsx dc rs F hcf hcs hcm hcd hcr hcF acc
          match y, hgys with
          | (k, v0), ⟨hk255, hgv, hgys2⟩ =>
            simp only [encode_object_fields] at hx
            have htk : truncKey k = k := by
              unfold truncKey
              rw [if_neg (by omega)]
            rw [htk] at hx
            match hv : encode_value (packr_encode_field a k) v0 with
            | none => rw [hv] at hx; exact absurd hx (by simp)
            | some a1 =>
              rw [hv] at hx
              obtain ⟨⟨tv, htv, htvp⟩, fy, sy, my⟩ :=
                encode_value_app (docSize v0) v0 le_rfl hgv _ a1 hv
              obtain ⟨⟨ts2, hts2⟩, f2, s2, m2⟩ :=
                encode_object_fields_app ys2 a1 a' hgys2 hx
              cases F with
              | zero => exact absurd hcF (by omega)
              | succ F1 =>
              match hfind : dictFind a.fields.entries k with
              | some i =>
                have hdga : dict_get_or_add a.fields k =
                    (i, false, ⟨a.fields.entries.set i ⟨some k, a.fields.usage + 1⟩,
                      a.fields.usage + 1⟩) := by
                  unfold dict_get_or_add
                  rw [hfind]
                have haf : packr_encode_field a k = packr_encode_token
                    { a with fields := ⟨a.fields.entries.set i
                        ⟨some k, a.fields.usage + 1⟩, a.fields.usage + 1⟩ }
                    (TOKEN_FIELD + i) := by
                  rw [packr_encode_field.eq_def, hdga]
                  simp
                have hafout : (packr_encode_field a k).out =
                    a.out ++ [TOKEN_FIELD + i] := by
                  rw [haf]
                  simp [packr_encode_token]
                have hT2 : tsx = [TOKEN_FIELD + i] ++ (tv ++ ts2) := by
                  have h1 : a.out ++ ([TOKEN_FIELD + i] ++ (tv ++ ts2)) =
                      a.out ++ tsx := by
                    rw [← List.append_assoc, ← List.append_assoc, ← hafout, ← htv,
                      ← hts2, htsx]
                  exact (List.append_cancel_left h1).symm
                subst hT2
                have hlen2 : dc.data.length - dc.pos =
                    1 + (tv.length + (ts2.length + (1 + rs.length))) := by
                  have h := congrArg List.length hcd
                  simp only [List.length_drop, List.length_append, List.length_cons,
                    List.length_singleton, List.length_nil] at h
                  omega
                have hdropk : dc.data.drop dc.pos =
                    (TOKEN_FIELD + i) :: (tv ++ (ts2 ++ (TOKEN_OBJECT_END :: rs))) := by
                  simpa [List.append_assoc] using hcd
                obtain ⟨htokk, -, hposk⟩ := streamHead _ _ _ _ hdropk
                cases F1 with
                | zero => exact absurd hcF (by omega)
                | succ F2 =>
                have hkey := decodeNext_fieldhit_step dc k i
                  (tv ++ (ts2 ++ (TOKEN_OBJECT_END :: rs))) F2
                  (by rw [hcf]; exact hfind) (by rw [hcf, h64f]) hdropk
                  (by simp only [List.length_append, List.length_cons]; omega)
                have hdropv : dc.data.drop (dc.pos + 1) =
                    tv ++ (ts2 ++ (TOKEN_OBJECT_END :: rs)) :=
                  (streamHead _ _ _ _ hdropk).2.1
                obtain ⟨ln1, lt1, hval⟩ := ih v0
                  (by simp only [docSizeKV] at hszs; omega) hgv
                  (packr_encode_field a k) a1 hv
                  (by rw [haf]; simpa [packr_encode_token, List.length_set] using h64f)
                  (by rw [haf]; simpa [packr_encode_token] using h64s)
                  tv htv
                  { dc with pos := dc.pos + 1,
                            fields := ⟨dc.fields.entries.set i
                              ⟨some k, dc.fields.usage + 1⟩, dc.fields.usage + 1⟩,
                            currentField := ((TOKEN_FIELD + i : Nat) : Int) }
                  (ts2 ++ (TOKEN_OBJECT_END :: rs)) (F2 + 1)
                  (by rw [haf, hcf]; simp [packr_encode_token])
                  (by rw [haf, hcs]; simp [packr_encode_token])
                  (by rw [haf, hcm]; simp [packr_encode_token])
                  hdropv
                  (by simp only [List.length_append, List.length_cons]; omega)
                  (by simp only []; omega)
                have hdropr : dc.data.drop (dc.pos + 1 + tv.length) =
                    ts2 ++ (TOKEN_OBJECT_END :: rs) := by
                  have := streamTake dc.data (dc.pos + 1) tv
                    (ts2 ++ (TOKEN_OBJECT_END :: rs)) hdropv
                  simpa [Nat.add_assoc] using this
                obtain ⟨ln2, lt2, hrec⟩ := ihy hgys2
                  (by simp only [docSizeKV] at hszs; have := docSize_pos v0; omega)
                  a1 a' hx
                  (by rw [fy, haf]; simp [packr_encode_token, List.length_set, h64f])
                  (by rw [sy, haf]; simp [packr_encode_token, h64s])
                  ts2 hts2
                  { dc with pos := dc.pos + 1 + tv.length, fields := a1.fields,
                            strings := a1.strings, macs := a1.macs,
                            lastNums := ln1, lastTypes := lt1 }
                  rs (F2 + 1) rfl rfl rfl hdropr hcr (by simp only []; omega)
                  (acc ++ [(k, v0)])
                have hi64 : i < 64 := by
                  have h9 := (dictFindGo_spec k a.fields.entries 0 i hfind).2.1
                  omega
                refine ⟨ln2, lt2, ?_⟩
                rw [decodeObjFields_succ]
                rw [if_pos ⟨hposk, by rw [htokk]; simp [TOKEN_FIELD, TOKEN_OBJECT_END]; omega⟩]
                simp only [htokk]
                rw [if_pos (by simp [TOKEN_FIELD]; omega)]
                rw [hkey]
                simp only [keyBytesOf]
                have hval2 : packr_decode_next (F2 + 1)
                    { dc with pos := dc.pos + 1,
                              fields := ⟨dc.fields.entries.set i
                                ⟨some k, dc.fields.usage + 1⟩, dc.fields.usage + 1⟩,
                              currentField := ((TOKEN_FIELD + i : Nat) : Int) } =
                    some (some v0, _) := hval
                rw [hval2]
                simp only []
                rw [hrec]
                simp only [Option.some.injEq, Prod.mk.injEq]
                constructor
                · simp
                · simp only [List.length_append, List.length_cons, List.length_singleton, List.length_nil]
                  congr 1
                  omega
              | none =>
                have hdga : dict_get_or_add a.fields k =
                    (dictClaimSlot a.fields.entries, true,
                      ⟨a.fields.entries.set (dictClaimSlot a.fields.entries)
                        ⟨some k, a.fields.usage + 1⟩, a.fields.usage + 1⟩) := by
                  unfold dict_get_or_add
                  rw [hfind]
                have haf : packr_encode_field a k = bufApp (packr_encode_varint
                    (packr_encode_token
                      { a with fields := ⟨a.fields.entries.set
                          (dictClaimSlot a.fields.entries)
                          ⟨some k, a.fields.usage + 1⟩, a.fields.usage + 1⟩ }
                      TOKEN_NEW_FIELD) k.length) k := by
                  rw [packr_encode_field.eq_def, hdga]
                  simp
                have hafout : (packr_encode_field a k).out =
                    a.out ++ (TOKEN_NEW_FIELD :: (varintEnc k.length ++ k)) := by
                  rw [haf]
                  simp [bufApp, packr_encode_varint, packr_encode_token,
                    List.append_assoc]
                have hT2 : tsx = (TOKEN_NEW_FIELD :: (varintEnc k.length ++ k)) ++
                    (tv ++ ts2) := by
                  have h1 : a.out ++ ((TOKEN_NEW_FIELD :: (varintEnc k.length ++ k)) ++
                      (tv ++ ts2)) = a.out ++ tsx := by
                    rw [← List.append_assoc, ← List.append_assoc, ← hafout, ← htv,
                      ← hts2, htsx]
                  exact (List.append_cancel_left h1).symm
                subst hT2
                have hlen2 : dc.data.length - dc.pos =
                    1 + ((varintEnc k.length).length + k.length +
                      (tv.length + (ts2.length + (1 + rs.length)))) := by
                  have h := congrArg List.length hcd
                  simp only [List.length_drop, List.length_append, List.length_cons,
                    List.length_singleton, List.length_nil] at h
                  omega
                have hdropk : dc.data.drop dc.pos =
                    TOKEN_NEW_FIELD :: (varintEnc k.length ++
                      (k ++ (tv ++ (ts2 ++ (TOKEN_OBJECT_END :: rs))))) := by
                  simpa [List.append_assoc] using hcd
                obtain ⟨htokk, -, hposk⟩ := streamHead _ _ _ _ hdropk
                cases F1 with
                | zero => exact absurd hcF (by omega)
                | succ F2 =>
                have hkey := decodeNext_fieldnew_step dc k
                  (tv ++ (ts2 ++ (TOKEN_OBJECT_END :: rs))) F2 (by omega) hdropk
                  (by simp only [List.length_append, List.length_cons]; omega)
                have hdropv : dc.data.drop (dc.pos + 1 + (varintEnc k.length).length +
                    k.length) = tv ++ (ts2 ++ (TOKEN_OBJECT_END :: rs)) := by
                  have h5 := streamTake dc.data dc.pos
                    (TOKEN_NEW_FIELD :: (varintEnc k.length ++ k))
                    (tv ++ (ts2 ++ (TOKEN_OBJECT_END :: rs)))
                    (by simpa [List.append_assoc] using hcd)
                  simpa [List.length_cons, List.length_append, Nat.add_assoc,
                    Nat.add_comm, Nat.add_left_comm] using h5
                obtain ⟨ln1, lt1, hval⟩ := ih v0
                  (by simp only [docSizeKV] at hszs; omega) hgv
                  (packr_encode_field a k) a1 hv
                  (by rw [haf]; simpa [bufApp, packr_encode_varint, packr_encode_token,
                    List.length_set] using h64f)
                  (by rw [haf]; simpa [bufApp, packr_encode_varint,
                    packr_encode_token] using h64s)
                  tv htv
                  { dc with pos := dc.pos + 1 + (varintEnc k.length).length + k.length,
                            fields := (dict_get_or_add dc.fields k).2.2,
                            currentField := (-1 : Int) }
                  (ts2 ++ (TOKEN_OBJECT_END :: rs)) (F2 + 1)
                  (by rw [haf, hcf, hdga]; simp [bufApp, packr_encode_varint,
                    packr_encode_token, hcf, hdga])
                  (by rw [haf, hcs]; simp [bufApp, packr_encode_varint,
                    packr_encode_token])
                  (by rw [haf, hcm]; simp [bufApp, packr_encode_varint,
                    packr_encode_token])
                  hdropv
                  (by simp only [List.length_append, List.length_cons]; omega)
                  (by simp only []; omega)
                have hdropr : dc.data.drop (dc.pos + 1 + (varintEnc k.length).length +
                    k.length + tv.length) = ts2 ++ (TOKEN_OBJECT_END :: rs) := by
                  have := streamTake dc.data
                    (dc.pos + 1 + (varintEnc k.length).length + k.length) tv
                    (ts2 ++ (TOKEN_OBJECT_END :: rs)) hdropv
                  simpa [Nat.add_assoc] using this
                obtain ⟨ln2, lt2, hrec⟩ := ihy hgys2
                  (by simp only [docSizeKV] at hszs; have := docSize_pos v0; omega)
                  a1 a' hx
                  (by rw [fy, haf]; simp [bufApp, packr_encode_varint,
                    packr_encode_token, List.length_set, h64f])
                  (by rw [sy, haf]; simp [bufApp, packr_encode_varint,
                    packr_encode_token, h64s])
                  ts2 hts2
                  { dc with pos := dc.pos + 1 + (varintEnc k.length).length + k.length +
                              tv.length,
                            fields := a1.fields, strings := a1.strings, macs := a1.macs,
                            lastNums := ln1, lastTypes := lt1 }
                  rs (F2 + 1) rfl rfl rfl hdropr hcr (by simp only []; omega)
                  (acc ++ [(k, v0)])
                refine ⟨ln2, lt2, ?_⟩
                rw [decodeObjFields_succ]
                rw [if_pos ⟨hposk, by rw [htokk]; simp [TOKEN_NEW_FIELD,
                  TOKEN_OBJECT_END]⟩]
                simp only [htokk]
                rw [if_neg (by simp [TOKEN_NEW_FIELD])]
                rw [hkey]
                simp only [keyBytesOf]
                have hval2 : packr_decode_next (F2 + 1)
                    { dc with pos := dc.pos + 1 + (varintEnc k.length).length + k.length,
                              fields := (dict_get_or_add dc.fields k).2.2,
                              currentField := (-1 : Int) } =
                    some (some v0, _) := hval
                rw [hval2]
                simp only []
                rw [hrec]
                simp only [Option.some.injEq, Prod.mk.injEq]
                constructor
                · simp
                · simp only [List.length_append, List.length_cons, List.length_singleton, List.length_nil]
                  congr 1
                  omega
      have hloopRes := hloopO kvs hg (by simp only [docSize] at hsz; omega)
        (packr_encode_token e TOKEN_OBJECT_START) e2 he2
        (by simpa [packr_encode_token] using hf64)
        (by simpa [packr_encode_token] using hs64)
        ts hts
        { dec with pos := dec.pos + 1 } rest f
        (by simp [packr_encode_token, hdf])
        (by simp [packr_encode_token, hds])
        (by simp [packr_encode_token, hdm])
        (by simpa using htl) hrest (by simp only []; omega) []
      obtain ⟨ln, lt, hres⟩ := hloopRes
      refine ⟨ln, lt, ?_⟩
      rw [decodeNext_objstart_step dec (ts ++ (TOKEN_OBJECT_END :: rest)) f _
        (by simpa [List.append_assoc] using hdrop)
        (by simp only [List.length_append, List.length_cons]; omega) hres]
      simp only [packr_encode_token, List.nil_append, Option.some.injEq, Prod.mk.injEq,
        List.length_cons, List.length_append, List.length_singleton, List.length_nil]
      refine ⟨trivial, ?_⟩
      congr 1
      omega

/-- The encoder state produced by encoding the witness document
`{"k": 5}` (object start, NEW_FIELD "k", INT 5, object end). -/
def c1WitnessEnc : Enc :=
  ⟨[0xDC, 0xD5, 0x01, 0x6B, 0xC0, 0x0A, 0xDD], 4,
    ⟨(List.replicate 64 (⟨none, 0⟩ : DictEntry)).set 0 ⟨some [0x6B], 1⟩, 1⟩,
    dict_init, dict_init⟩

/-- C1: the round trip `decode (encode D) = D` holds exactly on the class
the code actually preserves — no binary values (decoded to a placeholder
string) and no fixed-point floats, strings and object keys of at most 255
bytes that are not MAC-shaped, int32 integers, 64-bit double bit
patterns, and arrays with fewer than four leading object rows (so the
recursive encoder runs) of 32-bit length: decoding the finished frame of
such a document yields the document exactly, with the header skipped via
the magic bytes and the four trailing CRC bytes never validated. -/
theorem C1_good_roundtrip (d : Doc) (hg : GoodDoc d) (e' : Enc)
    (henc : json_encode_to_packr d = some e')
    (hsym : e'.symbolCount < 2 ^ 32) :
    decodeFrameDoc (packr_encoder_finish e') = some d := by
  set data := packr_encoder_finish e' with hdef
  have h0 : li data 0 = 0x50 := by rw [hdef]; rfl
  have htake4 : data.take 4 = [0x50, 0x4B, 0x52, 0x31] := by rw [hdef]; rfl
  obtain ⟨tl, htl6, htl4⟩ : ∃ tl, data.drop 6 =
      varintEnc e'.symbolCount ++ (e'.out ++ tl) ∧ tl.length = 4 := by
    refine ⟨le32 (calculate_crc32 (([0x50, 0x4B, 0x52, 0x31, 0x01, 0x00] ++
      varintEnc e'.symbolCount) ++ e'.out)), ?_, by simp [le32]⟩
    have h6 : data.drop 6 = (varintEnc e'.symbolCount ++ e'.out) ++
        le32 (calculate_crc32 (([0x50, 0x4B, 0x52, 0x31, 0x01, 0x00] ++
          varintEnc e'.symbolCount) ++ e'.out)) := by
      rw [hdef]; rfl
    rw [h6, List.append_assoc]
  have hld : data.length - 6 =
      (varintEnc e'.symbolCount).length + (e'.out.length + tl.length) := by
    have h9 := congrArg List.length htl6
    simpa [List.length_drop, List.length_append] using h9
  have hvp : 1 ≤ (varintEnc e'.symbolCount).length :=
    List.length_pos.mpr (varintEnc_nonempty _)
  have hvr6 := decodeVarintGo_enc data 6 e'.symbolCount (e'.out ++ tl) hsym htl6
  have hinit : packr_decoder_init data =
      ⟨data, 6 + (varintEnc e'.symbolCount).length, dict_init, dict_init, dict_init,
        List.replicate 64 0, List.replicate 64 0, -1⟩ := by
    simp only [packr_decoder_init]
    rw [if_neg (fun hc => absurd (h0.symm.trans hc.2.1) (by norm_num))]
    rw [if_pos ⟨by omega, htake4⟩]
    rw [hvr6]
  have hdropB : data.drop (6 + (varintEnc e'.symbolCount).length) = e'.out ++ tl :=
    streamTake data 6 (varintEnc e'.symbolCount) (e'.out ++ tl) htl6
  obtain ⟨ln, lt, hmain⟩ := decode_encode_good (docSize d) d le_rfl hg
    packr_encoder_init e' henc
    (by simp [packr_encoder_init, dict_init])
    (by simp [packr_encoder_init, dict_init])
    e'.out (by simp [packr_encoder_init])
    ⟨data, 6 + (varintEnc e'.symbolCount).length, dict_init, dict_init, dict_init,
      List.replicate 64 0, List.replicate 64 0, -1⟩
    tl (data.length + 1) rfl rfl rfl hdropB (by omega) (by simp only []; omega)
  simp only [decodeFrameDoc]
  rw [hinit, hmain]

/-- Witness: the frame of `{"k": 5}` decodes back to `{"k": 5}`. -/
theorem C1_good_roundtrip_witness :
    GoodDoc (Doc.obj [([0x6B], Doc.int 5)]) ∧
    json_encode_to_packr (Doc.obj [([0x6B], Doc.int 5)]) = some c1WitnessEnc ∧
    c1WitnessEnc.symbolCount < 2 ^ 32 ∧
    decodeFrameDoc (packr_encoder_finish c1WitnessEnc) =
      some (Doc.obj [([0x6B], Doc.int 5)]) := by
  have hg : GoodDoc (Doc.obj [([0x6B], Doc.int 5)]) :=
    ⟨by norm_num, ⟨by norm_num, by norm_num⟩, trivial⟩
  have he : json_encode_to_packr (Doc.obj [([0x6B], Doc.int 5)]) = some c1WitnessEnc := by
    decide
  exact ⟨hg, he, by norm_num [c1WitnessEnc],
    C1_good_roundtrip (Doc.obj [([0x6B], Doc.int 5)]) hg c1WitnessEnc he (by decide)⟩


end Packr
